import Mathlib

/-!
# Slim Markup Language: value model and parser

A shallow embedding of `smldef.h`, `sml/smlobj.h` and `sml/smlparse.h`.

* A `std::string` is a `List Char`; an iterator pair `(it, end)` is the list of
  characters still in front of `it`, so `it == end` is `it = []`, `*it` is the head and
  `++it` is the tail.  Dereferencing or advancing an iterator that equals `end` has no
  defined result in C++; the embedding reports it as `Err.readPastEnd`.
* Exceptions are the `Err` summand of `Except`; the message of an exception is left out.
* `std::unordered_map` is an association list that never holds a key twice; `emplace`
  appends.
* A `table_t*` into the tree owned by `rootTable` is the list of keys that leads from the
  root to the table.  A table is put into the tree at most once and is never taken out, so
  the list keeps naming the same table.  A pointer to a table that has been destroyed is
  `none`, and using it is `Err.danglingTable`.
* `integer_t` is the 32-bit `int`: the conversion from `long long` and the product with the
  sign are taken modulo `2 ^ 32`.
* `real_t` is a type parameter `R`; the text handed to `std::stod` is converted by a
  parameter `stod`, and the product with the sign and the conversion to `real_t` by a
  parameter `scale`.
* The input file is the list of its lines, as `std::getline` returns them.
* The two loops that C++ leaves to run until the text is used up are bounded by a count of
  passes that starts above the length of the text; `parse_fuel` shows that the bound is
  never reached.
-/

namespace sml

/-- Ways in which a call can end without a result. -/
inductive Err where
  /-- `sml::ParseException`. -/
  | parseException
  /-- `sml::KeyNotFound`. -/
  | keyNotFound
  /-- `sml::MismatchType`. -/
  | mismatchType
  /-- `std::invalid_argument`, thrown by `std::stoll` and `std::stod`. -/
  | invalidArgument
  /-- `std::out_of_range`, thrown by `std::stoll`, `std::stod` and `std::vector::at`. -/
  | outOfRange
  /-- An iterator equal to `end` was dereferenced or advanced. -/
  | readPastEnd
  /-- A null `shared_ptr` was dereferenced. -/
  | nullDeref
  /-- `currentTable` was used after the table it points to had been destroyed. -/
  | danglingTable
  /-- A `const char*` was moved beyond the string literal it points into and read. -/
  | literalOutOfBounds
  /-- The bound on passes of the embedding was used up; `parse` never ends so. -/
  | fuel
  deriving DecidableEq, Repr

/-- The five types that `TypeTag<T>` is overloaded for. -/
inductive Kind where
  | integer_t
  | real_t
  | string_t
  | array_t
  | table_t
  deriving DecidableEq, Repr

/-- Class `Value` with its subclasses `Integer`, `Real`, `String`, `array_t`, `table_t`.
`R` is `real_t`. -/
inductive Value (R : Type) where
  | Integer (i : Int)
  | Real (r : R)
  | String (s : List Char)
  | array_t (arr : List (Value R))
  | table_t (table : List (List Char × Value R))

/-- The member `table_` of a `table_t`. -/
abbrev Table (R : Type) := List (List Char × Value R)

/-- What `ref()` of the object of type `ObjectType_t<T>` returns. -/
abbrev Payload (R : Type) : Kind → Type
  | .integer_t => Int
  | .real_t => R
  | .string_t => List Char
  | .array_t => List (Value R)
  | .table_t => Table R

section ValueModel

variable {R : Type}

/-- The virtual `Value::is(TypeTag<T>)`: true in the subclass for `T` only. -/
def Value.is (T : Kind) : Value R → Bool
  | .Integer _ => T = .integer_t
  | .Real _ => T = .real_t
  | .String _ => T = .string_t
  | .array_t _ => T = .array_t
  | .table_t _ => T = .table_t

/-- The `std::dynamic_pointer_cast<ObjectType_t<T>>(p)` followed by `->ref()`:
`none` when the cast gives a null pointer. -/
def Value.cast (T : Kind) (v : Value R) : Option (Payload R T) :=
  match T, v with
  | .integer_t, .Integer i => some i
  | .real_t, .Real r => some r
  | .string_t, .String s => some s
  | .array_t, .array_t a => some a
  | .table_t, .table_t t => some t
  | _, _ => none

/-- The member `array_t::length`. -/
def array_t.length (arr : List (Value R)) : Nat :=
  List.length arr

/-- The member `array_t::arrayIs<T>`; `arr_.at(0)` throws on an empty array. -/
def array_t.arrayIs (T : Kind) (arr : List (Value R)) : Except Err Bool :=
  match arr[0]? with
  | none => .error .outOfRange
  | some val => .ok (val.is T)

/-- The member `array_t::valueAs<T>`. -/
def array_t.valueAs (T : Kind) (i : Nat) (arr : List (Value R)) :
    Except Err (Payload R T) :=
  match array_t.arrayIs T arr with
  | .error err => .error err
  | .ok false => .error .mismatchType
  | .ok true =>
    match arr[i]? with
    | none => .error .outOfRange
    | some val =>
      match val.cast T with
      | none => .error .nullDeref
      | some p => .ok p

/-- The member `array_t::insertBack`. -/
def array_t.insertBack (val : Value R) (arr : List (Value R)) : List (Value R) :=
  arr ++ [val]

/-- The private `table_t::get`: the mapped value, `none` for `nullptr`. -/
def Table.get (key : List Char) : Table R → Option (Value R)
  | [] => none
  | (k, v) :: rest => if k = key then some v else Table.get key rest

/-- The member `table_t::contains`. -/
def Table.contains (key : List Char) (t : Table R) : Bool :=
  (Table.get key t).isSome

/-- The member `table_t::length`. -/
def Table.length (t : Table R) : Nat :=
  List.length t

/-- The member `table_t::valueIs<T>`. -/
def Table.valueIs (T : Kind) (key : List Char) (t : Table R) : Bool :=
  match Table.get key t with
  | some val => val.is T
  | none => false

/-- The member `table_t::valueAs<T>`. -/
def Table.valueAs (T : Kind) (key : List Char) (t : Table R) : Except Err (Payload R T) :=
  if !Table.contains key t then
    .error .keyNotFound
  else if !Table.valueIs T key t then
    .error .mismatchType
  else
    match Table.get key t with
    | none => .error .nullDeref
    | some val =>
      match val.cast T with
      | none => .error .nullDeref
      | some p => .ok p

/-- The member `table_t::addValue`: `emplace` inserts only when the key is new. -/
def Table.addValue (key : List Char) (val : Value R) (t : Table R) : Table R :=
  if Table.contains key t then t else t ++ [(key, val)]

/-- The free function `valueAs<T>(key, t)`. -/
def valueAs (T : Kind) (key : List Char) (t : Table R) : Except Err (Payload R T) :=
  Table.valueAs T key t

/-- The free function `valueIs<T>(key, t)`. -/
def valueIs (T : Kind) (key : List Char) (t : Table R) : Bool :=
  Table.valueIs T key t

/-- The struct `Visitor`: the overloads of the virtual `visit`, one per kind and one for
`Null`. Each returns `void`; `σ` is the state the visitor object keeps, which a call may
change. -/
structure Visitor (R σ : Type) where
  visit_integer_t : Int → σ → σ
  visit_real_t : R → σ → σ
  visit_string_t : List Char → σ → σ
  visit_array_t : List (Value R) → σ → σ
  visit_table_t : Table R → σ → σ
  visit_Null : σ → σ

/-- The overload of `visit` that the compiler selects for an argument of type `T`. -/
def Visitor.visit {σ : Type} (v : Visitor R σ) : (T : Kind) → Payload R T → σ → σ
  | .integer_t => v.visit_integer_t
  | .real_t => v.visit_real_t
  | .string_t => v.visit_string_t
  | .array_t => v.visit_array_t
  | .table_t => v.visit_table_t

/-- The virtual `accept` as the subclasses `Integer`, `Real`, `String`, `array_t` and
`table_t` override it: `v.visit(ref())`. -/
def Value.accept {σ : Type} (v : Visitor R σ) : Value R → σ → σ
  | .Integer i => v.visit_integer_t i
  | .Real r => v.visit_real_t r
  | .String s => v.visit_string_t s
  | .array_t arr => v.visit_array_t arr
  | .table_t table => v.visit_table_t table

/-- The member `array_t::acceptAt`. -/
def array_t.acceptAt {σ : Type} (v : Visitor R σ) (i : Nat) (arr : List (Value R)) :
    σ → σ :=
  if h : i < arr.length then
    (arr.get ⟨i, h⟩).accept v
  else
    v.visit_Null

/-- The member `table_t::acceptAt`. -/
def Table.acceptAt {σ : Type} (v : Visitor R σ) (key : List Char) (t : Table R) : σ → σ :=
  match Table.get key t with
  | some val => val.accept v
  | none => v.visit_Null

/-- The free function `applyVisitorAt(v, key, val)` for a table. -/
def applyVisitorAt {σ : Type} (v : Visitor R σ) (key : List Char) (val : Table R) : σ → σ :=
  Table.acceptAt v key val

/-- The free function `applyVisitorAt(v, i, val)` for an array, the overload of
`applyVisitorAt` with an index. -/
def applyVisitorAtIndex {σ : Type} (v : Visitor R σ) (i : Nat) (val : List (Value R)) :
    σ → σ :=
  array_t.acceptAt v i val

end ValueModel

section Lexing

/-- The loop `forward(b, e, p)`: advance `b` while it is not `e` and `p(*b)` holds. -/
def forward (p : Char → Bool) : List Char → List Char
  | [] => []
  | c :: cs => if p c then forward p cs else c :: cs

/-- The string `std::string(b, e)` built from two iterators of one line, `b` not after `e`. -/
def between (b e : List Char) : List Char :=
  b.take (b.length - e.length)

/-- The helper `consumeWhitespace`. -/
def consumeWhitespace (it : List Char) : List Char :=
  forward (fun c => c == ' ' || c == '\t') it

/-- The predicate `'0' <= c && c <= '9'`. -/
def isDigit (c : Char) : Bool :=
  decide ('0' ≤ c) && decide (c ≤ '9')

/-- The 64-bit `std::stoll` on the text the parser hands to it, which never starts with a
blank or a sign: the leading digits are converted, `std::invalid_argument` is thrown when
there is none and `std::out_of_range` when the number exceeds `LLONG_MAX`. -/
def stoll (s : List Char) : Except Err Int :=
  let digits := between s (forward isDigit s)
  if digits = [] then
    .error .invalidArgument
  else
    let n : Nat := digits.foldl (fun acc c => 10 * acc + (c.toNat - 48)) 0
    if n ≤ 2 ^ 63 - 1 then .ok (n : Int) else .error .outOfRange

/-- Conversion to the 32-bit `integer_t = int`, wrapping modulo `2 ^ 32`. -/
def toInteger (x : Int) : Int :=
  (x + 2 ^ 31) % 2 ^ 32 - 2 ^ 31

end Lexing

section Parser

variable {R D : Type}

/-- What `throw ParseException("Unexpected character '" + *it + std::string("'."))` ends
in. The operand `"Unexpected character '" + *it` adds the code of the character to the
`const char*` of the literal, which has 22 characters and the terminating zero: up to 22
the pointer stays inside the literal and the exception is thrown, with the rest of the
literal as its text; from 23 on the text is read beyond the literal. -/
def unexpectedCharacter (c : Char) : Err :=
  if c.toNat ≤ 22 then .parseException else .literalOutOfBounds

/-- The member `Parser::parse_integer`. Both `integer_t i = std::stoll(...)` and
`i *= sign` are 32-bit operations. -/
def parse_integer (it : List Char) : Except Err (Value R × List Char) :=
  match it with
  | [] => .error .readPastEnd
  | c :: rest =>
    let sign : Int := if c == '+' || c == '-' then (if c == '+' then 1 else -1) else 1
    let it := if c == '+' || c == '-' then rest else c :: rest
    let b := it
    let it := forward isDigit it
    let e := it
    match stoll (between b e) with
    | .error err => .error err
    | .ok v =>
      let i := toInteger v
      let i := toInteger (i * sign)
      .ok (.Integer i, it)

/-- The member `Parser::parse_real`. The conversion `std::stod` to a `double` is `stod`;
`scale r sign` is `r *= sign` followed by the conversion to `real_t`. -/
def parse_real (stod : List Char → Except Err D) (scale : D → Int → R) (it : List Char) :
    Except Err (Value R × List Char) :=
  match it with
  | [] => .error .readPastEnd
  | c :: rest =>
    let sign : Int := if c == '+' || c == '-' then (if c == '+' then 1 else -1) else 1
    let it := if c == '+' || c == '-' then rest else c :: rest
    let b := it
    let it := forward isDigit it
    match it with
    | [] => .error .readPastEnd
    | _ :: it =>
      let it := forward isDigit it
      let e := it
      match stod (between b e) with
      | .error err => .error err
      | .ok r => .ok (.Real (scale r sign), it)

/-- The member `Parser::parse_string`. -/
def parse_string (it : List Char) : Except Err (Value R × List Char) :=
  match it with
  | [] => .error .readPastEnd
  | _ :: it =>
    let b := it
    let it := forward (fun c => c != '"') it
    let e := it
    match it with
    | [] => .error .readPastEnd
    | _ :: it => .ok (.String (between b e), it)

/-- The member `Parser::isInteger`. -/
def isInteger (it : List Char) : Except Err Bool :=
  match it with
  | [] => .error .readPastEnd
  | c :: rest =>
    let it := if c == '+' || c == '-' then rest else c :: rest
    match it with
    | [] => .ok false
    | d :: _ =>
      if d == '0' then
        .ok false
      else
        let b := it
        let it := forward isDigit it
        match it with
        | '.' :: _ => .ok false
        | _ => .ok (!(between b it).isEmpty)

/-- The member `Parser::isReal`. -/
def isReal (it : List Char) : Except Err Bool :=
  match it with
  | [] => .error .readPastEnd
  | c :: rest =>
    let it := if c == '+' || c == '-' then rest else c :: rest
    match it with
    | [] => .ok false
    | _ :: _ =>
      let b := it
      let it := forward isDigit it
      match it with
      | [] => .ok false
      | d :: it =>
        if d != '.' then
          .ok false
        else
          let it := forward isDigit it
          .ok (between b it != ['.'])

/-- The member `Parser::isString`. -/
def isString (it : List Char) : Except Err Bool :=
  match it with
  | [] => .error .readPastEnd
  | c :: it =>
    if c != '"' then
      .ok false
    else
      let it := forward (fun c => c != '"') it
      .ok (it != [])

/-- The call of `forward` in `Parser::isArray`, whose predicate counts brackets in
`level` and stops on the character that brings it to zero. -/
def isArray.scan : Nat → List Char → List Char
  | _, [] => []
  | level, c :: cs =>
    let level := if c == '[' then level + 1 else if c == ']' then level - 1 else level
    if level > 0 then isArray.scan level cs else c :: cs

/-- The member `Parser::isArray`. -/
def isArray (it : List Char) : Except Err Bool :=
  match it with
  | [] => .error .readPastEnd
  | c :: it =>
    if c != '[' then
      .ok false
    else
      let it := isArray.scan 1 it
      match it with
      | [] => .ok false
      | d :: _ => .ok (d == ']')

/-- The overload `Parser::parse_array(it, end, efun)`. The first argument bounds the
number of passes through the loop. -/
def parse_array_loop (efun : List Char → Except Err (Value R × List Char)) :
    Nat → List Char → List (Value R) → Except Err (Value R × List Char)
  | 0, _, _ => .error .fuel
  | n + 1, it, arr =>
    match it with
    | [] => .error .readPastEnd
    | c :: rest =>
      if c == ']' then
        .ok (.array_t arr, rest)
      else
        let it := consumeWhitespace rest
        match efun it with
        | .error err => .error err
        | .ok (elem, it) =>
          let arr := array_t.insertBack elem arr
          let it := consumeWhitespace it
          parse_array_loop efun n it arr

/-- The overload `Parser::parse_array(it, end)`. The first argument bounds the depth of
nested calls. -/
def parse_array (stod : List Char → Except Err D) (scale : D → Int → R) :
    Nat → List Char → Except Err (Value R × List Char)
  | 0, _ => .error .fuel
  | n + 1, it =>
    match it with
    | [] => .error .readPastEnd
    | _ :: tmp =>
      let tmp := consumeWhitespace tmp
      match isInteger tmp with
      | .error err => .error err
      | .ok true => parse_array_loop parse_integer (it.length + 1) it []
      | .ok false =>
      match isReal tmp with
      | .error err => .error err
      | .ok true => parse_array_loop (parse_real stod scale) (it.length + 1) it []
      | .ok false =>
      match isString tmp with
      | .error err => .error err
      | .ok true => parse_array_loop parse_string (it.length + 1) it []
      | .ok false =>
      match isArray tmp with
      | .error err => .error err
      | .ok true => parse_array_loop (parse_array stod scale n) (it.length + 1) it []
      | .ok false => .error .parseException

/-- The member `Parser::parse_value`. -/
def parse_value (stod : List Char → Except Err D) (scale : D → Int → R) (it : List Char) :
    Except Err (Value R × List Char) :=
  match it with
  | [] => .error .parseException
  | _ :: _ =>
    match isInteger it with
    | .error err => .error err
    | .ok true => parse_integer it
    | .ok false =>
    match isReal it with
    | .error err => .error err
    | .ok true => parse_real stod scale it
    | .ok false =>
    match isString it with
    | .error err => .error err
    | .ok true => parse_string it
    | .ok false =>
    match isArray it with
    | .error err => .error err
    | .ok true => parse_array stod scale (it.length + 1) it
    | .ok false => .error .parseException

/-- The table a `table_t*` obtained by walking `path` from the root points to. -/
def tableAt : List (List Char) → Table R → Option (Table R)
  | [], t => some t
  | key :: path, t =>
    match Table.get key t with
    | some (.table_t child) => tableAt path child
    | _ => none

/-- Replace the value mapped by `key`, the way a write through a pointer to that value
changes what the table holds. -/
def Table.modify (key : List Char) (f : Value R → Value R) : Table R → Table R
  | [] => []
  | (k, v) :: rest => if k = key then (k, f v) :: rest else (k, v) :: Table.modify key f rest

/-- The root after `f` has been applied through a `table_t*` that was obtained by
walking `path` from the root. -/
def updateAt (f : Table R → Table R) : List (List Char) → Table R → Table R
  | [], t => f t
  | key :: path, t =>
    Table.modify key
      (fun v => match v with
        | .table_t child => .table_t (updateAt f path child)
        | other => other) t

/-- The two locals `rootTable` and `currentTable` of `Parser::parse`. A `table_t*` into
the tree owned by `rootTable` is the list of keys that leads from the root to the table;
`currentTable = none` is a pointer to a table that has been destroyed. -/
structure ParserState (R : Type) where
  rootTable : Table R
  currentTable : Option (List (List Char))

/-- Dereference `currentTable`. -/
def ParserState.current (st : ParserState R) : Except Err (Table R) :=
  match st.currentTable with
  | none => .error .danglingTable
  | some path =>
    match tableAt path st.rootTable with
    | none => .error .danglingTable
    | some t => .ok t

/-- The member `Parser::parse_key`. -/
def parse_key (it : List Char) (st : ParserState R) : Except Err (List Char × List Char) :=
  let keyB := it
  let it := forward (fun c => c != ' ' && c != '\t' && c != '=') it
  let keyE := it
  match it with
  | [] => .error .parseException
  | _ :: _ =>
    let key := between keyB keyE
    match st.current with
    | .error err => .error err
    | .ok table =>
      if Table.contains key table then
        .error .parseException
      else
        let it := forward (fun c => c != '=') it
        match it with
        | [] => .error .parseException
        | _ :: _ => .ok (key, it)

/-- The member `Parser::parse_key_eq_value`. -/
def parse_key_eq_value (stod : List Char → Except Err D) (scale : D → Int → R)
    (it : List Char) (st : ParserState R) : Except Err (ParserState R × List Char) :=
  let it := consumeWhitespace it
  match parse_key it st with
  | .error err => .error err
  | .ok (key, it) =>
    match it with
    | [] => .error .readPastEnd
    | _ :: it =>
      let it := consumeWhitespace it
      match parse_value stod scale it with
      | .error err => .error err
      | .ok (val, it) =>
        match st.currentTable with
        | none => .error .danglingTable
        | some path =>
          .ok ({ st with rootTable := updateAt (Table.addValue key val) path st.rootTable }, it)

/-- The `while (*it != ']')` loop of `Parser::parse_table`. The locals are `it`, `key`
and `cur`; `cur` is kept as the path walked from the root together with the table it
points to. The first argument bounds the number of passes. -/
def parse_table_loop : Nat → List Char → List Char → List (List Char) × Table R →
    Except Err (List Char × List Char × List (List Char) × Table R)
  | 0, _, _, _ => .error .fuel
  | n + 1, it, key, cur =>
    match it with
    | [] => .error .readPastEnd
    | c :: rest =>
      if c == ']' then
        .ok (c :: rest, key, cur)
      else
        let it := consumeWhitespace rest
        let keyB := it
        let it := forward (fun c => c != ' ' && c != '\t' && c != '.' && c != ']') it
        let keyE := it
        match it with
        | [] => .error .parseException
        | d :: _ =>
          let key := between keyB keyE
          if key.isEmpty then
            .error (unexpectedCharacter d)
          else
            let it := if d == ' ' || d == '\t' then
                forward (fun c => c != '.' && c != ']') it
              else it
            match it with
            | [] => .error .parseException
            | d :: _ =>
              if d == '.' then
                if !valueIs .table_t key cur.2 then
                  .error .parseException
                else
                  match valueAs .table_t key cur.2 with
                  | .error err => .error err
                  | .ok child => parse_table_loop n it key (cur.1 ++ [key], child)
              else
                parse_table_loop n it key cur

/-- The member `Parser::parse_table`: the root after the call, the returned pointer and
the iterator. The new table is owned by the tree only when `emplace` inserted it;
otherwise it is destroyed on return and the returned pointer dangles. -/
def parse_table (it : List Char) (root : Table R) :
    Except Err (ParserState R × List Char) :=
  let it := consumeWhitespace it
  match it with
  | [] => .error .parseException
  | c :: _ =>
    if c != '[' then
      .error (unexpectedCharacter c)
    else
      match parse_table_loop (it.length + 1) it [] ([], root) with
      | .error err => .error err
      | .ok (it, key, cur) =>
        match it with
        | [] => .error .readPastEnd
        | _ :: it =>
          let newTable : Value R := .table_t []
          let root := updateAt (Table.addValue key newTable) cur.1 root
          let result := if Table.contains key cur.2 then none else some (cur.1 ++ [key])
          .ok ({ rootTable := root, currentTable := result }, it)

/-- The line after `line.erase(line.find('#'))`. -/
def eraseComment : List Char → List Char
  | [] => []
  | c :: cs => if c == '#' then [] else c :: eraseComment cs

/-- One pass through the `while (!in.eof())` loop of `Parser::parse` for the line read
by `std::getline`. -/
def parse_line (stod : List Char → Except Err D) (scale : D → Int → R)
    (st : ParserState R) (line : List Char) : Except Err (ParserState R) :=
  let line := eraseComment line
  let it := consumeWhitespace line
  match it with
  | [] => .ok st
  | c :: _ =>
    let step := if c == '[' then parse_table it st.rootTable
      else parse_key_eq_value stod scale it st
    match step with
    | .error err => .error err
    | .ok (st, it) =>
      let it := consumeWhitespace it
      match it with
      | [] => .ok st
      | d :: _ => .error (unexpectedCharacter d)

/-- The loop of `Parser::parse` over the lines still to be read. -/
def parse_lines (stod : List Char → Except Err D) (scale : D → Int → R) :
    ParserState R → List (List Char) → Except Err (ParserState R)
  | st, [] => .ok st
  | st, line :: rest =>
    match parse_line stod scale st line with
    | .error err => .error err
    | .ok st => parse_lines stod scale st rest

/-- The member `Parser::parse` applied to the lines of the file. -/
def parse (stod : List Char → Except Err D) (scale : D → Int → R)
    (lines : List (List Char)) : Except Err (Table R) :=
  match parse_lines stod scale { rootTable := [], currentTable := some [] } lines with
  | .error err => .error err
  | .ok st => .ok st.rootTable

end Parser

section Inputs

/-- The keys C4 speaks of: not empty, without blank, tab, `=` or `#`, and not starting
with `[`. -/
def isKey (k : List Char) : Bool :=
  !k.isEmpty && k.all (fun c => c != ' ' && c != '\t' && c != '=' && c != '#')
    && k.head? != some '['

/-- The line `k = w`. -/
def assignment (k w : List Char) : List Char :=
  k ++ ' ' :: '=' :: ' ' :: w

/-- The decimal rendering of `n`: a leading `-` when `n` is negative, a leading `+` on
request otherwise, then the digits of the absolute value as `Nat.repr` prints them. -/
def integerLiteral (plus : Bool) (n : Int) : List Char :=
  if n < 0 then '-' :: Nat.toDigits 10 n.natAbs
  else if plus then '+' :: Nat.toDigits 10 n.natAbs
  else Nat.toDigits 10 n.natAbs

/-- The string literal `"s"`. -/
def stringLiteral (s : List Char) : List Char :=
  '"' :: (s ++ ['"'])

/-- A run of `n` blanks. -/
def spaces (n : Nat) : List Char :=
  List.replicate n ' '

/-- An array element as written: `e.1` blanks, the decimal rendering of the integer
`e.2.1`, then `e.2.2` blanks. -/
def arrayElement (e : Nat × Int × Nat) : List Char :=
  spaces e.1 ++ (integerLiteral false e.2.1 ++ spaces e.2.2)

/-- The text after an array element: each further element behind a comma, then `]`. -/
def arrayTail : List (Nat × Int × Nat) → List Char
  | [] => [']']
  | e :: es => ',' :: (arrayElement e ++ arrayTail es)

/-- The array literal `[e1, e2, ..., en]` of a first element and the list of the
others, with the blanks each element asks for around it. -/
def integerArrayLiteral (e : Nat × Int × Nat) (es : List (Nat × Int × Nat)) : List Char :=
  '[' :: (arrayElement e ++ arrayTail es)

/-- The relation `Occurs u v`: the value `u` is `v` itself, an element of `v` at any depth
when `v` is an array, or a mapped value of `v` at any depth when `v` is a table. -/
inductive Occurs {R : Type} : Value R → Value R → Prop where
  | self (v : Value R) : Occurs v v
  | element {u v : Value R} {arr : List (Value R)} :
      v ∈ arr → Occurs u v → Occurs u (.array_t arr)
  | mapped {u v : Value R} {key : List Char} {table : Table R} :
      (key, v) ∈ table → Occurs u v → Occurs u (.table_t table)

/-- All elements of `arr` are of one kind, which is not Table. -/
def sameKind {R : Type} (arr : List (Value R)) : Prop :=
  ∃ T : Kind, T ≠ .table_t ∧ ∀ v ∈ arr, v.is T = true

/-- Every array that occurs in `v` has all its elements of one kind. -/
def arraysSameKind {R : Type} (v : Value R) : Prop :=
  ∀ arr : List (Value R), Occurs (.array_t arr) v → sameKind arr

/-- A segment of a header path as written between `[`, `.` and `]`: not empty, without
blank, tab, `.`, `]` or `#`. -/
def isSegment (s : List Char) : Bool :=
  !s.isEmpty && s.all (fun c => c != ' ' && c != '\t' && c != '.' && c != ']' && c != '#')

/-- The text of a header from the character `c` in front of a segment on: `c`, the
segment, then every further segment behind a `.`, then `]`. -/
def headerFrom (c : Char) : List (List Char) → List Char
  | [] => [']']
  | s :: ss => c :: (s ++ headerFrom '.' ss)

/-- The header line `[s1.s2.….sn]` for the path `s1, s2, …, sn`. -/
def header (path : List (List Char)) : List Char :=
  headerFrom '[' path

/-- The entries a table holds itself: its keys with their values, where a value that is
a table stands for that table without the entries of the latter. -/
def Table.direct {R : Type} (t : Table R) : Table R :=
  t.map (fun kv => (kv.1, match kv.2 with
    | .table_t _ => .table_t []
    | other => other))

/-- The key an assignment line uses: after comment removal and leading blanks, the run
of characters up to the first blank, tab or `=`, as `parse_key` takes it. -/
def lineKey (line : List Char) : List Char :=
  between (consumeWhitespace (eraseComment line))
    (forward (fun c => c != ' ' && c != '\t' && c != '=')
      (consumeWhitespace (eraseComment line)))

/-- The line is left after comment removal and leading blanks with some text that does
not start with `[`: `Parser::parse` hands it to `parse_key_eq_value`. -/
def isAssignmentLine (line : List Char) : Bool :=
  match consumeWhitespace (eraseComment line) with
  | [] => false
  | c :: _ => c != '['

/-- The line is blank after comment removal: `Parser::parse` skips it. -/
def isBlankLine (line : List Char) : Bool :=
  (consumeWhitespace (eraseComment line)).isEmpty

/-- The line starts, after comment removal and leading blanks, with `[`: `Parser::parse`
hands it to `parse_table`. -/
def isHeaderLine (line : List Char) : Bool :=
  match consumeWhitespace (eraseComment line) with
  | [] => false
  | c :: _ => c == '['

/-- The first segment of a header line: after the `[` and blanks, the run of characters
up to the first blank, tab, `.` or `]`, as `parse_table` takes it. -/
def headerKey (line : List Char) : List Char :=
  between (consumeWhitespace (consumeWhitespace (eraseComment line)).tail)
    (forward (fun c => c != ' ' && c != '\t' && c != '.' && c != ']')
      (consumeWhitespace (consumeWhitespace (eraseComment line)).tail))

/-- A header line whose path has a single segment: no `.` stands between the `[` and the
first `]`. -/
def isSingleSegmentHeader (line : List Char) : Bool :=
  isHeaderLine line &&
    (match forward (fun c => c != '.' && c != ']')
        (consumeWhitespace (eraseComment line)).tail with
      | ']' :: _ => true
      | _ => false)

/-- The assignment lines in front of the first header line. -/
def topLevelAssignments (lines : List (List Char)) : List (List Char) :=
  (lines.takeWhile (fun l => !isHeaderLine l)).filter isAssignmentLine

/-- The number C11 gives for the length of the root: the assignment lines in front of the
first header line plus the header lines with a single segment. -/
def claimedRootLength (lines : List (List Char)) : Nat :=
  (topLevelAssignments lines).length + (lines.filter isSingleSegmentHeader).length

/-- The keys of the assignment lines in front of the first header line, then the names
of the header lines with a single segment. -/
def rootKeyNames (lines : List (List Char)) : List (List Char) :=
  (topLevelAssignments lines).map lineKey ++
    (lines.filter isSingleSegmentHeader).map headerKey

/-- The factor `sign` of `parse_real` and `parse_integer` for a literal that starts with
the text `sign`, which is empty, `+` or `-`. -/
def signValue (sign : List Char) : Int :=
  if sign = ['-'] then -1 else 1

/-- A literal with a point: the sign (empty, `+` or `-`), the digits in front of the
point, the point, and the digits behind it. -/
def realLiteral (sign ds1 ds2 : List Char) : List Char :=
  sign ++ (ds1 ++ '.' :: ds2)

/-- A call of one overload of `visit`, with its argument. -/
inductive Visited (R : Type) where
  | integer_t (i : Int)
  | real_t (r : R)
  | string_t (s : List Char)
  | array_t (arr : List (Value R))
  | table_t (table : Table R)
  | Null

/-- A visitor that keeps the list of the calls made to it, in order. -/
def recordingVisitor {R : Type} : Visitor R (List (Visited R)) where
  visit_integer_t := fun i log => log ++ [.integer_t i]
  visit_real_t := fun r log => log ++ [.real_t r]
  visit_string_t := fun s log => log ++ [.string_t s]
  visit_array_t := fun arr log => log ++ [.array_t arr]
  visit_table_t := fun table log => log ++ [.table_t table]
  visit_Null := fun log => log ++ [.Null]

/-- The call that matches a value: the overload for its kind, with its payload. -/
def Visited.ofValue {R : Type} : Value R → Visited R
  | .Integer i => .integer_t i
  | .Real r => .real_t r
  | .String s => .string_t s
  | .array_t arr => .array_t arr
  | .table_t table => .table_t table

/-- The text after an array element when each further element stands behind a character
of its own, which need not be a comma: for each `(c, e)` the character `c` and the
element `e`, then `]`. -/
def arrayTailWith : List (Char × Nat × Int × Nat) → List Char
  | [] => [']']
  | ce :: es => ce.1 :: (arrayElement ce.2 ++ arrayTailWith es)

/-- The array literal `[e1 c2 e2 ... cn en]` of a first element and the list of the
others, each with the character that stands in front of it. -/
def integerArrayLiteralWith (e : Nat × Int × Nat) (es : List (Char × Nat × Int × Nat)) :
    List Char :=
  '[' :: (arrayElement e ++ arrayTailWith es)

/-- The characters in front of the later elements are such that the text reads as the
elements given: none is a blank, a tab, `[`, `]` or `#`, and one that is a digit or a
point does not stand directly behind the digits of the element in front of it, which
has `trailing` blanks after it. -/
def separatorsOk : Nat → List (Char × Nat × Int × Nat) → Bool
  | _, [] => true
  | trailing, ce :: es =>
    ce.1 != ' ' && ce.1 != '\t' && ce.1 != '[' && ce.1 != ']' && ce.1 != '#' &&
      (decide (0 < trailing) || (!isDigit ce.1 && ce.1 != '.')) &&
      separatorsOk ce.2.2.2 es

/-- The relation `Stored u v`: the value `u` is `v` itself, or a value that a key maps to
in `v` or in a table below `v` when `v` is a table. Elements of arrays are not stored
values. -/
inductive Stored {R : Type} : Value R → Value R → Prop where
  | self (v : Value R) : Stored v v
  | mapped {u v : Value R} {key : List Char} {table : Table R} :
      (key, v) ∈ table → Stored u v → Stored u (.table_t table)

/-- Every array stored in `v` has at least one element. -/
def storedArraysNonempty {R : Type} (v : Value R) : Prop :=
  ∀ arr : List (Value R), Stored (.array_t arr) v → arr ≠ []

/-- The array literal without elements: `[`, `n` blanks, `]`. -/
def emptyArrayLiteral (n : Nat) : List Char :=
  '[' :: (spaces n ++ [']'])

/-- The number a run of digits denotes in decimal. -/
def decimalValue (ds : List Char) : Nat :=
  ds.foldl (fun acc c => 10 * acc + (c.toNat - 48)) 0

end Inputs

end sml

/-! ## Theorems -/

namespace sml

section TableAccess

variable {R : Type}

theorem Table.contains_eq_false_iff (k : List Char) (t : Table R) :
    Table.contains k t = false ↔ Table.get k t = none := by
  simp [Table.contains]

theorem Value.cast_of_is (T : Kind) (v : Value R) (h : v.is T = true) :
    ∃ p, v.cast T = some p := by
  cases v <;> cases T <;> first
    | exact ⟨_, rfl⟩
    | simp [Value.is] at h

theorem Value.is_of_cast (T : Kind) (v : Value R) (p : Payload R T) (h : v.cast T = some p) :
    v.is T = true := by
  cases v <;> cases T <;> simp_all [Value.is, Value.cast]

theorem Table.valueAs_of_get (T : Kind) (k : List Char) (t : Table R) (v : Value R)
    (p : Payload R T) (hv : Table.get k t = some v) (hp : v.cast T = some p) :
    Table.valueAs T k t = .ok p := by
  have his := Value.is_of_cast T v p hp
  simp [Table.valueAs, Table.contains, Table.valueIs, hv, hp, his]

/-- C1: `valueIs<T>(k, t)` is true exactly when `valueAs<T>(k, t)` returns; what it
returns is the payload of the value mapped by `k` (spelled out for each of the five
kinds); when `valueIs<T>(k, t)` is false, `valueAs<T>(k, t)` throws `KeyNotFound` if `t`
does not contain `k` and `MismatchType` if it does. `contains` and `valueIs` are total
functions into `Bool`, so they never throw. -/
theorem valueIs_iff_valueAs_returns (T : Kind) (k : List Char) (t : Table R) :
    (valueIs T k t = true ↔ ∃ p, valueAs T k t = .ok p) ∧
    (∀ p, valueAs T k t = .ok p →
      ∃ v, Table.get k t = some v ∧ v.is T = true ∧ v.cast T = some p) ∧
    (∀ i, Table.get k t = some (.Integer i) → valueAs .integer_t k t = .ok i) ∧
    (∀ r, Table.get k t = some (.Real r) → valueAs .real_t k t = .ok r) ∧
    (∀ s, Table.get k t = some (.String s) → valueAs .string_t k t = .ok s) ∧
    (∀ a, Table.get k t = some (.array_t a) → valueAs .array_t k t = .ok a) ∧
    (∀ c, Table.get k t = some (.table_t c) → valueAs .table_t k t = .ok c) ∧
    (valueIs T k t = false → Table.contains k t = false →
      valueAs T k t = .error .keyNotFound) ∧
    (valueIs T k t = false → Table.contains k t = true →
      valueAs T k t = .error .mismatchType) := by
  refine ⟨⟨?_, ?_⟩, ?_, ?_, ?_, ?_, ?_, ?_, ?_, ?_⟩
  · intro h
    unfold valueIs Table.valueIs at h
    cases hg : Table.get k t with
    | none => simp [hg] at h
    | some v =>
      simp only [hg] at h
      obtain ⟨p, hp⟩ := Value.cast_of_is T v h
      exact ⟨p, Table.valueAs_of_get T k t v p hg hp⟩
  · rintro ⟨p, hp⟩
    unfold valueAs Table.valueAs at hp
    unfold valueIs
    by_cases hc : Table.contains k t = true
    · by_cases hi : Table.valueIs T k t = true
      · exact hi
      · simp [hc, hi] at hp
    · simp [hc] at hp
  · intro p hp
    unfold valueAs Table.valueAs at hp
    by_cases hc : Table.contains k t = true
    · by_cases hi : Table.valueIs T k t = true
      · cases hg : Table.get k t with
        | none => simp [hc, hi, hg] at hp
        | some v =>
          cases hcast : v.cast T with
          | none => simp [hc, hi, hg, hcast] at hp
          | some q =>
            simp [hc, hi, hg, hcast] at hp
            subst hp
            exact ⟨v, rfl, Value.is_of_cast T v q hcast, hcast⟩
      · simp [hc, hi] at hp
    · simp [hc] at hp
  · intro i h
    exact Table.valueAs_of_get .integer_t k t _ i h rfl
  · intro r h
    exact Table.valueAs_of_get .real_t k t _ r h rfl
  · intro s h
    exact Table.valueAs_of_get .string_t k t _ s h rfl
  · intro a h
    exact Table.valueAs_of_get .array_t k t _ a h rfl
  · intro c h
    exact Table.valueAs_of_get .table_t k t _ c h rfl
  · intro _ hc
    simp [valueAs, Table.valueAs, hc]
  · intro hi hc
    have hi2 : Table.valueIs T k t = false := hi
    simp [valueAs, Table.valueAs, hc, hi2]

/-- Instance of C1 on the table holding `x = 5`: the integer accessor returns `5`, the
string accessor throws `MismatchType`, and a missing key throws `KeyNotFound`. -/
theorem valueIs_iff_valueAs_returns_witness :
    valueAs (R := Unit) .integer_t "x".toList [("x".toList, .Integer 5)] = .ok 5 ∧
    valueAs (R := Unit) .string_t "x".toList [("x".toList, .Integer 5)]
      = .error .mismatchType ∧
    valueAs (R := Unit) .string_t "y".toList [("x".toList, .Integer 5)]
      = .error .keyNotFound :=
  ⟨(valueIs_iff_valueAs_returns .integer_t "x".toList [("x".toList, .Integer 5)]).2.2.1 5
      rfl,
    (valueIs_iff_valueAs_returns .string_t "x".toList
      [("x".toList, .Integer 5)]).2.2.2.2.2.2.2.2 (by decide) (by decide),
    (valueIs_iff_valueAs_returns .string_t "y".toList
      [("x".toList, .Integer 5)]).2.2.2.2.2.2.2.1 (by decide) (by decide)⟩

end TableAccess

section Lines

variable {R D : Type}

theorem forward_idem (p : Char → Bool) (it : List Char) :
    forward p (forward p it) = forward p it := by
  induction it with
  | nil => rfl
  | cons c cs ih =>
    by_cases h : p c = true
    · simp [forward, h, ih]
    · simp [forward, h]

theorem consumeWhitespace_idem (it : List Char) :
    consumeWhitespace (consumeWhitespace it) = consumeWhitespace it :=
  forward_idem _ it

theorem parse_lines_append_error (stod : List Char → Except Err D) (scale : D → Int → R)
    (st st' : ParserState R) (pre post : List (List Char)) (line : List Char) (e : Err)
    (hpre : parse_lines stod scale st pre = .ok st')
    (hline : parse_line stod scale st' line = .error e) :
    parse_lines stod scale st (pre ++ line :: post) = .error e := by
  induction pre generalizing st with
  | nil =>
    simp only [parse_lines, Except.ok.injEq] at hpre
    subst hpre
    simp [parse_lines, hline]
  | cons l ls ih =>
    simp only [parse_lines, List.cons_append] at hpre ⊢
    cases h : parse_line stod scale st l with
    | error err => simp [h] at hpre
    | ok st1 =>
      simp only [h] at hpre ⊢
      exact ih st1 hpre

theorem parse_lines_append_ok (stod : List Char → Except Err D) (scale : D → Int → R)
    (st st' : ParserState R) (pre post : List (List Char))
    (hpre : parse_lines stod scale st pre = .ok st') :
    parse_lines stod scale st (pre ++ post) = parse_lines stod scale st' post := by
  induction pre generalizing st with
  | nil =>
    simp only [parse_lines, Except.ok.injEq] at hpre
    subst hpre
    rfl
  | cons l ls ih =>
    simp only [parse_lines, List.cons_append] at hpre ⊢
    cases h : parse_line stod scale st l with
    | error err => simp [h] at hpre
    | ok st1 =>
      simp only [h] at hpre ⊢
      exact ih st1 hpre

/-- C2 (the code departs from the claim): three one-line inputs on which `parse` ends
with something other than a table or a `ParseException`. `x = [1,]` makes `std::stoll`
throw `std::invalid_argument` on the empty second element, an over-long digit run makes
it throw `std::out_of_range`, and the unterminated second string of `x = ["a", "b]`
makes `parse_string` step past the end of the line. -/
theorem parse_ends_without_ParseException (stod : List Char → Except Err D)
    (scale : D → Int → R) :
    parse stod scale ["x = [1,]".toList] = .error .invalidArgument ∧
    parse stod scale ["x = 99999999999999999999".toList] = .error .outOfRange ∧
    parse stod scale ["x = [\"a\", \"b]".toList] = .error .readPastEnd :=
  ⟨rfl, rfl, rfl⟩

/-- C3: when the lines read so far leave `currentTable` pointing to a table `t`, and the
next line is an assignment line (not blank after comment removal, not starting with `[`)
whose key, the run of characters up to the first blank, tab or `=`, is contained in `t`,
then `parse` throws `ParseException`, whatever lines follow: no table is returned. -/
theorem duplicate_key_throws_ParseException (stod : List Char → Except Err D)
    (scale : D → Int → R) (pre post : List (List Char)) (line : List Char)
    (st : ParserState R) (t : Table R)
    (hpre : parse_lines stod scale ⟨[], some []⟩ pre = .ok st)
    (hcur : st.current = .ok t)
    (hline : consumeWhitespace (eraseComment line) ≠ [])
    (hhead : (consumeWhitespace (eraseComment line)).head? ≠ some '[')
    (hdup : Table.contains
      (between (consumeWhitespace (eraseComment line))
        (forward (fun c => c != ' ' && c != '\t' && c != '=')
          (consumeWhitespace (eraseComment line)))) t = true) :
    parse stod scale (pre ++ line :: post) = .error .parseException := by
  have hstep : parse_line stod scale st line = .error .parseException := by
    unfold parse_line
    simp only []
    generalize hit : consumeWhitespace (eraseComment line) = it at hline hhead hdup ⊢
    have hidem : consumeWhitespace it = it := by
      rw [← hit]; exact consumeWhitespace_idem _
    cases it with
    | nil => exact absurd rfl hline
    | cons c rest =>
      have hc : (c == '[') = false := by
        simpa using hhead
      simp only [hc, Bool.false_eq_true, if_false]
      unfold parse_key_eq_value
      simp only [hidem]
      unfold parse_key
      cases hf : forward (fun c => c != ' ' && c != '\t' && c != '=') (c :: rest) with
      | nil => rfl
      | cons d ds =>
        simp only [hcur]
        rw [hf] at hdup
        simp [hdup]
  unfold parse
  rw [parse_lines_append_error stod scale _ st pre post line _ hpre hstep]

/-- Instance of C3: the two lines `a = 5`, `a = 6` throw `ParseException`. -/
theorem duplicate_key_throws_ParseException_witness :
    parse (R := Unit) (D := Unit) (fun _ => .ok ()) (fun _ _ => ())
      ["a = 5".toList, "a = 6".toList] = .error .parseException :=
  duplicate_key_throws_ParseException (fun _ => .ok ()) (fun _ _ => ())
    ["a = 5".toList] [] "a = 6".toList ⟨[("a".toList, .Integer 5)], some []⟩
    [("a".toList, .Integer 5)] rfl rfl (by decide) (by decide) (by rfl)

end Lines

section LexingLemmas

theorem forward_append_of_all (p : Char → Bool) (xs ys : List Char)
    (h : ∀ c ∈ xs, p c = true) : forward p (xs ++ ys) = forward p ys := by
  induction xs with
  | nil => rfl
  | cons c cs ih =>
    have hc : p c = true := h c (List.mem_cons_self c cs)
    have hcs : ∀ d ∈ cs, p d = true := fun d hd => h d (List.mem_cons_of_mem c hd)
    simp [forward, hc, ih hcs]

theorem forward_cons_of_false (p : Char → Bool) (c : Char) (cs : List Char)
    (h : p c = false) : forward p (c :: cs) = c :: cs := by
  simp [forward, h]

theorem forward_all (p : Char → Bool) (xs : List Char)
    (h : ∀ c ∈ xs, p c = true) : forward p xs = [] := by
  have := forward_append_of_all p xs [] h
  simpa [forward] using this

theorem between_append (xs ys : List Char) : between (xs ++ ys) ys = xs := by
  simp [between]

theorem between_self (xs : List Char) : between xs xs = [] := by
  simp [between]

theorem between_nil (xs : List Char) : between xs [] = xs := by
  simp [between]

theorem eraseComment_of_no_hash (l : List Char) (h : ∀ c ∈ l, c ≠ '#') :
    eraseComment l = l := by
  induction l with
  | nil => rfl
  | cons c cs ih =>
    have hc : c ≠ '#' := h c (List.mem_cons_self c cs)
    have hcs : ∀ d ∈ cs, d ≠ '#' := fun d hd => h d (List.mem_cons_of_mem c hd)
    simp [eraseComment, hc, ih hcs]

theorem forward_length_le (p : Char → Bool) (it : List Char) :
    (forward p it).length ≤ it.length := by
  induction it with
  | nil => simp [forward]
  | cons c cs ih =>
    by_cases h : p c = true
    · simp only [forward, h, if_true, List.length_cons]; omega
    · simp [forward, h]

end LexingLemmas

section Decimal

theorem digitChar_toNat (k : Nat) (h : k < 10) : (Nat.digitChar k).toNat - 48 = k := by
  interval_cases k <;> rfl

theorem digitChar_isDigit (k : Nat) (h : k < 10) : isDigit (Nat.digitChar k) = true := by
  interval_cases k <;> rfl

theorem digitChar_ne_zero (k : Nat) (h : k < 10) (h0 : 0 < k) : Nat.digitChar k ≠ '0' := by
  interval_cases k <;> decide

theorem toDigitsCore_spec (fuel : Nat) : ∀ (n : Nat) (ds : List Char), n < fuel →
    ∃ L : List Char, Nat.toDigitsCore 10 fuel n ds = L ++ ds ∧ L ≠ [] ∧
      (∀ c ∈ L, isDigit c = true) ∧
      (0 < n → L.head? ≠ some '0') ∧
      (∀ a : Nat, L.foldl (fun acc c => 10 * acc + (c.toNat - 48)) a
        = a * 10 ^ L.length + n) := by
  induction fuel with
  | zero => intro n ds h; omega
  | succ fuel ih =>
    intro n ds hn
    have hmod : n % 10 < 10 := Nat.mod_lt _ (by decide)
    by_cases h0 : n / 10 = 0
    · refine ⟨[Nat.digitChar (n % 10)], ?_, by simp, ?_, ?_, ?_⟩
      · simp [Nat.toDigitsCore, h0]
      · intro c hc
        simp only [List.mem_singleton] at hc
        subst hc
        exact digitChar_isDigit _ hmod
      · intro hpos
        have hlt : n < 10 := by omega
        have : n % 10 = n := Nat.mod_eq_of_lt hlt
        simp only [List.head?_cons, ne_eq, Option.some.injEq]
        rw [this]
        exact digitChar_ne_zero n hlt hpos
      · intro a
        simp only [List.foldl_cons, List.foldl_nil, List.length_singleton, pow_one]
        rw [digitChar_toNat _ hmod]
        omega
    · have hlt : n / 10 < fuel := by omega
      obtain ⟨L, hL, hne, hdig, hhead, hval⟩ :=
        ih (n / 10) (Nat.digitChar (n % 10) :: ds) hlt
      refine ⟨L ++ [Nat.digitChar (n % 10)], ?_, by simp, ?_, ?_, ?_⟩
      · simp [Nat.toDigitsCore, h0, hL]
      · intro c hc
        rcases List.mem_append.mp hc with hc | hc
        · exact hdig c hc
        · simp only [List.mem_singleton] at hc
          subst hc
          exact digitChar_isDigit _ hmod
      · intro _
        have hpos : 0 < n / 10 := Nat.pos_of_ne_zero h0
        cases L with
        | nil => exact absurd rfl hne
        | cons c cs => simpa using hhead hpos
      · intro a
        rw [List.foldl_append, hval a]
        simp only [List.foldl_cons, List.foldl_nil, List.length_append, List.length_singleton]
        rw [digitChar_toNat _ hmod, pow_succ]
        have := Nat.div_add_mod n 10
        nlinarith [this]

theorem toDigits_spec (n : Nat) :
    Nat.toDigits 10 n ≠ [] ∧ (∀ c ∈ Nat.toDigits 10 n, isDigit c = true) ∧
    (0 < n → (Nat.toDigits 10 n).head? ≠ some '0') ∧
    (Nat.toDigits 10 n).foldl (fun acc c => 10 * acc + (c.toNat - 48)) 0 = n := by
  obtain ⟨L, hL, hne, hdig, hhead, hval⟩ := toDigitsCore_spec (n + 1) n [] (by omega)
  have hL2 : Nat.toDigits 10 n = L := by simpa [Nat.toDigits] using hL
  rw [hL2]
  exact ⟨hne, hdig, hhead, by simpa using hval 0⟩

end Decimal

section AssignmentLine

variable {R D : Type}

theorem isKey_cons (k : List Char) (hk : isKey k = true) :
    ∃ c cs, k = c :: cs ∧ c ≠ ' ' ∧ c ≠ '\t' ∧ c ≠ '=' ∧ c ≠ '#' ∧ c ≠ '[' := by
  cases k with
  | nil => simp [isKey] at hk
  | cons c cs =>
    refine ⟨c, cs, rfl, ?_⟩
    simp [isKey] at hk
    tauto

theorem isKey_all (k : List Char) (hk : isKey k = true) :
    ∀ c ∈ k, c ≠ ' ' ∧ c ≠ '\t' ∧ c ≠ '=' ∧ c ≠ '#' := by
  intro c hc
  simp [isKey] at hk
  have := hk.1.2 c hc
  tauto

theorem consumeWhitespace_cons_of_not_blank (c : Char) (cs : List Char)
    (h1 : c ≠ ' ') (h2 : c ≠ '\t') : consumeWhitespace (c :: cs) = c :: cs := by
  simp [consumeWhitespace, forward, h1, h2]

/-- What `parse_line` does on the line `k = w` when `currentTable` points to a table
that does not contain `k`. -/
theorem parse_line_assignment (stod : List Char → Except Err D) (scale : D → Int → R)
    (st : ParserState R) (path : List (List Char)) (t : Table R) (k w : List Char)
    (hk : isKey k = true) (hpath : st.currentTable = some path)
    (ht : tableAt path st.rootTable = some t) (hnew : Table.contains k t = false)
    (hw : ∀ c ∈ w, c ≠ '#') (hws : consumeWhitespace w = w) :
    parse_line stod scale st (assignment k w) =
      match parse_value stod scale w with
      | .error err => .error err
      | .ok (v, rest) =>
        match consumeWhitespace rest with
        | [] => .ok ⟨updateAt (Table.addValue k v) path st.rootTable, some path⟩
        | d :: _ => .error (unexpectedCharacter d) := by
  obtain ⟨c, cs, rfl, hc1, hc2, hc3, hc4, hc5⟩ := isKey_cons k hk
  have hall := isKey_all (c :: cs) hk
  have herase : eraseComment (assignment (c :: cs) w) = assignment (c :: cs) w := by
    apply eraseComment_of_no_hash
    intro d hd
    simp only [assignment, List.mem_append, List.mem_cons] at hd
    rcases hd with hd | hd | hd | hd | hd
    · exact (hall d (by simpa using hd)).2.2.2
    · subst hd; decide
    · subst hd; decide
    · subst hd; decide
    · exact hw d hd
  have hcur : st.current = .ok t := by
    simp [ParserState.current, hpath, ht]
  have hfwd : forward (fun c => c != ' ' && c != '\t' && c != '=')
      ((c :: cs) ++ ' ' :: '=' :: ' ' :: w) = ' ' :: '=' :: ' ' :: w := by
    rw [forward_append_of_all]
    · rfl
    · intro d hd
      have := hall d hd
      simp [this.1, this.2.1, this.2.2.1]
  have hfwd2 : forward (fun c => c != '=') (' ' :: '=' :: ' ' :: w) = '=' :: ' ' :: w := rfl
  have hws2 : consumeWhitespace (' ' :: w) = w := by
    have : consumeWhitespace (' ' :: w) = consumeWhitespace w := rfl
    rw [this, hws]
  unfold parse_line
  simp only [herase]
  have hcw : consumeWhitespace (assignment (c :: cs) w) = c :: (cs ++ ' ' :: '=' :: ' ' :: w) :=
    consumeWhitespace_cons_of_not_blank c _ hc1 hc2
  rw [hcw]
  have hb : (c == '[') = false := by simpa using hc5
  simp only [hb, Bool.false_eq_true, if_false]
  unfold parse_key_eq_value
  rw [consumeWhitespace_cons_of_not_blank c _ hc1 hc2]
  unfold parse_key
  have hfwd' : forward (fun c => c != ' ' && c != '\t' && c != '=')
      (c :: (cs ++ ' ' :: '=' :: ' ' :: w)) = ' ' :: '=' :: ' ' :: w := hfwd
  have hbetween : between (c :: (cs ++ ' ' :: '=' :: ' ' :: w)) (' ' :: '=' :: ' ' :: w)
      = c :: cs := between_append (c :: cs) _
  simp only [hfwd', hbetween, hcur, hnew, hfwd2, hws2, Bool.false_eq_true, if_false, hpath]
  cases hv : parse_value stod scale w with
  | error err => rfl
  | ok r =>
    obtain ⟨v, rest⟩ := r
    rfl

end AssignmentLine
section IntegerLiteral

variable {R D : Type}

theorem forward_digits_append (ds rest : List Char) (hdig : ∀ c ∈ ds, isDigit c = true)
    (hrest : ∀ c, rest.head? = some c → isDigit c = false) :
    forward isDigit (ds ++ rest) = rest := by
  rw [forward_append_of_all isDigit ds rest hdig]
  cases rest with
  | nil => rfl
  | cons c cs => exact forward_cons_of_false isDigit c cs (hrest c rfl)

theorem stoll_digits (ds : List Char) (hne : ds ≠ []) (hdig : ∀ c ∈ ds, isDigit c = true) :
    stoll ds =
      if ds.foldl (fun acc c => 10 * acc + (c.toNat - 48)) 0 ≤ 2 ^ 63 - 1 then
        .ok ((ds.foldl (fun acc c => 10 * acc + (c.toNat - 48)) 0 : Nat) : Int)
      else .error .outOfRange := by
  unfold stoll
  have h1 : forward isDigit ds = [] := forward_all isDigit ds hdig
  simp only [h1, between_nil, hne, if_false]

theorem stoll_toDigits (m : Nat) (hm : m ≤ 2 ^ 63 - 1) :
    stoll (Nat.toDigits 10 m) = .ok (m : Int) := by
  obtain ⟨hne, hdig, _, hval⟩ := toDigits_spec m
  rw [stoll_digits _ hne hdig, hval, if_pos hm]

theorem toInteger_of_range (x : Int) (h1 : -2 ^ 31 ≤ x) (h2 : x < 2 ^ 31) :
    toInteger x = x := by
  unfold toInteger
  norm_num at h1 h2 ⊢
  omega

theorem toInteger_neg_natAbs (n : Int) (hneg : n < 0) (h1 : -2 ^ 31 ≤ n) :
    toInteger (toInteger (n.natAbs : Int) * -1) = n := by
  have habs : (n.natAbs : Int) = -n := by omega
  rw [habs]
  unfold toInteger
  norm_num at h1 ⊢
  omega

theorem isDigit_ne_sign (c : Char) (h : isDigit c = true) : c ≠ '+' ∧ c ≠ '-' ∧ c ≠ '.' := by
  refine ⟨?_, ?_, ?_⟩ <;> rintro rfl <;> simp [isDigit] at h

/-- The text after an integer literal: it does not go on with a digit or a point. -/
theorem isInteger_digits (ds rest : List Char) (hne : ds ≠ [])
    (hdig : ∀ c ∈ ds, isDigit c = true) (hzero : ds.head? ≠ some '0')
    (hrest : ∀ c, rest.head? = some c → isDigit c = false ∧ c ≠ '.') :
    isInteger (ds ++ rest) = .ok true ∧ isInteger ('+' :: (ds ++ rest)) = .ok true ∧
    isInteger ('-' :: (ds ++ rest)) = .ok true := by
  have hfwd : forward isDigit (ds ++ rest) = rest :=
    forward_digits_append ds rest hdig (fun c hc => (hrest c hc).1)
  have hbet : between (ds ++ rest) rest = ds := between_append ds rest
  cases ds with
  | nil => exact absurd rfl hne
  | cons d ds =>
    have hd : isDigit d = true := hdig d (List.mem_cons_self d ds)
    obtain ⟨hp, hm, _⟩ := isDigit_ne_sign d hd
    have hd0 : d ≠ '0' := by simpa using hzero
    have hs : (d == '+' || d == '-') = false := by simp [hp, hm]
    have key : ∀ x : List Char, x = d :: ds ++ rest →
        (match forward isDigit x with
          | '.' :: _ => (Except.ok false : Except Err Bool)
          | _ => .ok (!(between x (forward isDigit x)).isEmpty)) = .ok true := by
      intro x hx
      subst hx
      rw [hfwd, hbet]
      cases rest with
      | nil => rfl
      | cons c cs =>
        have hc : c ≠ '.' := (hrest c rfl).2
        split
        · rename_i heq
          simp only [List.cons.injEq] at heq
          exact absurd heq.1 hc
        · rfl
    refine ⟨?_, ?_, ?_⟩
    · simp only [isInteger, List.cons_append, hs, beq_iff_eq,
        Bool.false_eq_true, if_false, hd0]
      exact key _ rfl
    · simp only [isInteger, List.cons_append, beq_self_eq_true, Bool.true_or, if_true,
        beq_iff_eq, hd0, if_false]
      exact key _ rfl
    · simp only [isInteger, List.cons_append, beq_self_eq_true, Bool.or_true, if_true,
        beq_iff_eq, hd0, if_false]
      exact key _ rfl

theorem integerLiteral_isInteger (plus : Bool) (n : Int) (hn : n ≠ 0) (rest : List Char)
    (hrest : ∀ c, rest.head? = some c → isDigit c = false ∧ c ≠ '.') :
    isInteger (integerLiteral plus n ++ rest) = .ok true := by
  obtain ⟨hne, hdig, hhead, _⟩ := toDigits_spec n.natAbs
  have hpos : 0 < n.natAbs := Int.natAbs_pos.mpr hn
  obtain ⟨h1, h2, h3⟩ := isInteger_digits _ rest hne hdig (hhead hpos) hrest
  unfold integerLiteral
  split
  · exact h3
  · split
    · exact h2
    · exact h1

theorem integerLiteral_parse_integer (plus : Bool) (n : Int) (h1 : -2 ^ 31 ≤ n)
    (h2 : n < 2 ^ 31) (rest : List Char)
    (hrest : ∀ c, rest.head? = some c → isDigit c = false) :
    parse_integer (R := R) (integerLiteral plus n ++ rest) = .ok (.Integer n, rest) := by
  obtain ⟨hne, hdig, _, _⟩ := toDigits_spec n.natAbs
  have hfwd : forward isDigit (Nat.toDigits 10 n.natAbs ++ rest) = rest :=
    forward_digits_append _ rest hdig hrest
  have hbet : between (Nat.toDigits 10 n.natAbs ++ rest) rest = Nat.toDigits 10 n.natAbs :=
    between_append _ rest
  have habs : n.natAbs ≤ 2 ^ 63 - 1 := by
    norm_num at h1 h2 ⊢
    omega
  have hst := stoll_toDigits n.natAbs habs
  unfold integerLiteral
  split
  · rename_i hneg
    simp only [parse_integer, List.cons_append, beq_self_eq_true, Bool.or_true, if_true,
      hfwd, hbet, hst]
    have : ('-' == '+') = false := by decide
    simp only [this, Bool.false_eq_true, if_false]
    rw [toInteger_neg_natAbs n hneg h1]
  · rename_i hnn
    have hnat : (n.natAbs : Int) = n := Int.natAbs_of_nonneg (by omega)
    have hti : toInteger (toInteger (n.natAbs : Int) * 1) = n := by
      rw [hnat, mul_one, toInteger_of_range n h1 h2, toInteger_of_range n h1 h2]
    split
    · simp only [parse_integer, List.cons_append, beq_self_eq_true, Bool.true_or, if_true,
        hfwd, hbet, hst, hti]
    · cases hds : Nat.toDigits 10 n.natAbs with
      | nil => exact absurd hds hne
      | cons d ds =>
        have hd : isDigit d = true := hdig d (by rw [hds]; exact List.mem_cons_self d ds)
        obtain ⟨hp, hm, _⟩ := isDigit_ne_sign d hd
        have hs : (d == '+' || d == '-') = false := by simp [hp, hm]
        rw [hds] at hfwd hbet hst
        simp only [List.cons_append] at hfwd hbet
        simp only [parse_integer, List.cons_append, hs, Bool.false_eq_true, if_false,
          hfwd, hbet, hst, hti]

end IntegerLiteral
section IntegerAssignment

variable {R D : Type}

theorem integerLiteral_chars (plus : Bool) (n : Int) :
    ∀ c ∈ integerLiteral plus n, c = '+' ∨ c = '-' ∨ isDigit c = true := by
  obtain ⟨_, hdig, _, _⟩ := toDigits_spec n.natAbs
  intro c hc
  unfold integerLiteral at hc
  split at hc
  · rcases List.mem_cons.mp hc with h | h
    · exact Or.inr (Or.inl h)
    · exact Or.inr (Or.inr (hdig c h))
  · split at hc
    · rcases List.mem_cons.mp hc with h | h
      · exact Or.inl h
      · exact Or.inr (Or.inr (hdig c h))
    · exact Or.inr (Or.inr (hdig c hc))

theorem integerLiteral_ne_nil (plus : Bool) (n : Int) : integerLiteral plus n ≠ [] := by
  obtain ⟨hne, _, _, _⟩ := toDigits_spec n.natAbs
  unfold integerLiteral
  split
  · simp
  · split
    · simp
    · exact hne

theorem literal_char_plain (c : Char) (h : c = '+' ∨ c = '-' ∨ isDigit c = true) :
    c ≠ '#' ∧ c ≠ ' ' ∧ c ≠ '\t' ∧ c ≠ ',' ∧ c ≠ ']' := by
  rcases h with h | h | h
  · subst h; decide
  · subst h; decide
  · refine ⟨?_, ?_, ?_, ?_, ?_⟩ <;> rintro rfl <;> simp [isDigit] at h

theorem consumeWhitespace_of_head (w : List Char)
    (h : ∀ c, w.head? = some c → c ≠ ' ' ∧ c ≠ '\t') : consumeWhitespace w = w := by
  cases w with
  | nil => rfl
  | cons c cs =>
    obtain ⟨h1, h2⟩ := h c rfl
    exact consumeWhitespace_cons_of_not_blank c cs h1 h2

theorem parse_value_of_isInteger (stod : List Char → Except Err D) (scale : D → Int → R)
    (w : List Char) (hne : w ≠ []) (h : isInteger w = .ok true) :
    parse_value stod scale w = parse_integer w := by
  cases w with
  | nil => exact absurd rfl hne
  | cons c cs => simp only [parse_value, h]

/-- C4: for a key `k` (not empty, no blank, tab, `=` or `#`, not starting with `[`) and
an integer `n` other than zero that fits the 32-bit `integer_t`, the single line
`k = <n in decimal>`, with `-` in front when `n` is negative and with or without `+` in
front when it is positive, parses to a root table of length 1 in which `k` is an Integer
equal to `n`. -/
theorem parse_integer_assignment (stod : List Char → Except Err D) (scale : D → Int → R)
    (k : List Char) (n : Int) (plus : Bool) (hk : isKey k = true) (hn : n ≠ 0)
    (hlo : -2 ^ 31 ≤ n) (hhi : n < 2 ^ 31) :
    ∃ root : Table R,
      parse stod scale [assignment k (integerLiteral plus n)] = .ok root ∧
      Table.length root = 1 ∧ valueIs .integer_t k root = true ∧
      valueAs .integer_t k root = .ok n := by
  have hchars := integerLiteral_chars plus n
  have hne := integerLiteral_ne_nil plus n
  have hhash : ∀ c ∈ integerLiteral plus n, c ≠ '#' :=
    fun c hc => (literal_char_plain c (hchars c hc)).1
  have hws : consumeWhitespace (integerLiteral plus n) = integerLiteral plus n := by
    apply consumeWhitespace_of_head
    intro c hc
    have hmem : c ∈ integerLiteral plus n := List.mem_of_mem_head? hc
    have := literal_char_plain c (hchars c hmem)
    exact ⟨this.2.1, this.2.2.1⟩
  have hint : isInteger (integerLiteral plus n) = .ok true := by
    have := integerLiteral_isInteger plus n hn [] (by simp)
    simpa using this
  have hpi : parse_integer (R := R) (integerLiteral plus n) = .ok (.Integer n, []) := by
    have := integerLiteral_parse_integer (R := R) plus n hlo hhi [] (by simp)
    simpa using this
  have hval : parse_value stod scale (integerLiteral plus n) = .ok (.Integer n, []) := by
    rw [parse_value_of_isInteger stod scale _ hne hint, hpi]
  have hline := parse_line_assignment stod scale ⟨[], some []⟩ [] [] k
    (integerLiteral plus n) hk rfl rfl rfl hhash hws
  rw [hval] at hline
  refine ⟨[(k, .Integer n)], ?_, rfl, ?_, ?_⟩
  · simp only [parse, parse_lines, hline]
    rfl
  · simp [valueIs, Table.valueIs, Table.get, Value.is]
  · exact Table.valueAs_of_get .integer_t k _ (.Integer n) n (by simp [Table.get]) rfl

/-- Instance of C4: the line `x = -2147483648` gives `x` the value `-2147483648`. -/
theorem parse_integer_assignment_witness :
    ∃ root : Table Unit,
      parse (D := Unit) (fun _ => .ok ()) (fun _ _ => ())
        [assignment "x".toList (integerLiteral false (-2147483648))] = .ok root ∧
      Table.length root = 1 ∧ valueIs .integer_t "x".toList root = true ∧
      valueAs .integer_t "x".toList root = .ok (-2147483648) :=
  parse_integer_assignment (fun _ => .ok ()) (fun _ _ => ()) "x".toList (-2147483648) false
    (by decide) (by decide) (by decide) (by decide)

end IntegerAssignment

section StringLiteral

variable {R D : Type}

theorem forward_to_quote (s rest : List Char) (hs : ∀ c ∈ s, c ≠ '"') :
    forward (fun c => c != '"') (s ++ '"' :: rest) = '"' :: rest := by
  rw [forward_append_of_all]
  · rfl
  · intro c hc
    simp [hs c hc]

theorem stringLiteral_isInteger (s rest : List Char) :
    isInteger (stringLiteral s ++ rest) = .ok false := by
  simp [stringLiteral, isInteger, forward, isDigit, between]

theorem stringLiteral_isReal (s rest : List Char) :
    isReal (stringLiteral s ++ rest) = .ok false := by
  simp [stringLiteral, isReal, forward, isDigit]

theorem stringLiteral_isString (s rest : List Char) (hs : ∀ c ∈ s, c ≠ '"') :
    isString (stringLiteral s ++ rest) = .ok true := by
  have h := forward_to_quote s rest hs
  simp only [stringLiteral, List.cons_append, List.append_assoc, List.singleton_append,
    List.nil_append] at h ⊢
  simp [isString, h]

theorem stringLiteral_parse_string (s rest : List Char) (hs : ∀ c ∈ s, c ≠ '"') :
    parse_string (R := R) (stringLiteral s ++ rest) = .ok (.String s, rest) := by
  have h := forward_to_quote s rest hs
  have hb : between (s ++ '"' :: rest) ('"' :: rest) = s := between_append s _
  simp only [stringLiteral, List.cons_append, List.append_assoc, List.singleton_append,
    List.nil_append]
  simp only [parse_string, h, hb]

theorem stringLiteral_parse_value (stod : List Char → Except Err D) (scale : D → Int → R)
    (s rest : List Char) (hs : ∀ c ∈ s, c ≠ '"') :
    parse_value stod scale (stringLiteral s ++ rest) = .ok (.String s, rest) := by
  have h1 := stringLiteral_isInteger s rest
  have h2 := stringLiteral_isReal s rest
  have h3 := stringLiteral_isString s rest hs
  have h4 := stringLiteral_parse_string (R := R) s rest hs
  generalize hw : stringLiteral s ++ rest = w at h1 h2 h3 h4
  cases w with
  | nil => simp [stringLiteral] at hw
  | cons c cs => simp only [parse_value, h1, h2, h3, h4]

/-- C5: for a key `k` (as in C4) and a text `s` without `"` and without `#`, the line
`k = "s"` parses to a root table in which `k` is a String equal to `s`, character for
character; `s` may hold blanks, tabs, brackets, `=` and backslashes. -/
theorem parse_string_assignment (stod : List Char → Except Err D) (scale : D → Int → R)
    (k s : List Char) (hk : isKey k = true) (hquote : ∀ c ∈ s, c ≠ '"')
    (hhash : ∀ c ∈ s, c ≠ '#') :
    ∃ root : Table R,
      parse stod scale [assignment k (stringLiteral s)] = .ok root ∧
      valueIs .string_t k root = true ∧ valueAs .string_t k root = .ok s := by
  have hnohash : ∀ c ∈ stringLiteral s, c ≠ '#' := by
    intro c hc
    simp only [stringLiteral, List.mem_cons, List.mem_append, List.mem_singleton] at hc
    rcases hc with h | h | h | h
    · subst h; decide
    · exact hhash c h
    · subst h; decide
    · simp at h
  have hws : consumeWhitespace (stringLiteral s) = stringLiteral s := rfl
  have hval : parse_value stod scale (stringLiteral s) = .ok (.String s, []) := by
    have := stringLiteral_parse_value stod scale s [] hquote
    simpa using this
  have hline := parse_line_assignment stod scale ⟨[], some []⟩ [] [] k
    (stringLiteral s) hk rfl rfl rfl hnohash hws
  rw [hval] at hline
  refine ⟨[(k, .String s)], ?_, ?_, ?_⟩
  · simp only [parse, parse_lines, hline]
    rfl
  · simp [valueIs, Table.valueIs, Table.get, Value.is]
  · exact Table.valueAs_of_get .string_t k _ (.String s) s (by simp [Table.get]) rfl

/-- Instance of C5: the line `s = "a  [b] = \n"` keeps blanks, brackets, `=` and the
backslash followed by `n` as they are. -/
theorem parse_string_assignment_witness :
    ∃ root : Table Unit,
      parse (D := Unit) (fun _ => .ok ()) (fun _ _ => ())
        [assignment "s".toList (stringLiteral "a  [b] = \\n".toList)] = .ok root ∧
      valueIs .string_t "s".toList root = true ∧
      valueAs .string_t "s".toList root = .ok "a  [b] = \\n".toList :=
  parse_string_assignment (fun _ => .ok ()) (fun _ _ => ()) "s".toList
    "a  [b] = \\n".toList (by decide) (by decide) (by decide)

end StringLiteral

section IntegerArray

variable {R D : Type}

theorem consumeWhitespace_spaces (n : Nat) (x : List Char) :
    consumeWhitespace (spaces n ++ x) = consumeWhitespace x := by
  unfold consumeWhitespace
  apply forward_append_of_all
  intro c hc
  have : c = ' ' := List.eq_of_mem_replicate hc
  simp [this]

theorem arrayTail_head (es : List (Nat × Int × Nat)) :
    ∃ c rest, arrayTail es = c :: rest ∧ (c = ']' ∨ c = ',') := by
  cases es with
  | nil => exact ⟨']', [], rfl, Or.inl rfl⟩
  | cons e es => exact ⟨',', _, rfl, Or.inr rfl⟩

theorem consumeWhitespace_arrayTail (es : List (Nat × Int × Nat)) :
    consumeWhitespace (arrayTail es) = arrayTail es := by
  obtain ⟨c, rest, h, hc⟩ := arrayTail_head es
  rw [h]
  apply consumeWhitespace_cons_of_not_blank <;> rcases hc with rfl | rfl <;> decide

theorem consumeWhitespace_integerLiteral (plus : Bool) (n : Int) (x : List Char) :
    consumeWhitespace (integerLiteral plus n ++ x) = integerLiteral plus n ++ x := by
  apply consumeWhitespace_of_head
  intro c hc
  have hne := integerLiteral_ne_nil plus n
  have hmem : c ∈ integerLiteral plus n := by
    cases h : integerLiteral plus n with
    | nil => exact absurd h hne
    | cons d ds =>
      rw [h] at hc
      simp only [List.cons_append, List.head?_cons, Option.some.injEq] at hc
      subst hc
      exact List.mem_cons_self _ _
  have := literal_char_plain c (integerLiteral_chars plus n c hmem)
  exact ⟨this.2.1, this.2.2.1⟩

theorem after_element_head (b : Nat) (es : List (Nat × Int × Nat)) :
    ∀ c, (spaces b ++ arrayTail es).head? = some c → isDigit c = false ∧ c ≠ '.' := by
  intro c hc
  obtain ⟨d, rest, h, hd⟩ := arrayTail_head es
  cases b with
  | zero =>
    simp only [spaces, List.replicate_zero, List.nil_append, h, List.head?_cons,
      Option.some.injEq] at hc
    subst hc
    rcases hd with rfl | rfl <;> decide
  | succ b =>
    simp only [spaces, List.replicate_succ, List.cons_append, List.head?_cons,
      Option.some.injEq] at hc
    subst hc
    decide

/-- One pass of the loop of `parse_array` over an element written in decimal. -/
theorem parse_array_loop_element (n : Nat) (c : Char) (hc : c ≠ ']')
    (e : Nat × Int × Nat) (hlo : -2 ^ 31 ≤ e.2.1) (hhi : e.2.1 < 2 ^ 31)
    (es : List (Nat × Int × Nat)) (acc : List (Value R)) :
    parse_array_loop parse_integer (n + 1) (c :: (arrayElement e ++ arrayTail es)) acc =
      parse_array_loop parse_integer n (arrayTail es) (acc ++ [.Integer e.2.1]) := by
  have hcb : (c == ']') = false := by simpa using hc
  have h1 : consumeWhitespace (arrayElement e ++ arrayTail es) =
      integerLiteral false e.2.1 ++ (spaces e.2.2 ++ arrayTail es) := by
    simp only [arrayElement, List.append_assoc]
    rw [consumeWhitespace_spaces, consumeWhitespace_integerLiteral]
  have h2 : parse_integer (R := R) (integerLiteral false e.2.1 ++ (spaces e.2.2 ++ arrayTail es))
      = .ok (.Integer e.2.1, spaces e.2.2 ++ arrayTail es) :=
    integerLiteral_parse_integer false e.2.1 hlo hhi _
      (fun d hd => (after_element_head e.2.2 es d hd).1)
  have h3 : consumeWhitespace (spaces e.2.2 ++ arrayTail es) = arrayTail es := by
    rw [consumeWhitespace_spaces, consumeWhitespace_arrayTail]
  simp only [parse_array_loop, hcb, Bool.false_eq_true, if_false, h1, h2, h3,
    array_t.insertBack]

theorem parse_array_loop_tail (es : List (Nat × Int × Nat)) :
    ∀ (n : Nat) (acc : List (Value R)), es.length < n →
      (∀ e ∈ es, -2 ^ 31 ≤ e.2.1 ∧ e.2.1 < 2 ^ 31) →
      parse_array_loop parse_integer n (arrayTail es) acc =
        .ok (.array_t (acc ++ es.map (fun e => .Integer e.2.1)), []) := by
  induction es with
  | nil =>
    intro n acc hn _
    cases n with
    | zero => omega
    | succ n => simp [arrayTail, parse_array_loop]
  | cons e es ih =>
    intro n acc hn hr
    cases n with
    | zero => omega
    | succ n =>
      have he := hr e (List.mem_cons_self e es)
      have hes : ∀ x ∈ es, -2 ^ 31 ≤ x.2.1 ∧ x.2.1 < 2 ^ 31 :=
        fun x hx => hr x (List.mem_cons_of_mem e hx)
      have hlen : es.length < n := by
        simp only [List.length_cons] at hn
        omega
      simp only [arrayTail]
      rw [parse_array_loop_element n ',' (by decide) e he.1 he.2 es acc, ih n _ hlen hes]
      simp

theorem arrayTail_length (es : List (Nat × Int × Nat)) :
    es.length < (arrayTail es).length := by
  induction es with
  | nil => simp [arrayTail]
  | cons e es ih =>
    simp only [arrayTail, List.length_cons, List.length_append]
    omega

theorem arrayElement_chars (e : Nat × Int × Nat) :
    ∀ c ∈ arrayElement e, c = ' ' ∨ c = '+' ∨ c = '-' ∨ isDigit c = true := by
  intro c hc
  simp only [arrayElement, List.mem_append] at hc
  rcases hc with h | h | h
  · exact Or.inl (List.eq_of_mem_replicate h)
  · exact Or.inr (integerLiteral_chars false e.2.1 c h)
  · exact Or.inl (List.eq_of_mem_replicate h)

theorem element_char_plain (c : Char)
    (h : c = ' ' ∨ c = '+' ∨ c = '-' ∨ isDigit c = true) :
    c ≠ '#' ∧ c ≠ '[' ∧ c ≠ ']' := by
  rcases h with h | h | h | h
  · subst h; decide
  · subst h; decide
  · subst h; decide
  · refine ⟨?_, ?_, ?_⟩ <;> rintro rfl <;> simp [isDigit] at h

theorem arrayTail_no_hash (es : List (Nat × Int × Nat)) : ∀ c ∈ arrayTail es, c ≠ '#' := by
  induction es with
  | nil =>
    intro c hc
    simp only [arrayTail, List.mem_singleton] at hc
    subst hc; decide
  | cons e es ih =>
    intro c hc
    simp only [arrayTail, List.mem_cons, List.mem_append] at hc
    rcases hc with h | h | h
    · subst h; decide
    · exact (element_char_plain c (arrayElement_chars e c h)).1
    · exact ih c h

theorem isArray_scan_append (xs ys : List Char) (level : Nat) (hl : 0 < level)
    (h : ∀ c ∈ xs, c ≠ '[' ∧ c ≠ ']') :
    isArray.scan level (xs ++ ys) = isArray.scan level ys := by
  induction xs with
  | nil => rfl
  | cons c cs ih =>
    obtain ⟨h1, h2⟩ := h c (List.mem_cons_self c cs)
    have hcs : ∀ d ∈ cs, d ≠ '[' ∧ d ≠ ']' := fun d hd => h d (List.mem_cons_of_mem c hd)
    simp only [List.cons_append, isArray.scan, beq_iff_eq, h1, h2, if_false, hl, if_true,
      gt_iff_lt]
    exact ih hcs

theorem isArray_scan_arrayTail (es : List (Nat × Int × Nat)) :
    isArray.scan 1 (arrayTail es) = [']'] := by
  induction es with
  | nil => rfl
  | cons e es ih =>
    simp only [arrayTail]
    have : isArray.scan 1 (',' :: (arrayElement e ++ arrayTail es)) =
        isArray.scan 1 (arrayElement e ++ arrayTail es) := rfl
    rw [this, isArray_scan_append _ _ 1 (by decide)
      (fun c hc => (element_char_plain c (arrayElement_chars e c hc)).2), ih]

end IntegerArray
section IntegerArrayAssignment

variable {R D : Type}

theorem integerArrayLiteral_parse_value (stod : List Char → Except Err D)
    (scale : D → Int → R) (e : Nat × Int × Nat) (es : List (Nat × Int × Nat))
    (h0 : e.2.1 ≠ 0) (hr : ∀ x ∈ e :: es, -2 ^ 31 ≤ x.2.1 ∧ x.2.1 < 2 ^ 31) :
    parse_value stod scale (integerArrayLiteral e es) =
      .ok (.array_t ((e :: es).map (fun x => .Integer x.2.1)), []) := by
  have he := hr e (List.mem_cons_self e es)
  have hes : ∀ x ∈ es, -2 ^ 31 ≤ x.2.1 ∧ x.2.1 < 2 ^ 31 :=
    fun x hx => hr x (List.mem_cons_of_mem e hx)
  have h1 : isInteger (integerArrayLiteral e es) = .ok false := by
    simp [integerArrayLiteral, isInteger, forward, isDigit, between]
  have h2 : isReal (integerArrayLiteral e es) = .ok false := by
    simp [integerArrayLiteral, isReal, forward, isDigit]
  have h3 : isString (integerArrayLiteral e es) = .ok false := by
    simp [integerArrayLiteral, isString]
  have hscan : isArray.scan 1 (arrayElement e ++ arrayTail es) = [']'] := by
    rw [isArray_scan_append _ _ 1 (by decide)
      (fun c hc => (element_char_plain c (arrayElement_chars e c hc)).2),
      isArray_scan_arrayTail]
  have h4 : isArray (integerArrayLiteral e es) = .ok true := by
    simp [integerArrayLiteral, isArray, hscan]
  have htmp : consumeWhitespace (arrayElement e ++ arrayTail es) =
      integerLiteral false e.2.1 ++ (spaces e.2.2 ++ arrayTail es) := by
    simp only [arrayElement, List.append_assoc]
    rw [consumeWhitespace_spaces, consumeWhitespace_integerLiteral]
  have h5 : isInteger (integerLiteral false e.2.1 ++ (spaces e.2.2 ++ arrayTail es))
      = .ok true :=
    integerLiteral_isInteger false e.2.1 h0 _ (after_element_head e.2.2 es)
  have hlen : es.length < (integerArrayLiteral e es).length := by
    have := arrayTail_length es
    simp only [integerArrayLiteral, List.length_cons, List.length_append]
    omega
  have hloop : parse_array_loop (R := R) parse_integer ((integerArrayLiteral e es).length + 1)
      (integerArrayLiteral e es) [] =
      .ok (.array_t ((e :: es).map (fun x => .Integer x.2.1)), []) := by
    unfold integerArrayLiteral at hlen ⊢
    rw [parse_array_loop_element _ '[' (by decide) e he.1 he.2 es [],
      parse_array_loop_tail es _ _ hlen hes]
    simp
  have hpa : parse_array stod scale ((integerArrayLiteral e es).length + 1)
      (integerArrayLiteral e es) =
      .ok (.array_t ((e :: es).map (fun x => .Integer x.2.1)), []) := by
    rw [← hloop]
    simp only [parse_array, integerArrayLiteral, htmp, h5]
  simp only [integerArrayLiteral] at h1 h2 h3 h4 hpa ⊢
  simp only [parse_value, h1, h2, h3, h4, hpa]

/-- C6: for a key `k` (as in C4), a first integer other than zero and any further
integers, all fitting `integer_t`, the line `k = [e1, e2, ..., en]`, in which every
element is written in decimal with any number of blanks before and after it, parses to a
root table in which `k` is an Array of length `n` with `arrayIs<Integer>` true and with
`valueAs<Integer>(i)` equal to the element written at place `i`, for every `i < n`. -/
theorem parse_integer_array_assignment (stod : List Char → Except Err D)
    (scale : D → Int → R) (k : List Char) (e : Nat × Int × Nat)
    (es : List (Nat × Int × Nat)) (hk : isKey k = true) (h0 : e.2.1 ≠ 0)
    (hr : ∀ x ∈ e :: es, -2 ^ 31 ≤ x.2.1 ∧ x.2.1 < 2 ^ 31) :
    ∃ (root : Table R) (arr : List (Value R)),
      parse stod scale [assignment k (integerArrayLiteral e es)] = .ok root ∧
      valueAs .array_t k root = .ok arr ∧
      array_t.length arr = (e :: es).length ∧
      array_t.arrayIs .integer_t arr = .ok true ∧
      ∀ i : Fin (e :: es).length,
        array_t.valueAs .integer_t i.val arr = .ok ((e :: es).get i).2.1 := by
  have hnohash : ∀ c ∈ integerArrayLiteral e es, c ≠ '#' := by
    intro c hc
    simp only [integerArrayLiteral, List.mem_cons, List.mem_append] at hc
    rcases hc with h | h | h
    · subst h; decide
    · exact (element_char_plain c (arrayElement_chars e c h)).1
    · exact arrayTail_no_hash es c h
  have hws : consumeWhitespace (integerArrayLiteral e es) = integerArrayLiteral e es := rfl
  have hval := integerArrayLiteral_parse_value stod scale e es h0 hr
  have hline := parse_line_assignment stod scale ⟨[], some []⟩ [] [] k
    (integerArrayLiteral e es) hk rfl rfl rfl hnohash hws
  rw [hval] at hline
  refine ⟨[(k, .array_t ((e :: es).map (fun x => .Integer x.2.1)))],
    (e :: es).map (fun x => .Integer x.2.1), ?_, ?_, ?_, ?_, ?_⟩
  · simp only [parse, parse_lines, hline]
    rfl
  · have hget : Table.get k [(k, (Value.array_t ((e :: es).map
        (fun x : Nat × Int × Nat => (Value.Integer x.2.1 : Value R))) : Value R))] =
        some (.array_t ((e :: es).map (fun x => .Integer x.2.1))) := by
      simp [Table.get]
    exact Table.valueAs_of_get .array_t k _ _ _ hget rfl
  · simp [array_t.length]
  · simp [array_t.arrayIs, Value.is]
  · intro i
    have hi : i.val < ((e :: es).map (fun x => (Value.Integer x.2.1 : Value R))).length := by
      simp
    have hget : ((e :: es).map (fun x => (Value.Integer x.2.1 : Value R)))[i.val]? =
        some (.Integer ((e :: es).get i).2.1) := by
      rw [List.getElem?_eq_getElem hi, List.getElem_map]
      rfl
    simp only [array_t.valueAs, array_t.arrayIs, List.map_cons, List.getElem?_cons_zero,
      Value.is, decide_True]
    simp only [List.map_cons] at hget
    rw [hget]
    rfl

/-- Instance of C6: the line `arr = [4, 2, 5]`. -/
theorem parse_integer_array_assignment_witness :
    ∃ (root : Table Unit) (arr : List (Value Unit)),
      parse (D := Unit) (fun _ => .ok ()) (fun _ _ => ())
        [assignment "arr".toList (integerArrayLiteral (0, 4, 0) [(1, 2, 0), (1, 5, 0)])]
        = .ok root ∧
      valueAs .array_t "arr".toList root = .ok arr ∧
      array_t.length arr = 3 ∧
      array_t.arrayIs .integer_t arr = .ok true ∧
      ∀ i : Fin 3,
        array_t.valueAs .integer_t i.val arr =
          .ok ([((0 : Nat), (4 : Int), (0 : Nat)), (1, 2, 0), (1, 5, 0)].get i).2.1 :=
  parse_integer_array_assignment (fun _ => .ok ()) (fun _ _ => ()) "arr".toList (0, 4, 0)
    [(1, 2, 0), (1, 5, 0)] (by decide) (by decide) (by decide)

end IntegerArrayAssignment

section Homogeneity

variable {R D : Type}

theorem arraysSameKind_Integer (i : Int) : arraysSameKind (R := R) (.Integer i) := by
  intro arr h
  cases h

theorem arraysSameKind_Real (r : R) : arraysSameKind (.Real r) := by
  intro arr h
  cases h

theorem arraysSameKind_String (s : List Char) : arraysSameKind (R := R) (.String s) := by
  intro arr h
  cases h

theorem arraysSameKind_array (arr : List (Value R)) (h1 : sameKind arr)
    (h2 : ∀ v ∈ arr, arraysSameKind v) : arraysSameKind (.array_t arr) := by
  intro a h
  cases h with
  | self => exact h1
  | element hv hocc => exact h2 _ hv a hocc

theorem arraysSameKind_table (t : Table R) :
    arraysSameKind (.table_t t) ↔ ∀ kv ∈ t, arraysSameKind kv.2 := by
  constructor
  · intro h kv hkv a hocc
    exact h a (@Occurs.mapped R (.array_t a) kv.2 kv.1 t hkv hocc)
  · intro h a hocc
    cases hocc with
    | mapped hkv hocc => exact h _ hkv a hocc

theorem parse_integer_kind (it it' : List Char) (v : Value R)
    (h : parse_integer it = .ok (v, it')) :
    v.is .integer_t = true ∧ arraysSameKind v := by
  unfold parse_integer at h
  cases it with
  | nil => simp at h
  | cons c rest =>
    simp only [] at h
    split at h
    · simp at h
    · simp only [Except.ok.injEq, Prod.mk.injEq] at h
      obtain ⟨rfl, _⟩ := h
      exact ⟨rfl, arraysSameKind_Integer _⟩

theorem parse_real_kind (stod : List Char → Except Err D) (scale : D → Int → R)
    (it it' : List Char) (v : Value R) (h : parse_real stod scale it = .ok (v, it')) :
    v.is .real_t = true ∧ arraysSameKind v := by
  unfold parse_real at h
  cases it with
  | nil => simp at h
  | cons c rest =>
    simp only [] at h
    split at h
    · simp at h
    · split at h
      · simp at h
      · simp only [Except.ok.injEq, Prod.mk.injEq] at h
        obtain ⟨rfl, _⟩ := h
        exact ⟨rfl, arraysSameKind_Real _⟩

theorem parse_string_kind (it it' : List Char) (v : Value R)
    (h : parse_string it = .ok (v, it')) :
    v.is .string_t = true ∧ arraysSameKind v := by
  unfold parse_string at h
  cases it with
  | nil => simp at h
  | cons c rest =>
    simp only [] at h
    split at h
    · simp at h
    · simp only [Except.ok.injEq, Prod.mk.injEq] at h
      obtain ⟨rfl, _⟩ := h
      exact ⟨rfl, arraysSameKind_String _⟩

/-- The loop of `parse_array` hands every element to the same `efun`, so when `efun`
only returns values of kind `T`, the array it builds has elements of kind `T` only. -/
theorem parse_array_loop_kind (T : Kind) (hT : T ≠ .table_t)
    (efun : List Char → Except Err (Value R × List Char))
    (hefun : ∀ it v it', efun it = .ok (v, it') → v.is T = true ∧ arraysSameKind v) :
    ∀ (n : Nat) (it : List Char) (arr : List (Value R)) (v : Value R) (it' : List Char),
      (∀ x ∈ arr, x.is T = true ∧ arraysSameKind x) →
      parse_array_loop efun n it arr = .ok (v, it') →
      v.is .array_t = true ∧ arraysSameKind v := by
  intro n
  induction n with
  | zero =>
    intro it arr v it' _ h
    simp [parse_array_loop] at h
  | succ n ih =>
    intro it arr v it' harr h
    cases it with
    | nil => simp [parse_array_loop] at h
    | cons c rest =>
      simp only [parse_array_loop] at h
      split at h
      · simp only [Except.ok.injEq, Prod.mk.injEq] at h
        obtain ⟨rfl, _⟩ := h
        exact ⟨rfl, arraysSameKind_array arr ⟨T, hT, fun x hx => (harr x hx).1⟩
          (fun x hx => (harr x hx).2)⟩
      · split at h
        · simp at h
        · rename_i elem it1 hef
          have hel := hefun _ _ _ hef
          apply ih _ _ v it' _ h
          intro x hx
          simp only [array_t.insertBack, List.mem_append, List.mem_singleton] at hx
          rcases hx with hx | rfl
          · exact harr x hx
          · exact hel

theorem parse_array_kind (stod : List Char → Except Err D) (scale : D → Int → R) :
    ∀ (n : Nat) (it it' : List Char) (v : Value R),
      parse_array stod scale n it = .ok (v, it') →
      v.is .array_t = true ∧ arraysSameKind v := by
  intro n
  induction n with
  | zero =>
    intro it it' v h
    simp [parse_array] at h
  | succ n ih =>
    intro it it' v h
    cases it with
    | nil => simp [parse_array] at h
    | cons c tmp =>
      simp only [parse_array] at h
      split at h
      · simp at h
      · exact parse_array_loop_kind .integer_t (by decide) parse_integer
          (fun a b c hh => parse_integer_kind a c b hh) _ _ [] v it' (by simp) h
      · split at h
        · simp at h
        · exact parse_array_loop_kind .real_t (by decide) (parse_real stod scale)
            (fun a b c hh => parse_real_kind stod scale a c b hh) _ _ [] v it' (by simp) h
        · split at h
          · simp at h
          · exact parse_array_loop_kind .string_t (by decide) parse_string
              (fun a b c hh => parse_string_kind a c b hh) _ _ [] v it' (by simp) h
          · split at h
            · simp at h
            · exact parse_array_loop_kind .array_t (by decide) (parse_array stod scale n)
                (fun a b c hh => ih a c b hh) _ _ [] v it' (by simp) h
            · simp at h

theorem parse_value_kind (stod : List Char → Except Err D) (scale : D → Int → R)
    (it it' : List Char) (v : Value R) (h : parse_value stod scale it = .ok (v, it')) :
    arraysSameKind v := by
  cases it with
  | nil => simp [parse_value] at h
  | cons c rest =>
    simp only [parse_value] at h
    split at h
    · simp at h
    · exact (parse_integer_kind _ _ _ h).2
    · split at h
      · simp at h
      · exact (parse_real_kind stod scale _ _ _ h).2
      · split at h
        · simp at h
        · exact (parse_string_kind _ _ _ h).2
        · split at h
          · simp at h
          · exact (parse_array_kind stod scale _ _ _ _ h).2
          · simp at h

end Homogeneity
section HomogeneityOfTree

variable {R D : Type}

theorem parse_key_eq_value_ok (stod : List Char → Except Err D) (scale : D → Int → R)
    (it it' : List Char) (st st' : ParserState R)
    (h : parse_key_eq_value stod scale it st = .ok (st', it')) :
    ∃ (key : List Char) (val : Value R) (path : List (List Char)) (it0 : List Char),
      parse_value stod scale it0 = .ok (val, it') ∧ st.currentTable = some path ∧
      st' = ⟨updateAt (Table.addValue key val) path st.rootTable, st.currentTable⟩ := by
  unfold parse_key_eq_value at h
  simp only [] at h
  split at h
  · simp at h
  · rename_i key it1 _
    split at h
    · simp at h
    · rename_i c it2
      split at h
      · simp at h
      · rename_i val it3 hv
        split at h
        · simp at h
        · rename_i path hp
          simp only [Except.ok.injEq, Prod.mk.injEq] at h
          obtain ⟨rfl, rfl⟩ := h
          exact ⟨key, val, path, _, hv, hp, rfl⟩

theorem parse_table_ok (it it' : List Char) (root : Table R) (st' : ParserState R)
    (h : parse_table it root = .ok (st', it')) :
    ∃ (key : List Char) (path : List (List Char)) (cur : Table R),
      st'.rootTable = updateAt (Table.addValue key (.table_t [])) path root ∧
      st'.currentTable = (if Table.contains key cur then none else some (path ++ [key])) := by
  unfold parse_table at h
  simp only [] at h
  split at h
  · simp at h
  · split at h
    · simp at h
    · split at h
      · simp at h
      · rename_i it1 key cur _
        split at h
        · simp at h
        · simp only [Except.ok.injEq, Prod.mk.injEq] at h
          obtain ⟨rfl, rfl⟩ := h
          exact ⟨key, cur.1, cur.2, rfl, rfl⟩

theorem parse_line_ok (stod : List Char → Except Err D) (scale : D → Int → R)
    (st st' : ParserState R) (line : List Char)
    (h : parse_line stod scale st line = .ok st') :
    st' = st ∨
    (∃ it it', parse_table it st.rootTable = .ok (st', it')) ∨
    (∃ it it', parse_key_eq_value stod scale it st = .ok (st', it')) := by
  unfold parse_line at h
  simp only [] at h
  split at h
  · simp only [Except.ok.injEq] at h
    exact Or.inl h.symm
  · rename_i c rest hit
    split at h
    · simp at h
    · rename_i st1 it1 hstep
      split at h
      · simp only [Except.ok.injEq] at h
        subst h
        by_cases hc : (c == '[') = true
        · simp only [hc, if_true] at hstep
          exact Or.inr (Or.inl ⟨_, _, hstep⟩)
        · simp only [hc, if_false] at hstep
          exact Or.inr (Or.inr ⟨_, _, hstep⟩)
      · simp at h

/-- Every value mapped in the table has arrays of one kind only. -/
theorem addValue_sameKind (key : List Char) (val : Value R) (t : Table R)
    (ht : ∀ kv ∈ t, arraysSameKind kv.2) (hv : arraysSameKind val) :
    ∀ kv ∈ Table.addValue key val t, arraysSameKind kv.2 := by
  intro kv hkv
  unfold Table.addValue at hkv
  split at hkv
  · exact ht kv hkv
  · rcases List.mem_append.mp hkv with h | h
    · exact ht kv h
    · simp only [List.mem_singleton] at h
      subst h
      exact hv

theorem modify_sameKind (key : List Char) (f : Value R → Value R)
    (hf : ∀ v, arraysSameKind v → arraysSameKind (f v)) (t : Table R)
    (ht : ∀ kv ∈ t, arraysSameKind kv.2) :
    ∀ kv ∈ Table.modify key f t, arraysSameKind kv.2 := by
  induction t with
  | nil => intro kv hkv; simp [Table.modify] at hkv
  | cons e rest ih =>
    obtain ⟨k, v⟩ := e
    have hrest : ∀ kv ∈ rest, arraysSameKind kv.2 :=
      fun kv hkv => ht kv (List.mem_cons_of_mem _ hkv)
    have hv : arraysSameKind v := ht (k, v) (List.mem_cons_self _ _)
    intro kv hkv
    simp only [Table.modify] at hkv
    split at hkv
    · rcases List.mem_cons.mp hkv with h | h
      · subst h; exact hf v hv
      · exact hrest kv h
    · rcases List.mem_cons.mp hkv with h | h
      · subst h; exact hv
      · exact ih hrest kv h

theorem updateAt_sameKind (f : Table R → Table R)
    (hf : ∀ t, (∀ kv ∈ t, arraysSameKind kv.2) → ∀ kv ∈ f t, arraysSameKind kv.2)
    (path : List (List Char)) :
    ∀ t : Table R, (∀ kv ∈ t, arraysSameKind kv.2) →
      ∀ kv ∈ updateAt f path t, arraysSameKind kv.2 := by
  induction path with
  | nil => intro t ht; exact hf t ht
  | cons key path ih =>
    intro t ht
    simp only [updateAt]
    apply modify_sameKind key _ _ t ht
    intro v hv
    cases v with
    | table_t child =>
      simp only []
      rw [arraysSameKind_table] at hv ⊢
      exact ih child hv
    | _ => exact hv

theorem parse_line_sameKind (stod : List Char → Except Err D) (scale : D → Int → R)
    (st st' : ParserState R) (line : List Char)
    (h : parse_line stod scale st line = .ok st')
    (hst : ∀ kv ∈ st.rootTable, arraysSameKind kv.2) :
    ∀ kv ∈ st'.rootTable, arraysSameKind kv.2 := by
  rcases parse_line_ok stod scale st st' line h with rfl | ⟨it, it', ht⟩ | ⟨it, it', hk⟩
  · exact hst
  · obtain ⟨key, path, cur, hroot, _⟩ := parse_table_ok it it' st.rootTable st' ht
    rw [hroot]
    apply updateAt_sameKind _ _ path _ hst
    intro t htt
    apply addValue_sameKind key _ t htt
    rw [arraysSameKind_table]
    intro kv hkv
    simp at hkv
  · obtain ⟨key, val, path, it0, hv, _, rfl⟩ := parse_key_eq_value_ok stod scale it it' st st' hk
    apply updateAt_sameKind _ _ path _ hst
    intro t htt
    exact addValue_sameKind key val t htt (parse_value_kind stod scale _ _ _ hv)

theorem parse_lines_sameKind (stod : List Char → Except Err D) (scale : D → Int → R)
    (lines : List (List Char)) :
    ∀ (st st' : ParserState R), parse_lines stod scale st lines = .ok st' →
      (∀ kv ∈ st.rootTable, arraysSameKind kv.2) →
      ∀ kv ∈ st'.rootTable, arraysSameKind kv.2 := by
  induction lines with
  | nil =>
    intro st st' h hst
    simp only [parse_lines, Except.ok.injEq] at h
    subst h
    exact hst
  | cons line rest ih =>
    intro st st' h hst
    simp only [parse_lines] at h
    split at h
    · simp at h
    · rename_i st1 hline
      exact ih st1 st' h (parse_line_sameKind stod scale st st1 line hline hst)

/-- C7: in the tree of a successful parse, every array, at any depth, has elements of a
single kind among Integer, Real, String and Array; so when the array has an element 0,
`arrayIs<T>` returns true for the kind `T` of that element, and every element is of
kind `T`. -/
theorem parsed_arrays_homogeneous (stod : List Char → Except Err D) (scale : D → Int → R)
    (lines : List (List Char)) (root : Table R) (arr : List (Value R))
    (hparse : parse stod scale lines = .ok root)
    (hocc : Occurs (.array_t arr) (.table_t root)) :
    (∃ T : Kind, T ≠ .table_t ∧ ∀ v ∈ arr, v.is T = true) ∧
    (∀ (T : Kind) (v0 : Value R), arr[0]? = some v0 → v0.is T = true →
      T ≠ .table_t ∧ array_t.arrayIs T arr = .ok true ∧ ∀ v ∈ arr, v.is T = true) := by
  have hroot : arraysSameKind (.table_t root) := by
    rw [arraysSameKind_table]
    unfold parse at hparse
    split at hparse
    · simp at hparse
    · rename_i st hst
      simp only [Except.ok.injEq] at hparse
      subst hparse
      exact parse_lines_sameKind stod scale lines _ st hst (by simp)
  have hsame : sameKind arr := hroot arr hocc
  refine ⟨hsame, ?_⟩
  intro T v0 h0 hT
  obtain ⟨T', hT', hall⟩ := hsame
  have hmem : v0 ∈ arr := List.getElem?_mem h0
  have hv0 := hall v0 hmem
  have hTT : T = T' := by
    cases v0 <;> cases T <;> cases T' <;> simp_all [Value.is]
  subst hTT
  refine ⟨hT', ?_, hall⟩
  simp [array_t.arrayIs, h0, hT]

/-- Instance of C7: in the tree of `y = [[1, 2], ["a"]]` the inner array `[1, 2]` has
Integer elements only, and `arrayIs<Integer>` is true for it. -/
theorem parsed_arrays_homogeneous_witness :
    parse (R := Unit) (D := Unit) (fun _ => .ok ()) (fun _ _ => ())
        ["y = [[1, 2], [\"a\"]]".toList] =
      .ok [("y".toList, .array_t [.array_t [.Integer 1, .Integer 2],
        .array_t [.String "a".toList]])] ∧
    (∃ T : Kind, T ≠ .table_t ∧
      ∀ v ∈ [(Value.Integer 1 : Value Unit), .Integer 2], v.is T = true) ∧
    (∀ (T : Kind) (v0 : Value Unit),
      [(Value.Integer 1 : Value Unit), .Integer 2][0]? = some v0 → v0.is T = true →
      T ≠ .table_t ∧
      array_t.arrayIs T [(Value.Integer 1 : Value Unit), .Integer 2] = .ok true ∧
      ∀ v ∈ [(Value.Integer 1 : Value Unit), .Integer 2], v.is T = true) :=
  ⟨rfl, parsed_arrays_homogeneous (fun _ => .ok ()) (fun _ _ => ())
    ["y = [[1, 2], [\"a\"]]".toList]
    [("y".toList, .array_t [.array_t [.Integer 1, .Integer 2],
      .array_t [.String "a".toList]])]
    [.Integer 1, .Integer 2] rfl
    (Occurs.mapped (List.mem_cons_self _ _)
      (Occurs.element (List.mem_cons_self _ _) (Occurs.self _)))⟩

end HomogeneityOfTree

section HeaderLine

variable {R D : Type}

theorem isSegment_cons (s : List Char) (hs : isSegment s = true) :
    ∃ c cs, s = c :: cs ∧ c ≠ ' ' ∧ c ≠ '\t' := by
  cases s with
  | nil => simp [isSegment] at hs
  | cons c cs =>
    refine ⟨c, cs, rfl, ?_⟩
    simp [isSegment] at hs
    tauto

theorem isSegment_all (s : List Char) (hs : isSegment s = true) :
    ∀ c ∈ s, c ≠ ' ' ∧ c ≠ '\t' ∧ c ≠ '.' ∧ c ≠ ']' ∧ c ≠ '#' := by
  intro c hc
  simp [isSegment] at hs
  have := hs.2 c hc
  tauto

theorem headerFrom_head (ss : List (List Char)) :
    ∃ d r, headerFrom '.' ss = d :: r ∧ (d = '.' ∧ ss ≠ [] ∨ d = ']' ∧ ss = []) := by
  cases ss with
  | nil => exact ⟨']', [], rfl, Or.inr ⟨rfl, rfl⟩⟩
  | cons s ss => exact ⟨'.', _, rfl, Or.inl ⟨rfl, by simp⟩⟩

theorem headerFrom_length (c : Char) (ss : List (List Char)) :
    ss.length < (headerFrom c ss).length := by
  induction ss generalizing c with
  | nil => simp [headerFrom]
  | cons s ss ih =>
    have := ih '.'
    simp only [headerFrom, List.length_cons, List.length_append]
    omega

theorem headerFrom_no_hash (c : Char) (hc : c ≠ '#') (ss : List (List Char))
    (hss : ∀ s ∈ ss, isSegment s = true) : ∀ d ∈ headerFrom c ss, d ≠ '#' := by
  induction ss generalizing c with
  | nil =>
    intro d hd
    simp only [headerFrom, List.mem_singleton] at hd
    subst hd; decide
  | cons s ss ih =>
    intro d hd
    simp only [headerFrom, List.mem_cons, List.mem_append] at hd
    rcases hd with h | h | h
    · subst h; exact hc
    · exact (isSegment_all s (hss s (List.mem_cons_self s ss)) d h).2.2.2.2
    · exact ih '.' (by decide) (fun x hx => hss x (List.mem_cons_of_mem s hx)) d h

theorem forward_segment (s rest : List Char) (hs : isSegment s = true) (d : Char)
    (r : List Char) (hrest : rest = d :: r) (hd : d = '.' ∨ d = ']') :
    forward (fun c => c != ' ' && c != '\t' && c != '.' && c != ']') (s ++ rest) = rest := by
  rw [forward_append_of_all]
  · subst hrest
    apply forward_cons_of_false
    rcases hd with rfl | rfl <;> rfl
  · intro c hc
    have := isSegment_all s hs c hc
    simp [this.1, this.2.1, this.2.2.1, this.2.2.2.1]

/-- One pass of the loop of `parse_table` over a segment that is followed by `.`. -/
theorem parse_table_loop_dot (n : Nat) (c : Char) (hc : c ≠ ']') (s r : List Char)
    (hs : isSegment s = true) (key : List Char) (cur : List (List Char) × Table R) :
    parse_table_loop (n + 1) (c :: (s ++ '.' :: r)) key cur =
      if !valueIs .table_t s cur.2 then .error .parseException
      else
        match valueAs .table_t s cur.2 with
        | .error err => .error err
        | .ok child => parse_table_loop n ('.' :: r) s (cur.1 ++ [s], child) := by
  obtain ⟨c0, cs, hs0, h1, h2⟩ := isSegment_cons s hs
  have hcb : (c == ']') = false := by simpa using hc
  have hws : consumeWhitespace (s ++ '.' :: r) = s ++ '.' :: r := by
    subst hs0
    exact consumeWhitespace_cons_of_not_blank c0 _ h1 h2
  have hfw := forward_segment s ('.' :: r) hs '.' r rfl (Or.inl rfl)
  have hbt : between (s ++ '.' :: r) ('.' :: r) = s := between_append s _
  have hne : s.isEmpty = false := by subst hs0; rfl
  simp only [parse_table_loop, hcb, Bool.false_eq_true, if_false, hws, hfw, hbt, hne]
  have hd1 : ('.' == ' ' || '.' == '\t') = false := by decide
  simp only [hd1, Bool.false_eq_true, if_false, beq_self_eq_true, if_true]

/-- One pass of the loop of `parse_table` over the last segment, and the exit. -/
theorem parse_table_loop_last (n : Nat) (c : Char) (hc : c ≠ ']') (s r : List Char)
    (hs : isSegment s = true) (key : List Char) (cur : List (List Char) × Table R) :
    parse_table_loop (n + 2) (c :: (s ++ ']' :: r)) key cur = .ok (']' :: r, s, cur) := by
  obtain ⟨c0, cs, hs0, h1, h2⟩ := isSegment_cons s hs
  have hcb : (c == ']') = false := by simpa using hc
  have hws : consumeWhitespace (s ++ ']' :: r) = s ++ ']' :: r := by
    subst hs0
    exact consumeWhitespace_cons_of_not_blank c0 _ h1 h2
  have hfw := forward_segment s (']' :: r) hs ']' r rfl (Or.inr rfl)
  have hbt : between (s ++ ']' :: r) (']' :: r) = s := between_append s _
  have hne : s.isEmpty = false := by subst hs0; rfl
  simp only [parse_table_loop, hcb, Bool.false_eq_true, if_false, hws, hfw, hbt, hne]
  have hd1 : (']' == ' ' || ']' == '\t') = false := by decide
  have hd2 : (']' == '.') = false := by decide
  simp only [hd1, hd2, Bool.false_eq_true, if_false, beq_self_eq_true, if_true]

theorem valueIs_table_iff (s : List Char) (t : Table R) :
    valueIs .table_t s t = true ↔ ∃ child, Table.get s t = some (.table_t child) := by
  unfold valueIs Table.valueIs
  cases h : Table.get s t with
  | none =>
    constructor
    · intro h1; simp at h1
    · rintro ⟨child, hc⟩; exact absurd hc (by intro h2; cases h2)
  | some v =>
    cases v with
    | table_t child => exact ⟨fun _ => ⟨child, rfl⟩, fun _ => rfl⟩
    | _ =>
      constructor
      · intro h1; simp [Value.is] at h1
      · rintro ⟨child, hc⟩; exact absurd hc (by intro h2; cases h2)

theorem tableAt_cons_some (s : List Char) (path : List (List Char)) (t u : Table R)
    (h : tableAt (s :: path) t = some u) :
    ∃ child, Table.get s t = some (.table_t child) ∧ tableAt path child = some u := by
  simp only [tableAt] at h
  split at h
  · rename_i child hget
    exact ⟨child, hget, h⟩
  · simp at h

/-- The loop of `parse_table` throws when a segment in front of a `.` is not a table in
the table reached so far. -/
theorem parse_table_loop_undefined (pre : List (List Char)) (x : List Char)
    (post : List (List Char)) (hpost : post ≠ []) (hx : isSegment x = true) :
    ∀ (c : Char) (key : List Char) (path : List (List Char)) (tbl t : Table R) (n : Nat),
      c ≠ ']' → (∀ s ∈ pre, isSegment s = true) → tableAt pre tbl = some t →
      valueIs .table_t x t = false → pre.length < n →
      parse_table_loop n (headerFrom c (pre ++ x :: post)) key (path, tbl) =
        .error .parseException := by
  induction pre with
  | nil =>
    intro c key path tbl t n hc _ ht hv hn
    simp only [tableAt, Option.some.injEq] at ht
    subst ht
    cases n with
    | zero => simp at hn
    | succ n =>
      cases post with
      | nil => exact absurd rfl hpost
      | cons p ps =>
        simp only [List.nil_append, headerFrom]
        rw [parse_table_loop_dot n c hc x _ hx]
        simp [hv]
  | cons s pre ih =>
    intro c key path tbl t n hc hpre ht hv hn
    obtain ⟨child, hget, hrest⟩ := tableAt_cons_some s pre tbl t ht
    have hs := hpre s (List.mem_cons_self s pre)
    cases n with
    | zero => simp at hn
    | succ n =>
      have hsplit : headerFrom c (s :: pre ++ x :: post) =
          c :: (s ++ headerFrom '.' (pre ++ x :: post)) := rfl
      obtain ⟨d, r, hd, hdd⟩ := headerFrom_head (pre ++ x :: post)
      have hdot : d = '.' := by
        rcases hdd with ⟨h, _⟩ | ⟨_, h⟩
        · exact h
        · simp at h
      subst hdot
      rw [hsplit, hd, parse_table_loop_dot n c hc s r hs]
      have his : valueIs .table_t s tbl = true := (valueIs_table_iff s tbl).mpr ⟨child, hget⟩
      have has : valueAs .table_t s tbl = .ok child :=
        Table.valueAs_of_get .table_t s tbl _ child hget rfl
      simp only [his, has, Bool.not_true, Bool.false_eq_true, if_false]
      rw [← hd]
      exact ih '.' s (path ++ [s]) child t n (by decide)
        (fun y hy => hpre y (List.mem_cons_of_mem s hy)) hrest hv
        (by simp only [List.length_cons] at hn; omega)

/-- The loop of `parse_table` on a header whose segments in front of the last one lead
from `tbl` to the table `t`: it ends on the `]` with the last segment as the key and
`cur` pointing to `t`. -/
theorem parse_table_loop_walk (pre : List (List Char)) (last : List Char)
    (hlast : isSegment last = true) :
    ∀ (c : Char) (key : List Char) (path : List (List Char)) (tbl t : Table R) (n : Nat),
      c ≠ ']' → (∀ s ∈ pre, isSegment s = true) → tableAt pre tbl = some t →
      pre.length + 1 < n →
      parse_table_loop n (headerFrom c (pre ++ [last])) key (path, tbl) =
        .ok ([']'], last, (path ++ pre, t)) := by
  induction pre with
  | nil =>
    intro c key path tbl t n hc _ ht hn
    simp only [tableAt, Option.some.injEq] at ht
    subst ht
    obtain ⟨m, rfl⟩ : ∃ m, n = m + 2 := ⟨n - 2, by simp at hn; omega⟩
    simp only [List.nil_append, headerFrom]
    rw [parse_table_loop_last m c hc last [] hlast]
    simp
  | cons s pre ih =>
    intro c key path tbl t n hc hpre ht hn
    obtain ⟨child, hget, hrest⟩ := tableAt_cons_some s pre tbl t ht
    have hs := hpre s (List.mem_cons_self s pre)
    obtain ⟨m, rfl⟩ : ∃ m, n = m + 1 := ⟨n - 1, by omega⟩
    have hsplit : headerFrom c (s :: pre ++ [last]) =
        c :: (s ++ headerFrom '.' (pre ++ [last])) := rfl
    obtain ⟨d, r, hd, hdd⟩ := headerFrom_head (pre ++ [last])
    have hdot : d = '.' := by
      rcases hdd with ⟨h, _⟩ | ⟨_, h⟩
      · exact h
      · simp at h
    subst hdot
    rw [hsplit, hd, parse_table_loop_dot m c hc s r hs]
    have his : valueIs .table_t s tbl = true := (valueIs_table_iff s tbl).mpr ⟨child, hget⟩
    have has : valueAs .table_t s tbl = .ok child :=
      Table.valueAs_of_get .table_t s tbl _ child hget rfl
    simp only [his, has, Bool.not_true, Bool.false_eq_true, if_false]
    rw [← hd, ih '.' s (path ++ [s]) child t m (by decide)
      (fun y hy => hpre y (List.mem_cons_of_mem s hy)) hrest
      (by simp only [List.length_cons] at hn; omega)]
    simp

end HeaderLine
section HeaderLineParse

variable {R D : Type}

theorem header_cons (s : List Char) (ss : List (List Char)) :
    header (s :: ss) = '[' :: (s ++ headerFrom '.' ss) := rfl

/-- What `parse_line` does on a header line `[s1.s2.….sn]`, in terms of the loop of
`parse_table`. -/
theorem parse_line_header (stod : List Char → Except Err D) (scale : D → Int → R)
    (st : ParserState R) (segs : List (List Char)) (hne : segs ≠ [])
    (hsegs : ∀ s ∈ segs, isSegment s = true) :
    parse_line stod scale st (header segs) =
      match parse_table_loop ((header segs).length + 1) (header segs) []
          ([], st.rootTable) with
      | .error err => .error err
      | .ok (it, key, cur) =>
        match it with
        | [] => .error .readPastEnd
        | _ :: it =>
          match consumeWhitespace it with
          | [] => .ok ⟨updateAt (Table.addValue key (.table_t [])) cur.1 st.rootTable,
              if Table.contains key cur.2 then none else some (cur.1 ++ [key])⟩
          | d :: _ => .error (unexpectedCharacter d) := by
  have herase : eraseComment (header segs) = header segs :=
    eraseComment_of_no_hash _ (headerFrom_no_hash '[' (by decide) segs hsegs)
  cases segs with
  | nil => exact absurd rfl hne
  | cons s ss =>
    have hws : consumeWhitespace (header (s :: ss)) = header (s :: ss) := rfl
    unfold parse_line
    simp only [herase, hws]
    generalize hh : header (s :: ss) = h
    rw [header_cons] at hh
    subst hh
    simp only [beq_self_eq_true, if_true]
    unfold parse_table
    have hws2 : consumeWhitespace ('[' :: (s ++ headerFrom '.' ss)) =
        '[' :: (s ++ headerFrom '.' ss) := rfl
    simp only [hws2, bne_self_eq_false, Bool.false_eq_true, if_false]
    cases parse_table_loop (('[' :: (s ++ headerFrom '.' ss)).length + 1)
        ('[' :: (s ++ headerFrom '.' ss)) [] ([], st.rootTable) with
    | error err => rfl
    | ok r =>
      obtain ⟨it, key, cur⟩ := r
      cases it with
      | nil => rfl
      | cons c it => rfl

/-- C8: a header line whose path is `pre`, `x`, `post` with `post` not empty throws
`ParseException` when the segments `pre` lead from the root to a table `t` in which `x`
is absent or is not a Table; this holds after any lines that parse and whatever lines
follow. -/
theorem header_undefined_segment_throws (stod : List Char → Except Err D)
    (scale : D → Int → R) (before after : List (List Char)) (st : ParserState R)
    (pre : List (List Char)) (x : List Char) (post : List (List Char)) (t : Table R)
    (hbefore : parse_lines stod scale ⟨[], some []⟩ before = .ok st)
    (hsegs : ∀ s ∈ pre ++ x :: post, isSegment s = true) (hpost : post ≠ [])
    (ht : tableAt pre st.rootTable = some t) (hx : valueIs .table_t x t = false) :
    parse stod scale (before ++ header (pre ++ x :: post) :: after) =
      .error .parseException := by
  have hline : parse_line stod scale st (header (pre ++ x :: post)) =
      .error .parseException := by
    rw [parse_line_header stod scale st _ (by simp) hsegs]
    have hlen := headerFrom_length '[' (pre ++ x :: post)
    rw [show header (pre ++ x :: post) = headerFrom '[' (pre ++ x :: post) from rfl,
      parse_table_loop_undefined pre x post hpost
        (hsegs x (by simp)) '[' [] [] st.rootTable t _ (by decide)
        (fun s hs => hsegs s (by simp [hs])) ht hx
        (by simp only [List.length_append, List.length_cons] at hlen; omega)]
  unfold parse
  rw [parse_lines_append_error stod scale _ st before after _ _ hbefore hline]

/-- Instance of C8: the input `[a.b]` alone throws `ParseException`, and so does
`x = 5` followed by `[x.y]`. -/
theorem header_undefined_segment_throws_witness :
    parse (R := Unit) (D := Unit) (fun _ => .ok ()) (fun _ _ => ())
      ([] ++ header ([] ++ "a".toList :: ["b".toList]) :: []) = .error .parseException ∧
    parse (R := Unit) (D := Unit) (fun _ => .ok ()) (fun _ _ => ())
      (["x = 5".toList] ++ header ([] ++ "x".toList :: ["y".toList]) :: [])
      = .error .parseException :=
  ⟨header_undefined_segment_throws (fun _ => .ok ()) (fun _ _ => ()) [] []
      ⟨[], some []⟩ [] "a".toList ["b".toList] [] rfl (by decide) (by decide) rfl rfl,
    header_undefined_segment_throws (fun _ => .ok ()) (fun _ _ => ()) ["x = 5".toList] []
      ⟨[("x".toList, .Integer 5)], some []⟩ [] "x".toList ["y".toList]
      [("x".toList, .Integer 5)] rfl (by decide) (by decide) rfl rfl⟩

end HeaderLineParse

section TreeUpdate

variable {R : Type}

theorem Table.get_modify (k k' : List Char) (g : Value R → Value R) (t : Table R) :
    Table.get k' (Table.modify k g t) =
      if k' = k then (Table.get k t).map g else Table.get k' t := by
  induction t with
  | nil => simp [Table.modify, Table.get]
  | cons e rest ih =>
    obtain ⟨k0, v0⟩ := e
    by_cases h0 : k0 = k
    · subst h0
      by_cases h1 : k' = k0
      · subst h1
        simp [Table.modify, Table.get]
      · have h2 : ¬ k0 = k' := fun h => h1 h.symm
        simp [Table.modify, Table.get, h1, h2]
    · by_cases h1 : k' = k
      · subst h1
        simp [Table.modify, Table.get, h0, ih]
      · simp only [Table.modify, h0, if_false, Table.get, ih, h1]

theorem Table.direct_modify (k : List Char) (g : Value R → Value R)
    (hg : ∀ v, (match g v with | .table_t _ => Value.table_t [] | other => other) =
      (match v with | .table_t _ => Value.table_t [] | other => other))
    (t : Table R) : Table.direct (Table.modify k g t) = Table.direct t := by
  induction t with
  | nil => rfl
  | cons e rest ih =>
    obtain ⟨k0, v0⟩ := e
    by_cases h0 : k0 = k
    · simp only [Table.modify, h0, if_true, Table.direct, List.map_cons, hg]
    · simp only [Table.modify, h0, if_false]
      simp only [Table.direct, List.map_cons] at ih ⊢
      rw [ih]

theorem updateAt_step_direct (f : Table R → Table R) (path : List (List Char))
    (v : Value R) :
    (match (match v with
        | .table_t child => Value.table_t (updateAt f path child)
        | other => other) with
      | .table_t _ => Value.table_t []
      | other => other) =
    (match v with | .table_t _ => Value.table_t [] | other => other) := by
  cases v <;> rfl

/-- A write through a pointer reaches the table the pointer points to. -/
theorem tableAt_updateAt_self (f : Table R → Table R) (p : List (List Char)) :
    ∀ (root t : Table R), tableAt p root = some t →
      tableAt p (updateAt f p root) = some (f t) := by
  induction p with
  | nil =>
    intro root t h
    simp only [tableAt, Option.some.injEq] at h
    subst h
    rfl
  | cons k p ih =>
    intro root t h
    obtain ⟨child, hget, hrest⟩ := tableAt_cons_some k p root t h
    simp only [updateAt, tableAt, Table.get_modify, if_true, hget, Option.map_some']
    exact ih child t hrest

/-- A write through a pointer to the table at `p` leaves the entries of the table at
any other path `q` as they are, provided that the write itself does so for the tables
below the one it changes. -/
theorem tableAt_updateAt_other (f : Table R → Table R) (p : List (List Char)) :
    ∀ (q : List (List Char)) (root t : Table R), tableAt p root = some t → q ≠ p →
      (∀ q', q = p ++ q' →
        (tableAt q' (f t)).map Table.direct = (tableAt q' t).map Table.direct) →
      (tableAt q (updateAt f p root)).map Table.direct =
        (tableAt q root).map Table.direct := by
  induction p with
  | nil =>
    intro q root t h hq hf
    simp only [tableAt, Option.some.injEq] at h
    subst h
    exact hf q rfl
  | cons k p ih =>
    intro q root t h hq hf
    obtain ⟨child, hget, hrest⟩ := tableAt_cons_some k p root t h
    cases q with
    | nil =>
      simp only [tableAt, updateAt, Option.map_some', Option.some.injEq]
      exact Table.direct_modify k _ (updateAt_step_direct f p) root
    | cons k' q =>
      simp only [updateAt, tableAt, Table.get_modify]
      by_cases hk : k' = k
      · subst hk
        simp only [if_true, hget, Option.map_some']
        apply ih q child t hrest
        · intro hqp
          exact hq (by rw [hqp])
        · intro q' hq'
          exact hf q' (by rw [hq']; rfl)
      · simp only [hk, if_false]

theorem Table.get_append_of_none (k : List Char) (t u : Table R)
    (h : Table.get k t = none) : Table.get k (t ++ u) = Table.get k u := by
  induction t with
  | nil => rfl
  | cons e rest ih =>
    obtain ⟨k0, v0⟩ := e
    simp only [Table.get] at h
    split at h
    · simp at h
    · rename_i hne
      simp only [List.cons_append, Table.get, hne, if_false]
      exact ih h

theorem Table.get_append_of_some (k : List Char) (t u : Table R) (v : Value R)
    (h : Table.get k t = some v) : Table.get k (t ++ u) = some v := by
  induction t with
  | nil => simp [Table.get] at h
  | cons e rest ih =>
    obtain ⟨k0, v0⟩ := e
    simp only [Table.get] at h
    simp only [List.cons_append, Table.get]
    split
    · rename_i heq
      simpa [heq] using h
    · rename_i hne
      simp only [hne, if_false] at h
      exact ih h

theorem Table.addValue_of_new (key : List Char) (val : Value R) (t : Table R)
    (h : Table.contains key t = false) : Table.addValue key val t = t ++ [(key, val)] := by
  simp [Table.addValue, h]

/-- Below a table that received a new key, the tables are the ones that were there,
except the one that the new key maps to when its value is a table. -/
theorem tableAt_append_new (key : List Char) (val : Value R) (t : Table R)
    (hnew : Table.contains key t = false) (k : List Char) (r : List (List Char))
    (h : k ≠ key ∨ val.is .table_t = false ∨ (val = .table_t [] ∧ r ≠ [])) :
    tableAt (k :: r) (t ++ [(key, val)]) = tableAt (k :: r) t := by
  have hnone : Table.get key t = none := (Table.contains_eq_false_iff key t).mp hnew
  simp only [tableAt]
  cases hget : Table.get k t with
  | some v => rw [Table.get_append_of_some k t _ v hget]
  | none =>
    rw [Table.get_append_of_none k t _ hget]
    by_cases hk : key = k
    · subst hk
      simp only [Table.get, if_true]
      rcases h with h | h | ⟨h1, h2⟩
      · exact absurd rfl h
      · cases val <;> simp_all [Value.is]
      · subst h1
        cases r with
        | nil => exact absurd rfl h2
        | cons a b => simp [tableAt, Table.get]
    · simp [Table.get, hk]

end TreeUpdate
section HeaderEffect

variable {R D : Type}

theorem tableAt_append (p q : List (List Char)) :
    ∀ root : Table R, tableAt (p ++ q) root = (tableAt p root).bind (tableAt q) := by
  induction p with
  | nil => intro root; rfl
  | cons k p ih =>
    intro root
    simp only [List.cons_append, tableAt]
    split
    · exact ih _
    · rfl

theorem Table.length_direct (t : Table R) :
    List.length (Table.direct t) = List.length t := by
  unfold Table.direct
  exact List.length_map _ _

theorem Table.get_direct (k : List Char) (t : Table R) :
    Table.get k (Table.direct t) =
      (Table.get k t).map (fun v => match v with
        | .table_t _ => .table_t []
        | other => other) := by
  induction t with
  | nil => rfl
  | cons e rest ih =>
    obtain ⟨k0, v0⟩ := e
    simp only [Table.direct, List.map_cons, Table.get] at ih ⊢
    split
    · rfl
    · exact ih

theorem Table.contains_direct (k : List Char) (t : Table R) :
    Table.contains k (Table.direct t) = Table.contains k t := by
  unfold Table.contains
  rw [Table.get_direct]
  cases Table.get k t <;> rfl

/-- What `parse_line` does on the header line `[pre.last]` when the segments `pre` lead
from the root to a table `t`. -/
theorem parse_line_header_ok (stod : List Char → Except Err D) (scale : D → Int → R)
    (st : ParserState R) (pre : List (List Char)) (last : List Char) (t : Table R)
    (hsegs : ∀ s ∈ pre ++ [last], isSegment s = true)
    (hparent : tableAt pre st.rootTable = some t) :
    parse_line stod scale st (header (pre ++ [last])) =
      .ok ⟨updateAt (Table.addValue last (.table_t [])) pre st.rootTable,
        if Table.contains last t then none else some (pre ++ [last])⟩ := by
  rw [parse_line_header stod scale st _ (by simp) hsegs]
  have hlen := headerFrom_length '[' (pre ++ [last])
  rw [show header (pre ++ [last]) = headerFrom '[' (pre ++ [last]) from rfl,
    parse_table_loop_walk pre last (hsegs last (by simp)) '[' [] [] st.rootTable t _
      (by decide) (fun s hs => hsegs s (by simp [hs])) hparent
      (by simp only [List.length_append, List.length_cons, List.length_nil] at hlen; omega)]
  rfl

/-- The table a header has just created is empty. -/
theorem tableAt_created (pre : List (List Char)) (last : List Char) (root t : Table R)
    (hparent : tableAt pre root = some t) (hnew : Table.contains last t = false) :
    tableAt (pre ++ [last]) (updateAt (Table.addValue last (.table_t [])) pre root) =
      some [] := by
  have hself := tableAt_updateAt_self (Table.addValue last (.table_t [])) pre root t hparent
  rw [Table.addValue_of_new last _ t hnew] at hself
  have hnone : Table.get last t = none := (Table.contains_eq_false_iff last t).mp hnew
  rw [tableAt_append, hself]
  simp only [Option.some_bind, tableAt, Table.get_append_of_none last t _ hnone, Table.get,
    if_true]

/-- C10: a header line `[pre.last]` whose segments `pre` lead from the root to a table
`t` that does not contain `last` is accepted, wherever `currentTable` points to. After
it the table at `pre` is `t` with the one new key `last`, mapped to an empty table, to
which `currentTable` now points; every table at another path has the entries it had,
and no other table has appeared. When `pre` is not empty this includes the root: its
length and what `contains` answers on it are unchanged. -/
theorem header_adds_one_key (stod : List Char → Except Err D) (scale : D → Int → R)
    (st : ParserState R) (pre : List (List Char)) (last : List Char) (t : Table R)
    (hsegs : ∀ s ∈ pre ++ [last], isSegment s = true)
    (hparent : tableAt pre st.rootTable = some t)
    (hnew : Table.contains last t = false) :
    ∃ st' : ParserState R,
      parse_line stod scale st (header (pre ++ [last])) = .ok st' ∧
      st'.currentTable = some (pre ++ [last]) ∧
      tableAt pre st'.rootTable = some (t ++ [(last, .table_t [])]) ∧
      tableAt (pre ++ [last]) st'.rootTable = some [] ∧
      (∀ q, q ≠ pre → q ≠ pre ++ [last] →
        (tableAt q st'.rootTable).map Table.direct =
          (tableAt q st.rootTable).map Table.direct) ∧
      (pre ≠ [] → Table.length st'.rootTable = Table.length st.rootTable ∧
        ∀ k, Table.contains k st'.rootTable = Table.contains k st.rootTable) := by
  have hline := parse_line_header_ok stod scale st pre last t hsegs hparent
  have hself := tableAt_updateAt_self (Table.addValue last (.table_t [])) pre
    st.rootTable t hparent
  rw [Table.addValue_of_new last _ t hnew] at hself
  have hnone : Table.get last t = none := (Table.contains_eq_false_iff last t).mp hnew
  have hframe : ∀ q, q ≠ pre → q ≠ pre ++ [last] →
      (tableAt q (updateAt (Table.addValue last (.table_t [])) pre st.rootTable)).map
        Table.direct = (tableAt q st.rootTable).map Table.direct := by
    intro q hq1 hq2
    apply tableAt_updateAt_other _ pre q st.rootTable t hparent hq1
    intro q' hq'
    rw [Table.addValue_of_new last _ t hnew]
    cases q' with
    | nil => exact absurd (by simpa using hq') hq1
    | cons k r =>
      rw [tableAt_append_new last (.table_t []) t hnew k r]
      by_cases hk : k = last
      · right; right
        refine ⟨rfl, ?_⟩
        rintro rfl
        exact hq2 (by rw [hq', hk])
      · exact Or.inl hk
  refine ⟨_, hline, ?_, hself, ?_, hframe, ?_⟩
  · simp only [hnew, Bool.false_eq_true, if_false]
  · exact tableAt_created pre last st.rootTable t hparent hnew
  · intro hpre
    have h := hframe [] (fun h => hpre h.symm) (by simp)
    simp only [tableAt, Option.map_some', Option.some.injEq] at h
    constructor
    · have := congrArg List.length h
      rw [Table.length_direct, Table.length_direct] at this
      exact this
    · intro k
      rw [← Table.contains_direct k, h, Table.contains_direct]

/-- Instance of C10: after `[a]`, the header `[a.b]` gives the table at `a` the key `b`
and leaves the root with its one key `a`: `contains("a.b")` is false on the root. -/
theorem header_adds_one_key_witness :
    ∃ st' : ParserState Unit,
      parse_line (D := Unit) (fun _ => .ok ()) (fun _ _ => ())
        ⟨[("a".toList, .table_t [])], some ["a".toList]⟩
        (header (["a".toList] ++ ["b".toList])) = .ok st' ∧
      st'.currentTable = some (["a".toList] ++ ["b".toList]) ∧
      tableAt ["a".toList] st'.rootTable = some ([] ++ [("b".toList, .table_t [])]) ∧
      tableAt (["a".toList] ++ ["b".toList]) st'.rootTable = some [] ∧
      (∀ q, q ≠ ["a".toList] → q ≠ ["a".toList] ++ ["b".toList] →
        (tableAt q st'.rootTable).map Table.direct =
          (tableAt q [("a".toList, (.table_t [] : Value Unit))]).map Table.direct) ∧
      (["a".toList] ≠ [] → Table.length st'.rootTable = 1 ∧
        ∀ k, Table.contains k st'.rootTable =
          Table.contains k [("a".toList, (.table_t [] : Value Unit))]) :=
  header_adds_one_key (fun _ => .ok ()) (fun _ _ => ())
    ⟨[("a".toList, .table_t [])], some ["a".toList]⟩ ["a".toList] "b".toList []
    (by decide) rfl rfl

end HeaderEffect

section AssignmentEffect

variable {R D : Type}

theorem Value.not_table_of_is (T : Kind) (hT : T ≠ .table_t) (v : Value R)
    (h : v.is T = true) : v.is .table_t = false := by
  cases v <;> cases T <;> simp_all [Value.is]

theorem parse_value_not_table (stod : List Char → Except Err D) (scale : D → Int → R)
    (it it' : List Char) (v : Value R) (h : parse_value stod scale it = .ok (v, it')) :
    v.is .table_t = false := by
  cases it with
  | nil => simp [parse_value] at h
  | cons c rest =>
    simp only [parse_value] at h
    split at h
    · simp at h
    · exact Value.not_table_of_is .integer_t (by decide) v (parse_integer_kind _ _ _ h).1
    · split at h
      · simp at h
      · exact Value.not_table_of_is .real_t (by decide) v
          (parse_real_kind stod scale _ _ _ h).1
      · split at h
        · simp at h
        · exact Value.not_table_of_is .string_t (by decide) v (parse_string_kind _ _ _ h).1
        · split at h
          · simp at h
          · exact Value.not_table_of_is .array_t (by decide) v
              (parse_array_kind stod scale _ _ _ _ h).1
          · simp at h

theorem ParserState.current_ok (st : ParserState R) (t : Table R)
    (h : st.current = .ok t) :
    ∃ p, st.currentTable = some p ∧ tableAt p st.rootTable = some t := by
  unfold ParserState.current at h
  split at h
  · simp at h
  · rename_i p hp
    split at h
    · simp at h
    · rename_i t' ht'
      simp only [Except.ok.injEq] at h
      subst h
      exact ⟨p, hp, ht'⟩

/-- What a call of `parse_key_eq_value` that returns has done. -/
theorem parse_key_eq_value_effect (stod : List Char → Except Err D) (scale : D → Int → R)
    (it it' : List Char) (st st' : ParserState R)
    (h : parse_key_eq_value stod scale it st = .ok (st', it')) :
    ∃ (p : List (List Char)) (t : Table R) (val : Value R),
      st.currentTable = some p ∧ tableAt p st.rootTable = some t ∧
      Table.contains (between (consumeWhitespace it)
        (forward (fun c => c != ' ' && c != '\t' && c != '=') (consumeWhitespace it))) t
        = false ∧
      val.is .table_t = false ∧
      st' = ⟨updateAt (Table.addValue (between (consumeWhitespace it)
        (forward (fun c => c != ' ' && c != '\t' && c != '=') (consumeWhitespace it))) val)
        p st.rootTable, some p⟩ := by
  unfold parse_key_eq_value at h
  simp only [] at h
  split at h
  · simp at h
  · rename_i key it1 hkey
    unfold parse_key at hkey
    simp only [] at hkey
    split at hkey
    · simp at hkey
    · split at hkey
      · simp at hkey
      · rename_i t hcur
        split at hkey
        · simp at hkey
        · rename_i hcont
          split at hkey
          · simp at hkey
          · simp only [Except.ok.injEq, Prod.mk.injEq] at hkey
            obtain ⟨hk, _⟩ := hkey
            obtain ⟨p, hp, htp⟩ := ParserState.current_ok st t hcur
            split at h
            · simp at h
            · split at h
              · simp at h
              · rename_i val it3 hv
                simp only [hp, Except.ok.injEq, Prod.mk.injEq] at h
                obtain ⟨rfl, _⟩ := h
                refine ⟨p, t, val, hp, htp, ?_, parse_value_not_table stod scale _ _ _ hv, ?_⟩
                · simpa using hcont
                · rw [hk]

/-- An assignment line that is accepted puts its key into the table `currentTable`
points to and leaves `currentTable` as it is. -/
theorem parse_line_assignment_effect (stod : List Char → Except Err D)
    (scale : D → Int → R) (st st' : ParserState R) (line : List Char)
    (hline : isAssignmentLine line = true)
    (h : parse_line stod scale st line = .ok st') :
    ∃ (p : List (List Char)) (t : Table R) (val : Value R),
      st.currentTable = some p ∧ tableAt p st.rootTable = some t ∧
      Table.contains (lineKey line) t = false ∧ val.is .table_t = false ∧
      st' = ⟨updateAt (Table.addValue (lineKey line) val) p st.rootTable, some p⟩ := by
  unfold isAssignmentLine at hline
  unfold parse_line at h
  unfold lineKey
  simp only [] at h
  have hidem := consumeWhitespace_idem (eraseComment line)
  generalize consumeWhitespace (eraseComment line) = it at hline h hidem ⊢
  cases it with
  | nil => simp at hline
  | cons c rest =>
    simp only [bne_iff_ne, ne_eq] at hline
    have hc : (c == '[') = false := by simpa using hline
    simp only [hc, Bool.false_eq_true, if_false] at h
    split at h
    · simp at h
    · rename_i st1 it1 hstep
      split at h
      · simp only [Except.ok.injEq] at h
        subst h
        have := parse_key_eq_value_effect stod scale _ _ st st1 hstep
        rw [hidem] at this
        exact this
      · simp at h

theorem parse_line_blank (stod : List Char → Except Err D) (scale : D → Int → R)
    (st : ParserState R) (line : List Char) (hline : isBlankLine line = true) :
    parse_line stod scale st line = .ok st := by
  unfold isBlankLine at hline
  unfold parse_line
  simp only []
  cases h : consumeWhitespace (eraseComment line) with
  | nil => rfl
  | cons c rest => simp [h] at hline

theorem line_cases (line : List Char) (h : isHeaderLine line = false) :
    (isBlankLine line = true ∧ isAssignmentLine line = false) ∨
    isAssignmentLine line = true := by
  unfold isHeaderLine at h
  unfold isBlankLine isAssignmentLine
  generalize consumeWhitespace (eraseComment line) = it at h ⊢
  cases it with
  | nil => exact Or.inl ⟨rfl, rfl⟩
  | cons c rest =>
    right
    simp only [] at h ⊢
    simpa using h

/-- A run of lines without a header line: `currentTable` stays where it is, the table it
points to receives the keys of the assignment lines, in their order, mapped to values
that are not tables, and every table at another path keeps its entries. -/
theorem parse_lines_assignments (stod : List Char → Except Err D) (scale : D → Int → R)
    (assigns : List (List Char)) :
    ∀ (st1 st2 : ParserState R) (p : List (List Char)) (t1 : Table R),
      st1.currentTable = some p → tableAt p st1.rootTable = some t1 →
      (∀ l ∈ assigns, isHeaderLine l = false) →
      parse_lines stod scale st1 assigns = .ok st2 →
      st2.currentTable = some p ∧
      (∃ added : Table R, tableAt p st2.rootTable = some (t1 ++ added) ∧
        added.map Prod.fst = (assigns.filter isAssignmentLine).map lineKey ∧
        ∀ kv ∈ added, kv.2.is .table_t = false) ∧
      (∀ q, q ≠ p → (tableAt q st2.rootTable).map Table.direct =
        (tableAt q st1.rootTable).map Table.direct) := by
  induction assigns with
  | nil =>
    intro st1 st2 p t1 hp ht _ hrun
    simp only [parse_lines, Except.ok.injEq] at hrun
    subst hrun
    exact ⟨hp, ⟨[], by simpa using ht, rfl, by simp⟩, fun _ _ => rfl⟩
  | cons l ls ih =>
    intro st1 st2 p t1 hp ht hlines hrun
    have hl := hlines l (List.mem_cons_self l ls)
    have hls : ∀ x ∈ ls, isHeaderLine x = false :=
      fun x hx => hlines x (List.mem_cons_of_mem l hx)
    simp only [parse_lines] at hrun
    split at hrun
    · simp at hrun
    · rename_i st' hstep
      rcases line_cases l hl with ⟨hblank, hna⟩ | hassign
      · rw [parse_line_blank stod scale st1 l hblank] at hstep
        simp only [Except.ok.injEq] at hstep
        subst hstep
        obtain ⟨h1, ⟨added, h2, h3, h4⟩, h5⟩ := ih st1 st2 p t1 hp ht hls hrun
        refine ⟨h1, ⟨added, h2, ?_, h4⟩, h5⟩
        rw [h3, List.filter_cons_of_neg (by simp [hna])]
      · obtain ⟨p', t, val, hp', ht', hnew, hval, rfl⟩ :=
          parse_line_assignment_effect stod scale st1 st' l hassign hstep
        have hpp : p' = p := by
          rw [hp] at hp'
          exact (Option.some.inj hp').symm
        subst hpp
        have htt : t = t1 := by
          rw [ht] at ht'
          exact (Option.some.inj ht').symm
        subst htt
        have hself := tableAt_updateAt_self (Table.addValue (lineKey l) val) p'
          st1.rootTable t ht
        rw [Table.addValue_of_new _ _ t hnew] at hself
        obtain ⟨h1, ⟨added, h2, h3, h4⟩, h5⟩ :=
          ih ⟨updateAt (Table.addValue (lineKey l) val) p' st1.rootTable, some p'⟩ st2 p'
            (t ++ [(lineKey l, val)]) rfl hself hls hrun
        refine ⟨h1, ⟨(lineKey l, val) :: added, ?_, ?_, ?_⟩, ?_⟩
        · rw [h2]; simp
        · rw [List.filter_cons_of_pos (by simp [hassign])]
          simp [h3]
        · intro kv hkv
          rcases List.mem_cons.mp hkv with h | h
          · subst h; exact hval
          · exact h4 kv h
        · intro q hq
          rw [h5 q hq]
          apply tableAt_updateAt_other _ p' q st1.rootTable t ht hq
          intro q' hq'
          rw [Table.addValue_of_new _ _ t hnew]
          cases q' with
          | nil => exact absurd (by simpa using hq') hq
          | cons k r =>
            rw [tableAt_append_new (lineKey l) val t hnew k r (Or.inr (Or.inl hval))]

end AssignmentEffect
section AssignmentAfterHeader

variable {R D : Type}

theorem tableAt_none_split (pre : List (List Char)) :
    ∀ root : Table R, tableAt pre root = none →
      ∃ (a : List (List Char)) (x : List Char) (b : List (List Char)) (t : Table R),
        pre = a ++ x :: b ∧ tableAt a root = some t ∧ valueIs .table_t x t = false := by
  induction pre with
  | nil => intro root h; simp [tableAt] at h
  | cons s pre ih =>
    intro root h
    cases hv : valueIs .table_t s root with
    | false => exact ⟨[], s, pre, root, rfl, rfl, hv⟩
    | true =>
      obtain ⟨child, hget⟩ := (valueIs_table_iff s root).mp hv
      simp only [tableAt, hget] at h
      obtain ⟨a, x, b, t, h1, h2, h3⟩ := ih child h
      refine ⟨s :: a, x, b, t, by rw [h1]; rfl, ?_, h3⟩
      simp only [tableAt, hget]
      exact h2

/-- A header line that is accepted has its segments but the last lead from the root to a
table. -/
theorem parse_line_header_parent (stod : List Char → Except Err D) (scale : D → Int → R)
    (st st1 : ParserState R) (pre : List (List Char)) (last : List Char)
    (hsegs : ∀ s ∈ pre ++ [last], isSegment s = true)
    (h : parse_line stod scale st (header (pre ++ [last])) = .ok st1) :
    ∃ t, tableAt pre st.rootTable = some t := by
  cases ht : tableAt pre st.rootTable with
  | some t => exact ⟨t, rfl⟩
  | none =>
    exfalso
    obtain ⟨a, x, b, t, h1, h2, h3⟩ := tableAt_none_split pre st.rootTable ht
    have hsegs' : ∀ s ∈ a ++ x :: (b ++ [last]), isSegment s = true := by
      intro s hs
      apply hsegs s
      rw [h1]
      simpa using hs
    have hlen := headerFrom_length '[' (a ++ x :: (b ++ [last]))
    have hloop := parse_table_loop_undefined a x (b ++ [last]) (by simp)
      (hsegs' x (by simp)) '[' [] [] st.rootTable t
      ((headerFrom '[' (a ++ x :: (b ++ [last]))).length + 1) (by decide)
      (fun s hs => hsegs' s (by simp [hs])) h2 h3
      (by simp only [List.length_append, List.length_cons] at hlen; omega)
    have heq : pre ++ [last] = a ++ x :: (b ++ [last]) := by rw [h1]; simp
    rw [heq, parse_line_header stod scale st _ (by simp) hsegs',
      show header (a ++ x :: (b ++ [last])) = headerFrom '[' (a ++ x :: (b ++ [last]))
        from rfl, hloop] at h
    simp at h

/-- While `currentTable` dangles, no assignment line is accepted. -/
theorem parse_lines_dangling (stod : List Char → Except Err D) (scale : D → Int → R)
    (assigns : List (List Char)) :
    ∀ (st1 st2 : ParserState R), st1.currentTable = none →
      (∀ l ∈ assigns, isHeaderLine l = false) →
      parse_lines stod scale st1 assigns = .ok st2 →
      assigns.filter isAssignmentLine = [] := by
  induction assigns with
  | nil => intro _ _ _ _ _; rfl
  | cons l ls ih =>
    intro st1 st2 hcur hlines hrun
    have hl := hlines l (List.mem_cons_self l ls)
    have hls : ∀ x ∈ ls, isHeaderLine x = false :=
      fun x hx => hlines x (List.mem_cons_of_mem l hx)
    simp only [parse_lines] at hrun
    split at hrun
    · simp at hrun
    · rename_i st' hstep
      rcases line_cases l hl with ⟨hblank, hna⟩ | hassign
      · rw [parse_line_blank stod scale st1 l hblank] at hstep
        simp only [Except.ok.injEq] at hstep
        subst hstep
        rw [List.filter_cons_of_neg (by simp [hna])]
        exact ih st1 st2 hcur hls hrun
      · obtain ⟨p, _, _, hp, _⟩ :=
          parse_line_assignment_effect stod scale st1 st' l hassign hstep
        rw [hcur] at hp
        simp at hp

/-- The part of C9 that holds for lines that are accepted: let lines that are not header
lines, at least one of them an assignment line, follow a header line `[pre.last]`, and let
all of them be accepted. Then the header has
created a table: the segments `pre` lead from the root to a table that did not contain
`last`. After the lines `currentTable` still points to that new table, the new table
holds exactly the keys of the assignment lines, in their order, and every table at
another path has the entries it had right after the header. For the input `[t]`,
`id = 10`, `[t.child]`, `id = 20`: the root has the one key `t`; the table `t` has
length 2 with `id = 10` and `child` a Table; and `child` has length 1 with `id = 20`. -/
theorem assignments_go_to_header_table (stod : List Char → Except Err D)
    (scale : D → Int → R) :
    (∀ (st st2 : ParserState R) (pre : List (List Char)) (last : List Char)
      (assigns : List (List Char)),
      (∀ s ∈ pre ++ [last], isSegment s = true) →
      (∀ l ∈ assigns, isHeaderLine l = false) →
      assigns.filter isAssignmentLine ≠ [] →
      parse_lines stod scale st (header (pre ++ [last]) :: assigns) = .ok st2 →
      (∃ t, tableAt pre st.rootTable = some t ∧ Table.contains last t = false) ∧
      st2.currentTable = some (pre ++ [last]) ∧
      (∃ created : Table R, tableAt (pre ++ [last]) st2.rootTable = some created ∧
        created.map Prod.fst = (assigns.filter isAssignmentLine).map lineKey ∧
        ∀ kv ∈ created, kv.2.is .table_t = false) ∧
      (∀ q, q ≠ pre ++ [last] →
        (tableAt q st2.rootTable).map Table.direct =
          (tableAt q (updateAt (Table.addValue last (.table_t [])) pre st.rootTable)).map
            Table.direct)) ∧
    (∃ (root t child : Table R),
      parse stod scale ["[t]".toList, "id = 10".toList, "[t.child]".toList,
        "id = 20".toList] = .ok root ∧
      Table.length root = 1 ∧ Table.contains "t".toList root = true ∧
      valueAs .table_t "t".toList root = .ok t ∧
      Table.length t = 2 ∧ valueAs .integer_t "id".toList t = .ok 10 ∧
      valueIs .table_t "child".toList t = true ∧
      valueAs .table_t "child".toList t = .ok child ∧
      Table.length child = 1 ∧ valueAs .integer_t "id".toList child = .ok 20) := by
  constructor
  · intro st st2 pre last assigns hsegs hassign hsome hrun
    simp only [parse_lines] at hrun
    split at hrun
    · simp at hrun
    · rename_i st1 hline
      obtain ⟨t, hparent⟩ := parse_line_header_parent stod scale st st1 pre last hsegs hline
      have hst1 := parse_line_header_ok stod scale st pre last t hsegs hparent
      rw [hline] at hst1
      simp only [Except.ok.injEq] at hst1
      have hnew : Table.contains last t = false := by
        cases hc : Table.contains last t with
        | false => rfl
        | true =>
          exfalso
          have hcur : st1.currentTable = none := by rw [hst1]; simp [hc]
          exact hsome (parse_lines_dangling stod scale assigns st1 st2 hcur hassign hrun)
      have hcur : st1.currentTable = some (pre ++ [last]) := by
        rw [hst1]
        simp only [hnew, Bool.false_eq_true, if_false]
      have hcreated : tableAt (pre ++ [last]) st1.rootTable = some [] := by
        rw [hst1]
        exact tableAt_created pre last st.rootTable t hparent hnew
      obtain ⟨h1, ⟨added, h2, h3, h4⟩, h5⟩ :=
        parse_lines_assignments stod scale assigns st1 st2 (pre ++ [last]) [] hcur hcreated
          hassign hrun
      refine ⟨⟨t, hparent, hnew⟩, h1, ⟨added, by simpa using h2, h3, h4⟩, ?_⟩
      intro q hq
      rw [h5 q hq, hst1]
  · exact ⟨[("t".toList, .table_t [("id".toList, .Integer 10),
        ("child".toList, .table_t [("id".toList, .Integer 20)])])],
      [("id".toList, .Integer 10), ("child".toList, .table_t [("id".toList, .Integer 20)])],
      [("id".toList, .Integer 20)], rfl, rfl, rfl, rfl, rfl, rfl, rfl, rfl, rfl, rfl⟩

/-- An instance: after `[t]`, the line `id = 10` leaves `currentTable` at `t` and
gives `t` the key `id`. -/
theorem assignments_go_to_header_table_witness :
    (⟨[("t".toList, .table_t [("id".toList, .Integer 10)])], some ["t".toList]⟩ :
      ParserState Unit).currentTable = some ([] ++ ["t".toList]) ∧
    (∃ created : Table Unit,
      tableAt ([] ++ ["t".toList]) [("t".toList, .table_t [("id".toList, .Integer 10)])]
        = some created ∧
      created.map Prod.fst = (["id = 10".toList].filter isAssignmentLine).map lineKey ∧
      ∀ kv ∈ created, kv.2.is .table_t = false) :=
  have h := (assignments_go_to_header_table (R := Unit) (D := Unit) (fun _ => .ok ())
    (fun _ _ => ())).1 ⟨[], some []⟩
    ⟨[("t".toList, .table_t [("id".toList, .Integer 10)])], some ["t".toList]⟩
    [] "t".toList ["id = 10".toList] (by decide) (by decide) (by decide) rfl
  ⟨h.2.1, h.2.2.1⟩

end AssignmentAfterHeader

section Fuel

variable {R D : Type}

theorem isInteger_error (it : List Char) (e : Err) (h : isInteger it = .error e) :
    e = .readPastEnd := by
  unfold isInteger at h
  cases it with
  | nil => simp only [Except.error.injEq] at h; exact h.symm
  | cons c rest =>
    simp only [] at h
    split at h
    · simp at h
    · split at h
      · simp at h
      · split at h <;> simp at h

theorem isReal_error (it : List Char) (e : Err) (h : isReal it = .error e) :
    e = .readPastEnd := by
  unfold isReal at h
  cases it with
  | nil => simp only [Except.error.injEq] at h; exact h.symm
  | cons c rest =>
    simp only [] at h
    split at h
    · simp at h
    · split at h
      · simp at h
      · split at h <;> simp at h

theorem isString_error (it : List Char) (e : Err) (h : isString it = .error e) :
    e = .readPastEnd := by
  unfold isString at h
  cases it with
  | nil => simp only [Except.error.injEq] at h; exact h.symm
  | cons c rest =>
    simp only [] at h
    split at h <;> simp at h

theorem isArray_error (it : List Char) (e : Err) (h : isArray it = .error e) :
    e = .readPastEnd := by
  unfold isArray at h
  cases it with
  | nil => simp only [Except.error.injEq] at h; exact h.symm
  | cons c rest =>
    simp only [] at h
    split at h
    · simp at h
    · split at h <;> simp at h

theorem stoll_error (s : List Char) (e : Err) (h : stoll s = .error e) : e ≠ .fuel := by
  unfold stoll at h
  simp only [] at h
  split at h
  · simp only [Except.error.injEq] at h; subst h; decide
  · split at h
    · simp at h
    · simp only [Except.error.injEq] at h; subst h; decide

theorem parse_integer_error (it : List Char) (e : Err)
    (h : parse_integer (R := R) it = .error e) : e ≠ .fuel := by
  unfold parse_integer at h
  cases it with
  | nil => simp only [Except.error.injEq] at h; subst h; decide
  | cons c rest =>
    simp only [] at h
    split at h
    · rename_i err hst
      simp only [Except.error.injEq] at h
      subst h
      exact stoll_error _ _ hst
    · simp at h

theorem parse_real_error (stod : List Char → Except Err D) (scale : D → Int → R)
    (hstod : ∀ s, stod s ≠ .error .fuel) (it : List Char) (e : Err)
    (h : parse_real stod scale it = .error e) : e ≠ .fuel := by
  unfold parse_real at h
  cases it with
  | nil => simp only [Except.error.injEq] at h; subst h; decide
  | cons c rest =>
    simp only [] at h
    split at h
    · simp only [Except.error.injEq] at h; subst h; decide
    · split at h
      · rename_i err hst
        simp only [Except.error.injEq] at h
        subst h
        intro hf
        subst hf
        exact hstod _ hst
      · simp at h

theorem parse_string_error (it : List Char) (e : Err)
    (h : parse_string (R := R) it = .error e) : e ≠ .fuel := by
  unfold parse_string at h
  cases it with
  | nil => simp only [Except.error.injEq] at h; subst h; decide
  | cons c rest =>
    simp only [] at h
    split at h
    · simp only [Except.error.injEq] at h; subst h; decide
    · simp at h

theorem forward_length_cons (p : Char → Bool) (c : Char) (rest it : List Char)
    (h : forward p (c :: rest) = it) : it.length ≤ rest.length + 1 := by
  have := forward_length_le p (c :: rest)
  rw [h] at this
  simpa using this

theorem parse_integer_shrinks (it it' : List Char) (v : Value R)
    (h : parse_integer it = .ok (v, it')) : it'.length ≤ it.length := by
  unfold parse_integer at h
  cases it with
  | nil => simp at h
  | cons c rest =>
    simp only [] at h
    split at h
    · simp at h
    · simp only [Except.ok.injEq, Prod.mk.injEq] at h
      obtain ⟨_, rfl⟩ := h
      split
      · have := forward_length_le isDigit rest
        simp only [List.length_cons]
        omega
      · exact forward_length_le isDigit (c :: rest)

theorem parse_real_shrinks (stod : List Char → Except Err D) (scale : D → Int → R)
    (it it' : List Char) (v : Value R)
    (h : parse_real stod scale it = .ok (v, it')) : it'.length ≤ it.length := by
  unfold parse_real at h
  cases it with
  | nil => simp at h
  | cons c rest =>
    simp only [] at h
    split at h
    · simp at h
    · rename_i d it1 hfw
      split at h
      · simp at h
      · simp only [Except.ok.injEq, Prod.mk.injEq] at h
        obtain ⟨_, rfl⟩ := h
        have h1 := forward_length_le isDigit it1
        have h2 : (d :: it1).length ≤ (c :: rest).length := by
          rw [← hfw]
          split
          · have := forward_length_le isDigit rest
            simp only [List.length_cons]
            omega
          · exact forward_length_le isDigit (c :: rest)
        simp only [List.length_cons] at h2 ⊢
        omega

theorem parse_string_shrinks (it it' : List Char) (v : Value R)
    (h : parse_string it = .ok (v, it')) : it'.length ≤ it.length := by
  unfold parse_string at h
  cases it with
  | nil => simp at h
  | cons c rest =>
    simp only [] at h
    split at h
    · simp at h
    · rename_i d it1 hfw
      simp only [Except.ok.injEq, Prod.mk.injEq] at h
      obtain ⟨_, rfl⟩ := h
      have := forward_length_le (fun c => c != '"') rest
      rw [hfw] at this
      simp only [List.length_cons] at this ⊢
      omega

theorem consumeWhitespace_length_le (it : List Char) :
    (consumeWhitespace it).length ≤ it.length :=
  forward_length_le _ it

theorem parse_array_loop_shrinks (efun : List Char → Except Err (Value R × List Char))
    (hefun : ∀ x v x', efun x = .ok (v, x') → x'.length ≤ x.length) :
    ∀ (n : Nat) (it : List Char) (arr : List (Value R)) (v : Value R) (it' : List Char),
      parse_array_loop efun n it arr = .ok (v, it') → it'.length < it.length := by
  intro n
  induction n with
  | zero => intro it arr v it' h; simp [parse_array_loop] at h
  | succ n ih =>
    intro it arr v it' h
    cases it with
    | nil => simp [parse_array_loop] at h
    | cons c rest =>
      simp only [parse_array_loop] at h
      split at h
      · simp only [Except.ok.injEq, Prod.mk.injEq] at h
        obtain ⟨_, rfl⟩ := h
        simp
      · split at h
        · simp at h
        · rename_i elem it1 hef
          have h1 := hefun _ _ _ hef
          have h2 := consumeWhitespace_length_le rest
          have h3 := consumeWhitespace_length_le it1
          have h4 := ih _ _ _ _ h
          simp only [List.length_cons]
          omega

theorem parse_array_shrinks (stod : List Char → Except Err D) (scale : D → Int → R) :
    ∀ (n : Nat) (it : List Char) (v : Value R) (it' : List Char),
      parse_array stod scale n it = .ok (v, it') → it'.length ≤ it.length := by
  intro n
  induction n with
  | zero => intro it v it' h; simp [parse_array] at h
  | succ n ih =>
    intro it v it' h
    cases it with
    | nil => simp [parse_array] at h
    | cons c tmp =>
      simp only [parse_array] at h
      split at h
      · simp at h
      · exact Nat.le_of_lt (parse_array_loop_shrinks parse_integer
          (fun x v x' hx => parse_integer_shrinks x x' v hx) _ _ _ _ _ h)
      · split at h
        · simp at h
        · exact Nat.le_of_lt (parse_array_loop_shrinks (parse_real stod scale)
            (fun x v x' hx => parse_real_shrinks stod scale x x' v hx) _ _ _ _ _ h)
        · split at h
          · simp at h
          · exact Nat.le_of_lt (parse_array_loop_shrinks parse_string
              (fun x v x' hx => parse_string_shrinks x x' v hx) _ _ _ _ _ h)
          · split at h
            · simp at h
            · exact Nat.le_of_lt (parse_array_loop_shrinks (parse_array stod scale n)
                ih _ _ _ _ _ h)
            · simp at h

/-- The loop of `parse_array` ends within as many passes as the text has characters. -/
theorem parse_array_loop_fuel (efun : List Char → Except Err (Value R × List Char))
    (bound : Nat) (hshrink : ∀ x v x', efun x = .ok (v, x') → x'.length ≤ x.length)
    (hefun : ∀ x, x.length < bound → efun x ≠ .error .fuel) :
    ∀ (n : Nat) (it : List Char) (arr : List (Value R)),
      it.length < n → it.length ≤ bound →
      parse_array_loop efun n it arr ≠ .error .fuel := by
  intro n
  induction n with
  | zero => intro it arr h; omega
  | succ n ih =>
    intro it arr hn hb
    cases it with
    | nil => simp [parse_array_loop]
    | cons c rest =>
      simp only [parse_array_loop]
      have h2 := consumeWhitespace_length_le rest
      simp only [List.length_cons] at hn hb
      split
      · simp
      · split
        · rename_i err hef
          intro hf
          simp only [Except.error.injEq] at hf
          subst hf
          exact hefun _ (by omega) hef
        · rename_i elem it1 hef
          have h1 := hshrink _ _ _ hef
          have h3 := consumeWhitespace_length_le it1
          exact ih _ _ (by omega) (by omega)

theorem parse_array_fuel (stod : List Char → Except Err D) (scale : D → Int → R)
    (hstod : ∀ s, stod s ≠ .error .fuel) :
    ∀ (n : Nat) (it : List Char), it.length < n →
      parse_array stod scale n it ≠ .error .fuel := by
  intro n
  induction n with
  | zero => intro it h; omega
  | succ n ih =>
    intro it hn
    cases it with
    | nil => simp [parse_array]
    | cons c tmp =>
      simp only [parse_array]
      split
      · rename_i err he
        rw [isInteger_error _ _ he]; simp
      · exact parse_array_loop_fuel parse_integer (c :: tmp).length
          (fun x v x' hx => parse_integer_shrinks x x' v hx)
          (fun x _ hx => parse_integer_error x _ hx rfl) _ _ _ (by omega) (le_refl _)
      · split
        · rename_i err he
          rw [isReal_error _ _ he]; simp
        · exact parse_array_loop_fuel (parse_real stod scale) (c :: tmp).length
            (fun x v x' hx => parse_real_shrinks stod scale x x' v hx)
            (fun x _ hx => parse_real_error stod scale hstod x _ hx rfl) _ _ _ (by omega)
            (le_refl _)
        · split
          · rename_i err he
            rw [isString_error _ _ he]; simp
          · exact parse_array_loop_fuel parse_string (c :: tmp).length
              (fun x v x' hx => parse_string_shrinks x x' v hx)
              (fun x _ hx => parse_string_error x _ hx rfl) _ _ _ (by omega) (le_refl _)
          · split
            · rename_i err he
              rw [isArray_error _ _ he]; simp
            · exact parse_array_loop_fuel (parse_array stod scale n) (c :: tmp).length
                (parse_array_shrinks stod scale n)
                (fun x hx => ih x (by simp only [List.length_cons] at hn hx; omega))
                _ _ _ (by omega) (le_refl _)
            · simp

theorem parse_value_fuel (stod : List Char → Except Err D) (scale : D → Int → R)
    (hstod : ∀ s, stod s ≠ .error .fuel) (it : List Char) :
    parse_value stod scale it ≠ .error .fuel := by
  cases it with
  | nil => simp [parse_value]
  | cons c rest =>
    simp only [parse_value]
    split
    · rename_i err he
      rw [isInteger_error _ _ he]; simp
    · intro hf; exact parse_integer_error _ _ hf rfl
    · split
      · rename_i err he
        rw [isReal_error _ _ he]; simp
      · intro hf; exact parse_real_error stod scale hstod _ _ hf rfl
      · split
        · rename_i err he
          rw [isString_error _ _ he]; simp
        · intro hf; exact parse_string_error _ _ hf rfl
        · split
          · rename_i err he
            rw [isArray_error _ _ he]; simp
          · exact parse_array_fuel stod scale hstod _ _ (by omega)
          · simp

end Fuel
section FuelOfParse

variable {R D : Type}

theorem Table.valueAs_error (T : Kind) (key : List Char) (t : Table R) (e : Err)
    (h : Table.valueAs T key t = .error e) : e ≠ .fuel := by
  unfold Table.valueAs at h
  split at h
  · simp only [Except.error.injEq] at h; subst h; decide
  · split at h
    · simp only [Except.error.injEq] at h; subst h; decide
    · split at h
      · simp only [Except.error.injEq] at h; subst h; decide
      · split at h
        · simp only [Except.error.injEq] at h; subst h; decide
        · simp at h

theorem unexpectedCharacter_ne_fuel (c : Char) : unexpectedCharacter c ≠ .fuel := by
  unfold unexpectedCharacter
  split <;> decide

/-- The loop of `parse_table` ends within as many passes as the text has characters. -/
theorem parse_table_loop_fuel :
    ∀ (n : Nat) (it key : List Char) (cur : List (List Char) × Table R),
      it.length < n → parse_table_loop n it key cur ≠ .error .fuel := by
  intro n
  induction n with
  | zero => intro it key cur h; omega
  | succ n ih =>
    intro it key cur hn
    cases it with
    | nil => simp [parse_table_loop]
    | cons c rest =>
      simp only [parse_table_loop]
      simp only [List.length_cons] at hn
      have h1 := consumeWhitespace_length_le rest
      have h2 := forward_length_le
        (fun c => c != ' ' && c != '\t' && c != '.' && c != ']') (consumeWhitespace rest)
      generalize between (consumeWhitespace rest) (forward
        (fun c => c != ' ' && c != '\t' && c != '.' && c != ']') (consumeWhitespace rest))
        = k
      generalize forward (fun c => c != ' ' && c != '\t' && c != '.' && c != ']')
        (consumeWhitespace rest) = x at h2 ⊢
      split
      · simp
      · cases x with
        | nil => simp
        | cons d it1 =>
          simp only []
          split
          · intro hf
            simp only [Except.error.injEq] at hf
            exact unexpectedCharacter_ne_fuel d hf
          · have h3 : (if (d == ' ' || d == '\t') = true then
                forward (fun c => c != '.' && c != ']') (d :: it1) else d :: it1).length
                ≤ (d :: it1).length := by
              split
              · exact forward_length_le _ _
              · exact le_refl _
            generalize (if (d == ' ' || d == '\t') = true then
                forward (fun c => c != '.' && c != ']') (d :: it1) else d :: it1) = y
              at h3 ⊢
            cases y with
            | nil => simp
            | cons d2 it2 =>
              simp only []
              split
              · split
                · simp
                · split
                  · rename_i err he
                    intro hf
                    simp only [Except.error.injEq] at hf
                    subst hf
                    exact Table.valueAs_error _ _ _ _ he rfl
                  · exact ih _ _ _ (by omega)
              · exact ih _ _ _ (by omega)

theorem parse_table_fuel (it : List Char) (root : Table R) :
    ∀ e, parse_table it root = .error e → e ≠ .fuel := by
  intro e h
  unfold parse_table at h
  simp only [] at h
  split at h
  · simp only [Except.error.injEq] at h; subst h; decide
  · split at h
    · simp only [Except.error.injEq] at h; subst h; exact unexpectedCharacter_ne_fuel _
    · split at h
      · rename_i err he
        simp only [Except.error.injEq] at h
        subst h
        intro hf
        subst hf
        exact parse_table_loop_fuel _ _ _ _ (by omega) he
      · split at h
        · simp only [Except.error.injEq] at h; subst h; decide
        · simp at h

theorem parse_key_error (it : List Char) (st : ParserState R) (e : Err)
    (h : parse_key it st = .error e) : e ≠ .fuel := by
  unfold parse_key at h
  simp only [] at h
  split at h
  · simp only [Except.error.injEq] at h; subst h; decide
  · split at h
    · rename_i err he
      simp only [Except.error.injEq] at h
      subst h
      unfold ParserState.current at he
      split at he
      · simp only [Except.error.injEq] at he; subst he; decide
      · split at he
        · simp only [Except.error.injEq] at he; subst he; decide
        · simp at he
    · split at h
      · simp only [Except.error.injEq] at h; subst h; decide
      · split at h
        · simp only [Except.error.injEq] at h; subst h; decide
        · simp at h

theorem parse_key_eq_value_fuel (stod : List Char → Except Err D) (scale : D → Int → R)
    (hstod : ∀ s, stod s ≠ .error .fuel) (it : List Char) (st : ParserState R) (e : Err)
    (h : parse_key_eq_value stod scale it st = .error e) : e ≠ .fuel := by
  unfold parse_key_eq_value at h
  simp only [] at h
  split at h
  · rename_i err he
    simp only [Except.error.injEq] at h
    subst h
    exact parse_key_error _ _ _ he
  · split at h
    · simp only [Except.error.injEq] at h; subst h; decide
    · split at h
      · rename_i err he
        simp only [Except.error.injEq] at h
        subst h
        intro hf
        subst hf
        exact parse_value_fuel stod scale hstod _ he
      · split at h
        · simp only [Except.error.injEq] at h; subst h; decide
        · simp at h

theorem parse_line_fuel (stod : List Char → Except Err D) (scale : D → Int → R)
    (hstod : ∀ s, stod s ≠ .error .fuel) (st : ParserState R) (line : List Char) :
    parse_line stod scale st line ≠ .error .fuel := by
  intro h
  unfold parse_line at h
  simp only [] at h
  split at h
  · simp at h
  · rename_i c rest hit
    split at h
    · rename_i err he
      simp only [Except.error.injEq] at h
      subst h
      by_cases hc : (c == '[') = true
      · simp only [hc, if_true] at he
        exact parse_table_fuel _ _ _ he rfl
      · simp only [hc, if_false] at he
        exact parse_key_eq_value_fuel stod scale hstod _ _ _ he rfl
    · split at h
      · simp at h
      · simp only [Except.error.injEq] at h
        exact unexpectedCharacter_ne_fuel _ h

theorem parse_lines_fuel (stod : List Char → Except Err D) (scale : D → Int → R)
    (hstod : ∀ s, stod s ≠ .error .fuel) (lines : List (List Char)) :
    ∀ st : ParserState R, parse_lines stod scale st lines ≠ .error .fuel := by
  induction lines with
  | nil => intro st; simp [parse_lines]
  | cons l ls ih =>
    intro st
    simp only [parse_lines]
    split
    · rename_i err he
      intro hf
      simp only [Except.error.injEq] at hf
      subst hf
      exact parse_line_fuel stod scale hstod st l he
    · exact ih _

/-- The bounds on recursion in the embedding are never reached: `parse` does not end
with `Err.fuel`, provided `stod` does not. -/
theorem parse_fuel (stod : List Char → Except Err D) (scale : D → Int → R)
    (hstod : ∀ s, stod s ≠ .error .fuel) (lines : List (List Char)) :
    parse (R := R) stod scale lines ≠ .error .fuel := by
  unfold parse
  split
  · rename_i err he
    intro hf
    simp only [Except.error.injEq] at hf
    subst hf
    exact parse_lines_fuel stod scale hstod lines _ he
  · simp

end FuelOfParse

section RootLength

variable {R D : Type}

theorem forward_head_false (p : Char → Bool) (x : List Char) (c : Char) (r : List Char)
    (h : forward p x = c :: r) : p c = false := by
  induction x with
  | nil => simp [forward] at h
  | cons a as ih =>
    by_cases ha : p a = true
    · simp only [forward, ha, if_true] at h
      exact ih h
    · simp only [forward, ha] at h
      simp only [Bool.false_eq_true, if_false, List.cons.injEq] at h
      rw [← h.1]
      simpa using ha

theorem forward_forward (p q : Char → Bool) (hpq : ∀ c, p c = true → q c = true)
    (x : List Char) : forward q (forward p x) = forward q x := by
  induction x with
  | nil => rfl
  | cons a as ih =>
    by_cases ha : p a = true
    · simp only [forward, ha, if_true, hpq a ha]
      exact ih
    · simp [forward, ha]

/-- Where the first pass of the loop of `parse_table` stops: on the first `.` or `]`. -/
theorem header_first_stop (rest : List Char) (d : Char) (r : List Char)
    (h : forward (fun c => c != ' ' && c != '\t' && c != '.' && c != ']')
      (consumeWhitespace rest) = d :: r) :
    (if (d == ' ' || d == '\t') = true then
        forward (fun c => c != '.' && c != ']') (d :: r) else d :: r) =
      forward (fun c => c != '.' && c != ']') rest := by
  have h1 : forward (fun c => c != '.' && c != ']') (consumeWhitespace rest) =
      forward (fun c => c != '.' && c != ']') rest := by
    apply forward_forward
    intro c hc
    simp only [Bool.or_eq_true, beq_iff_eq] at hc
    rcases hc with rfl | rfl <;> rfl
  have h2 : forward (fun c => c != '.' && c != ']')
      (forward (fun c => c != ' ' && c != '\t' && c != '.' && c != ']')
        (consumeWhitespace rest)) =
      forward (fun c => c != '.' && c != ']') (consumeWhitespace rest) := by
    apply forward_forward
    intro c hc
    simp only [Bool.and_eq_true, bne_iff_ne, ne_eq] at hc ⊢
    exact ⟨hc.1.2, hc.2⟩
  rw [h] at h2
  rw [← h1, ← h2]
  split
  · rfl
  · rename_i hb
    have hd := forward_head_false _ _ d r h
    have hnd : (fun c => c != '.' && c != ']') d = false := by
      simp only [Bool.or_eq_true, beq_iff_eq, not_or] at hb
      simp only [Bool.and_eq_false_iff, bne_eq_false_iff_eq] at hd ⊢
      rcases hd with ((hd | hd) | hd) | hd
      · exact absurd hd hb.1
      · exact absurd hd hb.2
      · exact Or.inl hd
      · exact Or.inr hd
    exact (forward_cons_of_false _ d r hnd).symm

/-- The path `cur` of the loop of `parse_table` only grows. -/
theorem parse_table_loop_path :
    ∀ (n : Nat) (it key : List Char) (p : List (List Char)) (t : Table R)
      (it' key' : List Char) (p' : List (List Char)) (t' : Table R),
      parse_table_loop n it key (p, t) = .ok (it', key', (p', t')) →
      p.length ≤ p'.length := by
  intro n
  induction n with
  | zero => intro it key p t it' key' p' t' h; simp [parse_table_loop] at h
  | succ n ih =>
    intro it key p t it' key' p' t' h
    cases it with
    | nil => simp [parse_table_loop] at h
    | cons c rest =>
      simp only [parse_table_loop] at h
      generalize between (consumeWhitespace rest) (forward
        (fun c => c != ' ' && c != '\t' && c != '.' && c != ']') (consumeWhitespace rest))
        = k at h
      generalize forward (fun c => c != ' ' && c != '\t' && c != '.' && c != ']')
        (consumeWhitespace rest) = x at h
      split at h
      · simp only [Except.ok.injEq, Prod.mk.injEq] at h
        obtain ⟨_, _, rfl, _⟩ := h
        exact le_refl _
      · cases x with
        | nil => simp at h
        | cons d it1 =>
          simp only [] at h
          split at h
          · simp at h
          · generalize (if (d == ' ' || d == '\t') = true then
                forward (fun c => c != '.' && c != ']') (d :: it1) else d :: it1) = y at h
            cases y with
            | nil => simp at h
            | cons d2 it2 =>
              simp only [] at h
              split at h
              · split at h
                · simp at h
                · split at h
                  · simp at h
                  · have := ih _ _ _ _ _ _ _ _ h
                    simp only [List.length_append, List.length_singleton] at this
                    omega
              · exact ih _ _ _ _ _ _ _ _ h

end RootLength

section RootLengthHeader

variable {R D : Type}

theorem parse_table_loop_bracket (m : Nat) (r key : List Char)
    (cur : List (List Char) × Table R) :
    parse_table_loop (m + 1) (']' :: r) key cur = .ok (']' :: r, key, cur) := by
  simp [parse_table_loop]

/-- The first pass of the loop of `parse_table`: when the first `.` or `]` after the `[`
is a `]`, the loop ends with the first segment as the key and `cur` at the root;
otherwise `cur` has left the root for good. -/
theorem parse_table_loop_first (m : Nat) (hm : 0 < m) (rest : List Char) (root : Table R)
    (it' key' : List Char) (cur' : List (List Char) × Table R)
    (h : parse_table_loop (m + 1) ('[' :: rest) [] ([], root) = .ok (it', key', cur')) :
    match forward (fun c => c != '.' && c != ']') rest with
    | ']' :: _ =>
      key' = between (consumeWhitespace rest)
        (forward (fun c => c != ' ' && c != '\t' && c != '.' && c != ']')
          (consumeWhitespace rest)) ∧ cur' = ([], root)
    | _ => cur'.1 ≠ [] := by
  obtain ⟨n, rfl⟩ : ∃ n, m = n + 1 := ⟨m - 1, by omega⟩
  rw [parse_table_loop] at h
  have hc : ('[' == ']') = false := by decide
  simp only [hc, Bool.false_eq_true, if_false] at h
  generalize hk : between (consumeWhitespace rest) (forward
    (fun c => c != ' ' && c != '\t' && c != '.' && c != ']') (consumeWhitespace rest))
    = k at h ⊢
  cases hx : forward (fun c => c != ' ' && c != '\t' && c != '.' && c != ']')
      (consumeWhitespace rest) with
  | nil => simp [hx] at h
  | cons d it1 =>
    have hstop := header_first_stop rest d it1 hx
    simp only [hx] at h
    split at h
    · simp at h
    · rw [hstop] at h
      cases hy : forward (fun c => c != '.' && c != ']') rest with
      | nil => simp [hy] at h
      | cons d2 it2 =>
        have hnd := forward_head_false _ _ d2 it2 hy
        simp only [hy] at h
        by_cases hd2 : d2 = '.'
        · subst hd2
          simp only [beq_self_eq_true, if_true] at h
          split at h
          · simp at h
          · split at h
            · simp at h
            · have := parse_table_loop_path _ _ _ _ _ _ _ _ _ h
              simp only [List.nil_append, List.length_singleton] at this
              intro hnil
              rw [hnil] at this
              simp at this
        · have hb : (d2 == '.') = false := by simpa using hd2
          simp only [hb, Bool.false_eq_true, if_false] at h
          have hd3 : d2 = ']' := by
            simp only [Bool.and_eq_false_iff, bne_eq_false_iff_eq] at hnd
            rcases hnd with hnd | hnd
            · exact absurd hnd hd2
            · exact hnd
          subst hd3
          rw [parse_table_loop_bracket] at h
          simp only [Except.ok.injEq, Prod.mk.injEq] at h
          exact ⟨h.2.1.symm, h.2.2.symm⟩

end RootLengthHeader

section RootLengthLines

variable {R D : Type}

theorem Table.keys_modify (k : List Char) (g : Value R → Value R) (t : Table R) :
    (Table.modify k g t).map Prod.fst = t.map Prod.fst := by
  induction t with
  | nil => rfl
  | cons e rest ih =>
    obtain ⟨k0, v0⟩ := e
    by_cases h0 : k0 = k
    · simp only [Table.modify, h0, if_true, List.map_cons]
    · simp only [Table.modify, h0, if_false, List.map_cons, ih]

theorem updateAt_keys (f : Table R → Table R) (p : List (List Char)) (hp : p ≠ [])
    (root : Table R) : (updateAt f p root).map Prod.fst = root.map Prod.fst := by
  cases p with
  | nil => exact absurd rfl hp
  | cons k p => exact Table.keys_modify k _ root

theorem Table.contains_iff_mem_keys (k : List Char) (t : Table R) :
    Table.contains k t = true ↔ k ∈ t.map Prod.fst := by
  unfold Table.contains
  induction t with
  | nil =>
    simp only [Table.get, Option.isSome_none, Bool.false_eq_true, List.map_nil,
      List.not_mem_nil]
  | cons e rest ih =>
    obtain ⟨k0, v0⟩ := e
    by_cases h0 : k0 = k
    · subst h0
      simp only [Table.get, if_true, Option.isSome_some, List.map_cons, List.mem_cons,
        true_or]
    · have h1 : ¬ k = k0 := fun h => h0 h.symm
      simp only [Table.get, h0, if_false, List.map_cons, List.mem_cons, h1, false_or]
      exact ih

theorem Table.keys_addValue_new (k : List Char) (v : Value R) (t : Table R)
    (h : k ∉ t.map Prod.fst) :
    (Table.addValue k v t).map Prod.fst = t.map Prod.fst ++ [k] := by
  have hc : Table.contains k t = false := by
    cases hh : Table.contains k t with
    | false => rfl
    | true => exact absurd ((Table.contains_iff_mem_keys k t).mp hh) h
  rw [Table.addValue_of_new k v t hc]
  simp

/-- What a header line that is accepted does to the root and to `currentTable`. -/
theorem parse_line_header_step (stod : List Char → Except Err D) (scale : D → Int → R)
    (st st' : ParserState R) (line : List Char) (hh : isHeaderLine line = true)
    (h : parse_line stod scale st line = .ok st') :
    st'.currentTable ≠ some [] ∧
    (isSingleSegmentHeader line = true →
      st'.rootTable = Table.addValue (headerKey line) (.table_t []) st.rootTable) ∧
    (isSingleSegmentHeader line = false →
      st'.rootTable.map Prod.fst = st.rootTable.map Prod.fst) := by
  unfold isSingleSegmentHeader headerKey
  rw [hh]
  unfold isHeaderLine at hh
  unfold parse_line at h
  simp only [] at h
  generalize consumeWhitespace (eraseComment line) = it at hh h ⊢
  cases it with
  | nil => simp at hh
  | cons c rest =>
    simp only [beq_iff_eq] at hh
    subst hh
    simp only [beq_self_eq_true, if_true, List.tail_cons, Bool.true_and] at h ⊢
    split at h
    · simp at h
    · rename_i st1 it1 hstep
      split at h
      · simp only [Except.ok.injEq] at h
        subst h
        unfold parse_table at hstep
        have hws : consumeWhitespace ('[' :: rest) = '[' :: rest := rfl
        simp only [hws, bne_self_eq_false, Bool.false_eq_true, if_false] at hstep
        split at hstep
        · simp at hstep
        · rename_i it2 key cur hloop
          split at hstep
          · simp at hstep
          · simp only [Except.ok.injEq, Prod.mk.injEq] at hstep
            obtain ⟨rfl, _⟩ := hstep
            have hfirst := parse_table_loop_first (rest.length + 1) (by omega) rest
              st.rootTable _ key cur hloop
            refine ⟨?_, ?_, ?_⟩
            · simp only []
              split
              · simp
              · simp
            · intro hs
              split at hs
              · rename_i r hy
                rw [hy] at hfirst
                simp only [] at hfirst
                obtain ⟨hk, hcur⟩ := hfirst
                simp only [hcur, hk, updateAt]
              · simp at hs
            · intro hs
              have hne : cur.1 ≠ [] := by
                split at hfirst
                · rename_i r hy
                  rw [hy] at hs
                  simp at hs
                · exact hfirst
              exact updateAt_keys _ cur.1 hne st.rootTable
      · simp at h

/-- Once `currentTable` has left the root, the keys of the root are the earlier ones
followed by the names of the header lines with a single segment, when all of these
differ. -/
theorem parse_lines_after_header (stod : List Char → Except Err D) (scale : D → Int → R)
    (lines : List (List Char)) :
    ∀ (st st' : ParserState R),
      (st.currentTable ≠ some [] ∨ ∃ l ls, lines = l :: ls ∧ isHeaderLine l = true) →
      parse_lines stod scale st lines = .ok st' →
      (st.rootTable.map Prod.fst ++
        (lines.filter isSingleSegmentHeader).map headerKey).Nodup →
      st'.rootTable.map Prod.fst = st.rootTable.map Prod.fst ++
        (lines.filter isSingleSegmentHeader).map headerKey := by
  induction lines with
  | nil =>
    intro st st' _ h _
    simp only [parse_lines, Except.ok.injEq] at h
    subst h
    simp
  | cons l ls ih =>
    intro st st' hcur h hnd
    simp only [parse_lines] at h
    split at h
    · simp at h
    · rename_i st1 hstep
      cases hh : isHeaderLine l with
      | true =>
        obtain ⟨h1, h2, h3⟩ := parse_line_header_step stod scale st st1 l hh hstep
        cases hs : isSingleSegmentHeader l with
        | true =>
          rw [List.filter_cons_of_pos (by simp [hs])] at hnd ⊢
          simp only [List.map_cons] at hnd ⊢
          have hnew : headerKey l ∉ st.rootTable.map Prod.fst := by
            intro hmem
            have := List.nodup_append.mp hnd
            exact this.2.2 hmem (List.mem_cons_self _ _)
          have hkeys : st1.rootTable.map Prod.fst =
              st.rootTable.map Prod.fst ++ [headerKey l] := by
            rw [h2 hs]
            exact Table.keys_addValue_new _ _ _ hnew
          have hnd' : (st1.rootTable.map Prod.fst ++
              (ls.filter isSingleSegmentHeader).map headerKey).Nodup := by
            rw [hkeys, List.append_assoc]
            exact hnd
          rw [ih st1 st' (Or.inl h1) h hnd', hkeys, List.append_assoc]
          rfl
        | false =>
          rw [List.filter_cons_of_neg (by simp [hs])] at hnd ⊢
          have hkeys := h3 hs
          rw [← hkeys] at hnd ⊢
          exact ih st1 st' (Or.inl h1) h hnd
      | false =>
        have hcur : st.currentTable ≠ some [] := by
          rcases hcur with hc | ⟨l', ls', heq, hl'⟩
          · exact hc
          · simp only [List.cons.injEq] at heq
            rw [← heq.1, hh] at hl'
            simp at hl'
        have hs : isSingleSegmentHeader l = false := by
          simp [isSingleSegmentHeader, hh]
        rw [List.filter_cons_of_neg (by simp [hs])] at hnd ⊢
        rcases line_cases l hh with ⟨hblank, _⟩ | hassign
        · rw [parse_line_blank stod scale st l hblank] at hstep
          simp only [Except.ok.injEq] at hstep
          subst hstep
          exact ih st st' (Or.inl hcur) h hnd
        · obtain ⟨p, t, val, hp, _, _, _, rfl⟩ :=
            parse_line_assignment_effect stod scale st st1 l hassign hstep
          have hpne : p ≠ [] := by
            rintro rfl
            exact hcur hp
          have hkeys := updateAt_keys (Table.addValue (lineKey l) val) p hpne st.rootTable
          have hcur1 : (⟨updateAt (Table.addValue (lineKey l) val) p st.rootTable, some p⟩ :
              ParserState R).currentTable ≠ some [] := by
            simp only [ne_eq, Option.some.injEq]
            exact hpne
          have := ih _ st' (Or.inl hcur1) h (by simp only []; rw [hkeys]; exact hnd)
          simp only [] at this
          rw [this, hkeys]

theorem topLevelAssignments_header (l : List Char) (ls : List (List Char))
    (h : isHeaderLine l = true) : topLevelAssignments (l :: ls) = [] := by
  simp [topLevelAssignments, List.takeWhile, h]

theorem topLevelAssignments_cons (l : List Char) (ls : List (List Char))
    (h : isHeaderLine l = false) :
    topLevelAssignments (l :: ls) =
      if isAssignmentLine l then l :: topLevelAssignments ls else topLevelAssignments ls := by
  simp only [topLevelAssignments, List.takeWhile, h, Bool.not_false]
  split
  · rename_i ha
    rw [List.filter_cons_of_pos (by simp [ha])]
  · rename_i ha
    rw [List.filter_cons_of_neg (by simp [ha])]

/-- The keys of the root after lines that are accepted, starting with `currentTable` at
the root: the earlier keys, the keys of the assignment lines in front of the first
header line, and the names of the header lines with a single segment, when all of these
differ. -/
theorem parse_lines_root_keys (stod : List Char → Except Err D) (scale : D → Int → R)
    (lines : List (List Char)) :
    ∀ (st st' : ParserState R), st.currentTable = some [] →
      parse_lines stod scale st lines = .ok st' →
      (st.rootTable.map Prod.fst ++ rootKeyNames lines).Nodup →
      st'.rootTable.map Prod.fst = st.rootTable.map Prod.fst ++ rootKeyNames lines := by
  induction lines with
  | nil =>
    intro st st' _ h _
    simp only [parse_lines, Except.ok.injEq] at h
    subst h
    simp [rootKeyNames, topLevelAssignments]
  | cons l ls ih =>
    intro st st' hcur h hnd
    cases hh : isHeaderLine l with
    | true =>
      have hnames : rootKeyNames (l :: ls) =
          ((l :: ls).filter isSingleSegmentHeader).map headerKey := by
        simp [rootKeyNames, topLevelAssignments_header l ls hh]
      rw [hnames] at hnd ⊢
      exact parse_lines_after_header stod scale (l :: ls) st st'
        (Or.inr ⟨l, ls, rfl, hh⟩) h hnd
    | false =>
      have hs : isSingleSegmentHeader l = false := by
        simp [isSingleSegmentHeader, hh]
      simp only [parse_lines] at h
      split at h
      · simp at h
      · rename_i st1 hstep
        rcases line_cases l hh with ⟨hblank, hna⟩ | hassign
        · rw [parse_line_blank stod scale st l hblank] at hstep
          simp only [Except.ok.injEq] at hstep
          subst hstep
          have hnames : rootKeyNames (l :: ls) = rootKeyNames ls := by
            simp only [rootKeyNames, topLevelAssignments_cons l ls hh, hna,
              Bool.false_eq_true, if_false]
            rw [List.filter_cons_of_neg (by simp [hs])]
          rw [hnames] at hnd ⊢
          exact ih st st' hcur h hnd
        · obtain ⟨p, t, val, hp, ht, hnew, _, rfl⟩ :=
            parse_line_assignment_effect stod scale st st1 l hassign hstep
          have hp0 : p = [] := by
            rw [hcur] at hp
            exact (Option.some.inj hp).symm
          subst hp0
          simp only [tableAt, Option.some.injEq] at ht
          subst ht
          have hnames : rootKeyNames (l :: ls) = lineKey l :: rootKeyNames ls := by
            simp only [rootKeyNames, topLevelAssignments_cons l ls hh, hassign, if_true,
              List.map_cons, List.cons_append]
            rw [List.filter_cons_of_neg (by simp [hs])]
          have hroot : updateAt (Table.addValue (lineKey l) val) [] st.rootTable =
              st.rootTable ++ [(lineKey l, val)] := by
            simp only [updateAt]
            exact Table.addValue_of_new _ _ _ hnew
          rw [hnames] at hnd ⊢
          rw [hroot] at h
          have := ih ⟨st.rootTable ++ [(lineKey l, val)], some []⟩ st' rfl h
            (by simpa using hnd)
          rw [this]
          simp

end RootLengthLines

section RootLengthClaim

variable {R D : Type}

/-- C11 as stated fails: the input `[a]`, `[a]` is accepted, both lines are header lines
with a single segment, and the root has length 1, not 2, since `emplace` does not
insert a key a second time. -/
theorem root_length_redeclared_header :
    parse (R := Unit) (D := Unit) (fun _ => .ok ()) (fun _ _ => ())
      ["[a]".toList, "[a]".toList] = .ok [("a".toList, .table_t [])] ∧
    Table.length [("a".toList, (.table_t [] : Value Unit))] = 1 ∧
    claimedRootLength ["[a]".toList, "[a]".toList] = 2 :=
  ⟨rfl, rfl, by decide⟩

/-- C11, amended: for every input that is accepted and in which the keys of the
assignment lines in front of the first header line and the names of the header lines
with a single segment all differ, the root holds exactly these keys, so its length is
the number of those assignment lines plus the number of those header lines. -/
theorem root_length_counts_lines (stod : List Char → Except Err D) (scale : D → Int → R)
    (lines : List (List Char)) (root : Table R)
    (hparse : parse stod scale lines = .ok root)
    (hdiffer : (rootKeyNames lines).Nodup) :
    root.map Prod.fst = rootKeyNames lines ∧
    Table.length root = claimedRootLength lines := by
  unfold parse at hparse
  split at hparse
  · simp at hparse
  · rename_i st hst
    simp only [Except.ok.injEq] at hparse
    subst hparse
    have hkeys := parse_lines_root_keys stod scale lines ⟨[], some []⟩ st rfl hst
      (by simpa using hdiffer)
    simp only [List.map_nil, List.nil_append] at hkeys
    refine ⟨hkeys, ?_⟩
    have hlen := congrArg List.length hkeys
    simp only [List.length_map, rootKeyNames, List.length_append] at hlen
    exact hlen

/-- Instance of C11, amended: `x = 5`, `[t]`, `id = 10`, `[t.child]` gives a root with
the two keys `x` and `t`. -/
theorem root_length_counts_lines_witness :
    (rootKeyNames ["x = 5".toList, "[t]".toList, "id = 10".toList,
      "[t.child]".toList]).Nodup ∧
    ([("x".toList, (.Integer 5 : Value Unit)),
      ("t".toList, .table_t [("id".toList, .Integer 10),
        ("child".toList, .table_t [])])].map Prod.fst =
      rootKeyNames ["x = 5".toList, "[t]".toList, "id = 10".toList, "[t.child]".toList] ∧
    Table.length [("x".toList, (.Integer 5 : Value Unit)),
      ("t".toList, .table_t [("id".toList, .Integer 10),
        ("child".toList, .table_t [])])] =
      claimedRootLength ["x = 5".toList, "[t]".toList, "id = 10".toList,
        "[t.child]".toList]) :=
  ⟨by decide, root_length_counts_lines (fun _ => .ok ()) (fun _ _ => ())
    ["x = 5".toList, "[t]".toList, "id = 10".toList, "[t.child]".toList] _ rfl
    (by decide)⟩

end RootLengthClaim

section TrailingCharacters

variable {R D : Type}

theorem unexpectedCharacter_of_code (d : Char) :
    (d.toNat ≤ 22 → unexpectedCharacter d = .parseException) ∧
    (23 ≤ d.toNat → unexpectedCharacter d = .literalOutOfBounds) := by
  unfold unexpectedCharacter
  constructor
  · intro h
    rw [if_pos h]
  · intro h
    rw [if_neg (by omega)]

theorem parse_line_trailing_assignment (stod : List Char → Except Err D)
    (scale : D → Int → R) (st st1 : ParserState R) (line it1 : List Char) (d : Char)
    (ds : List Char) (hline : isAssignmentLine line = true)
    (hread : parse_key_eq_value stod scale (consumeWhitespace (eraseComment line)) st
      = .ok (st1, it1))
    (hrest : consumeWhitespace it1 = d :: ds) :
    parse_line stod scale st line = .error (unexpectedCharacter d) := by
  unfold isAssignmentLine at hline
  unfold parse_line
  simp only []
  generalize consumeWhitespace (eraseComment line) = it at hline hread ⊢
  cases it with
  | nil => simp at hline
  | cons c rest =>
    have hc : (c == '[') = false := by simpa using hline
    simp only [hc, Bool.false_eq_true, if_false, hread, hrest]

theorem parse_line_trailing_header (stod : List Char → Except Err D)
    (scale : D → Int → R) (st st1 : ParserState R) (line it1 : List Char) (d : Char)
    (ds : List Char) (hline : isHeaderLine line = true)
    (hread : parse_table (consumeWhitespace (eraseComment line)) st.rootTable
      = .ok (st1, it1))
    (hrest : consumeWhitespace it1 = d :: ds) :
    parse_line stod scale st line = .error (unexpectedCharacter d) := by
  unfold isHeaderLine at hline
  unfold parse_line
  simp only []
  generalize consumeWhitespace (eraseComment line) = it at hline hread ⊢
  cases it with
  | nil => simp at hline
  | cons c rest =>
    have hc : (c == '[') = true := by simpa using hline
    simp only [hc, if_true, hread, hrest]

/-- C12: when `parse_key_eq_value` has read the key and the value literal of an
assignment line, or `parse_table` has read a header up to its `]`, and a character `d`
other than blank and tab is left on the line (after comment removal), then `parse` does
not return a tree, after any lines that parse and whatever lines follow: it goes to
`throw ParseException("Unexpected character '" + *it + ...)`, whose operand adds the code
of `d` to the pointer to the literal. For a code up to 22 the exception is thrown; for
every code from 23 on, so for every printable character, the text of the exception is
read beyond the end of the literal. The latter is what happens on `x = 5 y`, `x = "a"b`,
`x = [1] 2`, `x = 1.5.2` (given that `std::stod` converts `1.5`) and `[t] z`. -/
theorem trailing_character_reads_beyond_literal (stod : List Char → Except Err D)
    (scale : D → Int → R) :
    (∀ (before after : List (List Char)) (st st1 : ParserState R) (line it1 : List Char)
      (d : Char) (ds : List Char),
      parse_lines stod scale ⟨[], some []⟩ before = .ok st →
      isAssignmentLine line = true →
      parse_key_eq_value stod scale (consumeWhitespace (eraseComment line)) st
        = .ok (st1, it1) →
      consumeWhitespace it1 = d :: ds →
      parse stod scale (before ++ line :: after) = .error (unexpectedCharacter d)) ∧
    (∀ (before after : List (List Char)) (st st1 : ParserState R) (line it1 : List Char)
      (d : Char) (ds : List Char),
      parse_lines stod scale ⟨[], some []⟩ before = .ok st →
      isHeaderLine line = true →
      parse_table (consumeWhitespace (eraseComment line)) st.rootTable = .ok (st1, it1) →
      consumeWhitespace it1 = d :: ds →
      parse stod scale (before ++ line :: after) = .error (unexpectedCharacter d)) ∧
    (∀ d : Char, (d.toNat ≤ 22 → unexpectedCharacter d = .parseException) ∧
      (23 ≤ d.toNat → unexpectedCharacter d = .literalOutOfBounds)) ∧
    parse stod scale ["x = 5 y".toList] = .error .literalOutOfBounds ∧
    parse stod scale ["x = \"a\"b".toList] = .error .literalOutOfBounds ∧
    parse stod scale ["x = [1] 2".toList] = .error .literalOutOfBounds ∧
    (∀ r, stod "1.5".toList = .ok r →
      parse stod scale ["x = 1.5.2".toList] = .error .literalOutOfBounds) ∧
    parse stod scale ["[t] z".toList] = .error .literalOutOfBounds := by
  refine ⟨?_, ?_, unexpectedCharacter_of_code, rfl, rfl, rfl, ?_, rfl⟩
  · intro before after st st1 line it1 d ds hbefore hline hread hrest
    unfold parse
    rw [parse_lines_append_error stod scale _ st before after line _ hbefore
      (parse_line_trailing_assignment stod scale st st1 line it1 d ds hline hread hrest)]
  · intro before after st st1 line it1 d ds hbefore hline hread hrest
    unfold parse
    rw [parse_lines_append_error stod scale _ st before after line _ hbefore
      (parse_line_trailing_header stod scale st st1 line it1 d ds hline hread hrest)]
  · intro r hr
    have hb : between "1.5.2".toList ".2".toList = "1.5".toList := by decide
    have hv : parse_value stod scale "1.5.2".toList =
        .ok (.Real (scale r 1), ".2".toList) := by
      have h1 : isInteger "1.5.2".toList = .ok false := rfl
      have h2 : isReal "1.5.2".toList = .ok true := rfl
      have h3 : parse_real stod scale "1.5.2".toList =
          .ok (.Real (scale r 1), ".2".toList) := by
        have : parse_real stod scale "1.5.2".toList =
            match stod (between "1.5.2".toList ".2".toList) with
            | .error err => .error err
            | .ok r => .ok (.Real (scale r 1), ".2".toList) := rfl
        rw [this, hb, hr]
      have hcons : "1.5.2".toList = '1' :: ".5.2".toList := rfl
      rw [hcons] at h1 h2 h3 ⊢
      simp only [parse_value, h1, h2, h3]
    have hline := parse_line_assignment stod scale ⟨[], some []⟩ [] [] "x".toList
      "1.5.2".toList (by decide) rfl rfl rfl (by decide) (by decide)
    rw [hv] at hline
    have hl : assignment "x".toList "1.5.2".toList = "x = 1.5.2".toList := by decide
    rw [hl] at hline
    simp only [parse, parse_lines, hline]
    rfl

/-- Instance of C12: on the line `x = 5 y` the character `y` is left after the value, and
the text of the exception is read beyond the literal. -/
theorem trailing_character_reads_beyond_literal_witness :
    parse (R := Unit) (D := Unit) (fun _ => .ok ()) (fun _ _ => ())
      ([] ++ "x = 5 y".toList :: []) = .error (unexpectedCharacter 'y') ∧
    unexpectedCharacter 'y' = .literalOutOfBounds :=
  ⟨(trailing_character_reads_beyond_literal (R := Unit) (D := Unit) (fun _ => .ok ())
      (fun _ _ => ())).1
      [] [] ⟨[], some []⟩ ⟨[("x".toList, .Integer 5)], some []⟩ "x = 5 y".toList
      " y".toList 'y' [] rfl rfl rfl rfl,
    by decide⟩

end TrailingCharacters

section LeadingZero

variable {R D : Type}

/-- An assignment line whose key is already in the table `currentTable` points to. -/
theorem parse_line_assignment_duplicate (stod : List Char → Except Err D)
    (scale : D → Int → R) (st : ParserState R) (t : Table R) (k w : List Char)
    (hk : isKey k = true) (hcur : st.current = .ok t)
    (hdup : Table.contains k t = true) (hw : ∀ c ∈ w, c ≠ '#') :
    parse_line stod scale st (assignment k w) = .error .parseException := by
  obtain ⟨c, cs, rfl, hc1, hc2, hc3, hc4, hc5⟩ := isKey_cons k hk
  have hall := isKey_all (c :: cs) hk
  have herase : eraseComment (assignment (c :: cs) w) = assignment (c :: cs) w := by
    apply eraseComment_of_no_hash
    intro d hd
    simp only [assignment, List.mem_append, List.mem_cons] at hd
    rcases hd with hd | hd | hd | hd | hd
    · exact (hall d (by simpa using hd)).2.2.2
    · subst hd; decide
    · subst hd; decide
    · subst hd; decide
    · exact hw d hd
  have hfwd : forward (fun c => c != ' ' && c != '\t' && c != '=')
      (c :: (cs ++ ' ' :: '=' :: ' ' :: w)) = ' ' :: '=' :: ' ' :: w := by
    have := forward_append_of_all (fun c => c != ' ' && c != '\t' && c != '=') (c :: cs)
      (' ' :: '=' :: ' ' :: w) (by
        intro d hd
        have := hall d hd
        simp [this.1, this.2.1, this.2.2.1])
    rw [List.cons_append] at this
    rw [this]
    rfl
  have hbetween : between (c :: (cs ++ ' ' :: '=' :: ' ' :: w)) (' ' :: '=' :: ' ' :: w)
      = c :: cs := between_append (c :: cs) _
  have hcw : consumeWhitespace (assignment (c :: cs) w) = c :: (cs ++ ' ' :: '=' :: ' ' :: w) :=
    consumeWhitespace_cons_of_not_blank c _ hc1 hc2
  have hb : (c == '[') = false := by simpa using hc5
  unfold parse_line
  simp only [herase]
  rw [hcw]
  simp only [hb, Bool.false_eq_true, if_false]
  unfold parse_key_eq_value
  rw [consumeWhitespace_cons_of_not_blank c _ hc1 hc2]
  unfold parse_key
  simp only [hfwd, hbetween, hcur, hdup, if_true]

/-- The value text `0…` with an optional sign in front, where the digits are not
followed by a point, is no value. -/
theorem parse_value_leading_zero (stod : List Char → Except Err D) (scale : D → Int → R)
    (sign ds rest : List Char) (hsign : sign = [] ∨ sign = ['+'] ∨ sign = ['-'])
    (hds : ∀ c ∈ ds, isDigit c = true)
    (hrest : ∀ c, rest.head? = some c → isDigit c = false ∧ c ≠ '.') :
    parse_value stod scale (sign ++ '0' :: (ds ++ rest)) = .error .parseException := by
  have hfw : forward isDigit ('0' :: (ds ++ rest)) = rest := by
    have := forward_digits_append ('0' :: ds) rest (by
      intro c hc
      rcases List.mem_cons.mp hc with h | h
      · subst h; rfl
      · exact hds c h) (fun c hc => (hrest c hc).1)
    simpa using this
  have hreal : (match forward isDigit ('0' :: (ds ++ rest)) with
      | [] => (Except.ok false : Except Err Bool)
      | d :: it =>
        if (d != '.') = true then .ok false
        else .ok (between ('0' :: (ds ++ rest)) (forward isDigit it) != ['.'])) = .ok false := by
    rw [hfw]
    cases rest with
    | nil => rfl
    | cons c cs =>
      have hc : c ≠ '.' := (hrest c rfl).2
      simp [hc]
  rcases hsign with rfl | rfl | rfl
  · have h1 : isInteger ('0' :: (ds ++ rest)) = .ok false := by simp [isInteger]
    have h2 : isReal ('0' :: (ds ++ rest)) = .ok false := by
      simp only [isReal]
      exact hreal
    have h3 : isString ('0' :: (ds ++ rest)) = .ok false := by simp [isString]
    have h4 : isArray ('0' :: (ds ++ rest)) = .ok false := by simp [isArray]
    simp only [List.nil_append, parse_value, h1, h2, h3, h4]
  · have h1 : isInteger ('+' :: '0' :: (ds ++ rest)) = .ok false := by simp [isInteger]
    have h2 : isReal ('+' :: '0' :: (ds ++ rest)) = .ok false := by
      simp only [isReal, beq_self_eq_true, Bool.true_or, if_true]
      exact hreal
    have h3 : isString ('+' :: '0' :: (ds ++ rest)) = .ok false := by simp [isString]
    have h4 : isArray ('+' :: '0' :: (ds ++ rest)) = .ok false := by simp [isArray]
    simp only [List.singleton_append, parse_value, h1, h2, h3, h4]
  · have h1 : isInteger ('-' :: '0' :: (ds ++ rest)) = .ok false := by simp [isInteger]
    have h2 : isReal ('-' :: '0' :: (ds ++ rest)) = .ok false := by
      simp only [isReal, beq_self_eq_true, Bool.or_true, if_true]
      exact hreal
    have h3 : isString ('-' :: '0' :: (ds ++ rest)) = .ok false := by simp [isString]
    have h4 : isArray ('-' :: '0' :: (ds ++ rest)) = .ok false := by simp [isArray]
    simp only [List.singleton_append, parse_value, h1, h2, h3, h4]

end LeadingZero

section RealLiteral

variable {R D : Type}

theorem realLiteral_append (sign ds1 ds2 rest : List Char) :
    realLiteral sign ds1 ds2 ++ rest = sign ++ (ds1 ++ '.' :: (ds2 ++ rest)) := by
  simp [realLiteral]

theorem digits_point_head (ds1 x : List Char) (hds1 : ∀ c ∈ ds1, isDigit c = true) :
    ∃ c r, ds1 ++ '.' :: x = c :: r ∧ (c == '+' || c == '-') = false := by
  cases ds1 with
  | nil => exact ⟨'.', x, rfl, rfl⟩
  | cons d ds =>
    refine ⟨d, ds ++ '.' :: x, rfl, ?_⟩
    obtain ⟨hp, hm, _⟩ := isDigit_ne_sign d (hds1 d (List.mem_cons_self d ds))
    simp [hp, hm]

theorem forward_digits_point (ds1 x : List Char) (hds1 : ∀ c ∈ ds1, isDigit c = true) :
    forward isDigit (ds1 ++ '.' :: x) = '.' :: x :=
  forward_digits_append ds1 ('.' :: x) hds1 (by
    intro c hc
    simp only [List.head?_cons, Option.some.injEq] at hc
    subst hc
    rfl)

theorem isInteger_body_point (y ds1 x : List Char) (hy : y = ds1 ++ '.' :: x)
    (hds1 : ∀ c ∈ ds1, isDigit c = true) :
    (match y with
      | [] => (Except.ok false : Except Err Bool)
      | d :: _ =>
        if (d == '0') = true then .ok false
        else
          match forward isDigit y with
          | '.' :: _ => .ok false
          | _ => .ok (!(between y (forward isDigit y)).isEmpty)) = .ok false := by
  have hfw : forward isDigit y = '.' :: x := by rw [hy]; exact forward_digits_point ds1 x hds1
  cases y with
  | nil => rfl
  | cons d r =>
    simp only [hfw]
    split <;> rfl

/-- A literal with a point is no integer for `isInteger`. -/
theorem realLiteral_isInteger (sign ds1 ds2 rest : List Char)
    (hsign : sign = [] ∨ sign = ['+'] ∨ sign = ['-'])
    (hds1 : ∀ c ∈ ds1, isDigit c = true) :
    isInteger (realLiteral sign ds1 ds2 ++ rest) = .ok false := by
  rw [realLiteral_append]
  rcases hsign with rfl | rfl | rfl
  · obtain ⟨c, r, hc, hs⟩ := digits_point_head ds1 (ds2 ++ rest) hds1
    have hkey := isInteger_body_point (c :: r) ds1 (ds2 ++ rest) hc.symm hds1
    rw [List.nil_append, hc]
    simp only [isInteger, hs, Bool.false_eq_true, if_false]
    exact hkey
  · have hkey := isInteger_body_point _ ds1 (ds2 ++ rest) rfl hds1
    simp only [List.singleton_append, isInteger, beq_self_eq_true, Bool.true_or, if_true]
    exact hkey
  · have hkey := isInteger_body_point _ ds1 (ds2 ++ rest) rfl hds1
    simp only [List.singleton_append, isInteger, beq_self_eq_true, Bool.or_true, if_true]
    exact hkey

theorem isReal_body_point (y ds1 ds2 rest : List Char) (hy : y = ds1 ++ '.' :: (ds2 ++ rest))
    (hds1 : ∀ c ∈ ds1, isDigit c = true) (hds2 : ∀ c ∈ ds2, isDigit c = true)
    (hne : ds1 ≠ [] ∨ ds2 ≠ [])
    (hrest : ∀ c, rest.head? = some c → isDigit c = false) :
    (match y with
      | [] => (Except.ok false : Except Err Bool)
      | _ :: _ =>
        match forward isDigit y with
        | [] => .ok false
        | d :: it =>
          if (d != '.') = true then .ok false
          else .ok (between y (forward isDigit it) != ['.'])) = .ok true := by
  have hfw : forward isDigit y = '.' :: (ds2 ++ rest) := by
    rw [hy]; exact forward_digits_point ds1 _ hds1
  have hfw2 : forward isDigit (ds2 ++ rest) = rest := forward_digits_append ds2 rest hds2 hrest
  have hbt : between y rest = ds1 ++ '.' :: ds2 := by
    rw [hy]
    have := between_append (ds1 ++ '.' :: ds2) rest
    simpa using this
  have hnp : (ds1 ++ '.' :: ds2 != ['.']) = true := by
    simp only [bne_iff_ne, ne_eq]
    intro h
    have hl := congrArg List.length h
    simp only [List.length_append, List.length_cons, List.length_nil] at hl
    rcases hne with h1 | h2
    · exact h1 (List.length_eq_zero.mp (by omega))
    · exact h2 (List.length_eq_zero.mp (by omega))
  cases y with
  | nil => simp at hy
  | cons d r =>
    simp only [hfw, bne_self_eq_false, Bool.false_eq_true, if_false, hfw2, hbt, hnp]

/-- A literal with a point and a digit on at least one side of it is a real for
`isReal`. -/
theorem realLiteral_isReal (sign ds1 ds2 rest : List Char)
    (hsign : sign = [] ∨ sign = ['+'] ∨ sign = ['-'])
    (hds1 : ∀ c ∈ ds1, isDigit c = true) (hds2 : ∀ c ∈ ds2, isDigit c = true)
    (hne : ds1 ≠ [] ∨ ds2 ≠ [])
    (hrest : ∀ c, rest.head? = some c → isDigit c = false) :
    isReal (realLiteral sign ds1 ds2 ++ rest) = .ok true := by
  rw [realLiteral_append]
  rcases hsign with rfl | rfl | rfl
  · obtain ⟨c, r, hc, hs⟩ := digits_point_head ds1 (ds2 ++ rest) hds1
    have hkey := isReal_body_point (c :: r) ds1 ds2 rest hc.symm hds1 hds2 hne hrest
    rw [List.nil_append, hc]
    simp only [isReal, hs, Bool.false_eq_true, if_false]
    exact hkey
  · have hkey := isReal_body_point _ ds1 ds2 rest rfl hds1 hds2 hne hrest
    simp only [List.singleton_append, isReal, beq_self_eq_true, Bool.true_or, if_true]
    exact hkey
  · have hkey := isReal_body_point _ ds1 ds2 rest rfl hds1 hds2 hne hrest
    simp only [List.singleton_append, isReal, beq_self_eq_true, Bool.or_true, if_true]
    exact hkey

theorem parse_real_body_point (stod : List Char → Except Err D) (scale : D → Int → R)
    (s : Int) (y ds1 ds2 rest : List Char) (hy : y = ds1 ++ '.' :: (ds2 ++ rest))
    (hds1 : ∀ c ∈ ds1, isDigit c = true) (hds2 : ∀ c ∈ ds2, isDigit c = true)
    (hrest : ∀ c, rest.head? = some c → isDigit c = false) :
    (match forward isDigit y with
      | [] => (Except.error Err.readPastEnd : Except Err (Value R × List Char))
      | _ :: it =>
        match stod (between y (forward isDigit it)) with
        | .error err => .error err
        | .ok r => .ok (.Real (scale r s), forward isDigit it)) =
      match stod (ds1 ++ '.' :: ds2) with
      | .error err => .error err
      | .ok r => .ok (.Real (scale r s), rest) := by
  have hfw : forward isDigit y = '.' :: (ds2 ++ rest) := by
    rw [hy]; exact forward_digits_point ds1 _ hds1
  have hfw2 : forward isDigit (ds2 ++ rest) = rest := forward_digits_append ds2 rest hds2 hrest
  have hbt : between y rest = ds1 ++ '.' :: ds2 := by
    rw [hy]
    have := between_append (ds1 ++ '.' :: ds2) rest
    simpa using this
  simp only [hfw, hfw2, hbt]

/-- What `parse_real` does on a literal with a point: it hands the text without the sign
to `std::stod`. -/
theorem realLiteral_parse_real (stod : List Char → Except Err D) (scale : D → Int → R)
    (sign ds1 ds2 rest : List Char)
    (hsign : sign = [] ∨ sign = ['+'] ∨ sign = ['-'])
    (hds1 : ∀ c ∈ ds1, isDigit c = true) (hds2 : ∀ c ∈ ds2, isDigit c = true)
    (hrest : ∀ c, rest.head? = some c → isDigit c = false) :
    parse_real stod scale (realLiteral sign ds1 ds2 ++ rest) =
      match stod (ds1 ++ '.' :: ds2) with
      | .error err => .error err
      | .ok r => .ok (.Real (scale r (signValue sign)), rest) := by
  rw [realLiteral_append]
  rcases hsign with rfl | rfl | rfl
  · obtain ⟨c, r, hc, hs⟩ := digits_point_head ds1 (ds2 ++ rest) hds1
    have hkey := parse_real_body_point stod scale 1 (c :: r) ds1 ds2 rest hc.symm
      hds1 hds2 hrest
    have hsv : signValue [] = 1 := by decide
    rw [List.nil_append, hc, hsv]
    simp only [parse_real, hs, Bool.false_eq_true, if_false]
    exact hkey
  · have hkey := parse_real_body_point stod scale 1 _ ds1 ds2 rest rfl hds1 hds2 hrest
    have hsv : signValue ['+'] = 1 := by decide
    rw [hsv]
    simp only [List.singleton_append, parse_real, beq_self_eq_true, Bool.true_or, if_true]
    exact hkey
  · have hkey := parse_real_body_point stod scale (-1) _ ds1 ds2 rest rfl hds1 hds2 hrest
    have hsv : signValue ['-'] = -1 := by decide
    have hmp : ('-' == '+') = false := by decide
    rw [hsv]
    simp only [List.singleton_append, parse_real, beq_self_eq_true, Bool.or_true, if_true,
      hmp, Bool.false_eq_true, if_false]
    exact hkey

theorem realLiteral_ne_nil (sign ds1 ds2 rest : List Char) :
    realLiteral sign ds1 ds2 ++ rest ≠ [] := by
  simp [realLiteral]

/-- What `parse_value` does on a literal with a point and a digit on at least one side of
it. -/
theorem realLiteral_parse_value (stod : List Char → Except Err D) (scale : D → Int → R)
    (sign ds1 ds2 rest : List Char)
    (hsign : sign = [] ∨ sign = ['+'] ∨ sign = ['-'])
    (hds1 : ∀ c ∈ ds1, isDigit c = true) (hds2 : ∀ c ∈ ds2, isDigit c = true)
    (hne : ds1 ≠ [] ∨ ds2 ≠ [])
    (hrest : ∀ c, rest.head? = some c → isDigit c = false) :
    parse_value stod scale (realLiteral sign ds1 ds2 ++ rest) =
      match stod (ds1 ++ '.' :: ds2) with
      | .error err => .error err
      | .ok r => .ok (.Real (scale r (signValue sign)), rest) := by
  have h1 := realLiteral_isInteger sign ds1 ds2 rest hsign hds1
  have h2 := realLiteral_isReal sign ds1 ds2 rest hsign hds1 hds2 hne hrest
  have h3 := realLiteral_parse_real stod scale sign ds1 ds2 rest hsign hds1 hds2 hrest
  have hnn := realLiteral_ne_nil sign ds1 ds2 rest
  generalize realLiteral sign ds1 ds2 ++ rest = w at h1 h2 h3 hnn ⊢
  cases w with
  | nil => exact absurd rfl hnn
  | cons c cs => simp only [parse_value, h1, h2, h3]

end RealLiteral

section LeadingZeroClaim

variable {R D : Type}

theorem parse_line_leading_zero (stod : List Char → Except Err D) (scale : D → Int → R)
    (st : ParserState R) (t : Table R) (k sign ds rest : List Char)
    (hcur : st.current = .ok t) (hk : isKey k = true)
    (hsign : sign = [] ∨ sign = ['+'] ∨ sign = ['-'])
    (hds : ∀ c ∈ ds, isDigit c = true)
    (hrest : ∀ c, rest.head? = some c → isDigit c = false ∧ c ≠ '.')
    (hhash : ∀ c ∈ rest, c ≠ '#') :
    parse_line stod scale st (assignment k (sign ++ '0' :: (ds ++ rest))) =
      .error .parseException := by
  have hw : ∀ c ∈ sign ++ '0' :: (ds ++ rest), c ≠ '#' := by
    intro c hc
    simp only [List.mem_append, List.mem_cons] at hc
    rcases hc with h | h | h | h
    · rcases hsign with rfl | rfl | rfl
      · simp at h
      · simp only [List.mem_singleton] at h; subst h; decide
      · simp only [List.mem_singleton] at h; subst h; decide
    · subst h; decide
    · exact (literal_char_plain c (Or.inr (Or.inr (hds c h)))).1
    · exact hhash c h
  have hws : consumeWhitespace (sign ++ '0' :: (ds ++ rest)) = sign ++ '0' :: (ds ++ rest) := by
    rcases hsign with rfl | rfl | rfl <;> rfl
  cases hdup : Table.contains k t with
  | true => exact parse_line_assignment_duplicate stod scale st t k _ hk hcur hdup hw
  | false =>
    obtain ⟨p, hp, htp⟩ := ParserState.current_ok st t hcur
    rw [parse_line_assignment stod scale st p t k _ hk hp htp hdup hw hws,
      parse_value_leading_zero stod scale sign ds rest hsign hds hrest]

/-- C13: a value text that starts, after an optional sign, with the digit `0` and whose
digits are not followed by a point is rejected with `ParseException`, for every key, on
any line where `currentTable` points to a table; so `k = 0`, `k = -0` and `k = 007`
are rejected. The line `k = 0.5` is accepted as a Real, given that `std::stod` converts
`0.5`. -/
theorem leading_zero_rejected (stod : List Char → Except Err D) (scale : D → Int → R) :
    (∀ (before after : List (List Char)) (st : ParserState R) (t : Table R)
      (k sign ds rest : List Char),
      parse_lines stod scale ⟨[], some []⟩ before = .ok st → st.current = .ok t →
      isKey k = true → (sign = [] ∨ sign = ['+'] ∨ sign = ['-']) →
      (∀ c ∈ ds, isDigit c = true) →
      (∀ c, rest.head? = some c → isDigit c = false ∧ c ≠ '.') →
      (∀ c ∈ rest, c ≠ '#') →
      parse stod scale (before ++ assignment k (sign ++ '0' :: (ds ++ rest)) :: after) =
        .error .parseException) ∧
    (∀ k : List Char, isKey k = true →
      parse stod scale [assignment k "0".toList] = .error .parseException ∧
      parse stod scale [assignment k "-0".toList] = .error .parseException ∧
      parse stod scale [assignment k "007".toList] = .error .parseException) ∧
    (∀ (k : List Char) (r : D), isKey k = true → stod "0.5".toList = .ok r →
      ∃ root : Table R, parse stod scale [assignment k "0.5".toList] = .ok root ∧
        valueIs .real_t k root = true ∧ valueIs .integer_t k root = false ∧
        valueAs .real_t k root = .ok (scale r 1)) := by
  have hgen : ∀ (before after : List (List Char)) (st : ParserState R) (t : Table R)
      (k sign ds rest : List Char),
      parse_lines stod scale ⟨[], some []⟩ before = .ok st → st.current = .ok t →
      isKey k = true → (sign = [] ∨ sign = ['+'] ∨ sign = ['-']) →
      (∀ c ∈ ds, isDigit c = true) →
      (∀ c, rest.head? = some c → isDigit c = false ∧ c ≠ '.') →
      (∀ c ∈ rest, c ≠ '#') →
      parse stod scale (before ++ assignment k (sign ++ '0' :: (ds ++ rest)) :: after) =
        .error .parseException := by
    intro before after st t k sign ds rest hbefore hcur hk hsign hds hrest hhash
    unfold parse
    rw [parse_lines_append_error stod scale _ st before after _ _ hbefore
      (parse_line_leading_zero stod scale st t k sign ds rest hcur hk hsign hds hrest hhash)]
  refine ⟨hgen, ?_, ?_⟩
  · intro k hk
    refine ⟨?_, ?_, ?_⟩
    · exact hgen [] [] ⟨[], some []⟩ [] k [] [] [] rfl rfl hk (Or.inl rfl) (by simp)
        (by simp) (by simp)
    · exact hgen [] [] ⟨[], some []⟩ [] k ['-'] [] [] rfl rfl hk (Or.inr (Or.inr rfl))
        (by simp) (by simp) (by simp)
    · exact hgen [] [] ⟨[], some []⟩ [] k [] ['0', '7'] [] rfl rfl hk (Or.inl rfl)
        (by decide) (by simp) (by simp)
  · intro k r hk hr
    have hv := realLiteral_parse_value stod scale [] ['0'] ['5'] [] (Or.inl rfl)
      (by decide) (by decide) (Or.inl (by simp)) (by simp)
    have hlit : realLiteral [] ['0'] ['5'] ++ [] = "0.5".toList := by decide
    have hst : (['0'] ++ '.' :: ['5'] : List Char) = "0.5".toList := by decide
    rw [hlit, hst, hr] at hv
    have hline := parse_line_assignment stod scale ⟨[], some []⟩ [] [] k "0.5".toList hk
      rfl rfl rfl (by decide) (by decide)
    rw [hv] at hline
    have hsv : signValue [] = 1 := by decide
    rw [hsv] at hline
    refine ⟨[(k, .Real (scale r 1))], ?_, ?_, ?_, ?_⟩
    · simp only [parse, parse_lines, hline]
      rfl
    · simp [valueIs, Table.valueIs, Table.get, Value.is]
    · simp [valueIs, Table.valueIs, Table.get, Value.is]
    · exact Table.valueAs_of_get .real_t k _ (.Real (scale r 1)) _ (by simp [Table.get]) rfl

/-- Instance of C13: `v = 0` after the line `x = 5`. -/
theorem leading_zero_rejected_witness :
    parse (R := Unit) (D := Unit) (fun _ => .ok ()) (fun _ _ => ())
      (["x = 5".toList] ++ assignment "v".toList ([] ++ '0' :: ([] ++ [])) :: [])
      = .error .parseException :=
  (leading_zero_rejected (R := Unit) (D := Unit) (fun _ => .ok ()) (fun _ _ => ())).1
    ["x = 5".toList] [] ⟨[("x".toList, .Integer 5)], some []⟩ [("x".toList, .Integer 5)]
    "v".toList [] [] [] rfl rfl (by decide) (Or.inl rfl) (by decide) (by decide)
    (by decide)

end LeadingZeroClaim

section Comments

variable {R D : Type}

theorem eraseComment_idem (l : List Char) : eraseComment (eraseComment l) = eraseComment l := by
  induction l with
  | nil => rfl
  | cons c cs ih =>
    by_cases h : (c == '#') = true
    · simp [eraseComment, h]
    · simp only [eraseComment, h, if_false]
      simp only [eraseComment, h, if_false, ih]

theorem parse_line_eraseComment (stod : List Char → Except Err D) (scale : D → Int → R)
    (st : ParserState R) (line : List Char) :
    parse_line stod scale st (eraseComment line) = parse_line stod scale st line := by
  unfold parse_line
  simp only [eraseComment_idem]

theorem parse_lines_eraseComment (stod : List Char → Except Err D) (scale : D → Int → R)
    (lines : List (List Char)) :
    ∀ st : ParserState R, parse_lines stod scale st (lines.map eraseComment) =
      parse_lines stod scale st lines := by
  induction lines with
  | nil => intro st; rfl
  | cons l ls ih =>
    intro st
    simp only [List.map_cons, parse_lines, parse_line_eraseComment]
    cases parse_line stod scale st l with
    | error e => rfl
    | ok st1 => exact ih st1

/-- C14: `parse` gives the same outcome, the same tree or the same failure, on the lines
as on the lines cut at their first `#`. The cut comes before string literals are read:
`s = "a#b"` throws `ParseException`, and `x = 5 # note` parses exactly like `x = 5`. -/
theorem parse_ignores_comments (stod : List Char → Except Err D) (scale : D → Int → R)
    (lines : List (List Char)) :
    parse (R := R) stod scale lines = parse stod scale (lines.map eraseComment) ∧
    parse (R := R) stod scale ["s = \"a#b\"".toList] = .error .parseException ∧
    parse (R := R) stod scale ["x = 5 # note".toList] = parse stod scale ["x = 5".toList] ∧
    parse (R := R) stod scale ["x = 5 # note".toList] = .ok [("x".toList, .Integer 5)] := by
  refine ⟨?_, rfl, rfl, rfl⟩
  unfold parse
  rw [parse_lines_eraseComment]

end Comments

section BlankLines

variable {R D : Type}

theorem parse_lines_drop_blank (stod : List Char → Except Err D) (scale : D → Int → R)
    (a b : List (List Char)) (l : List Char) (hl : isBlankLine l = true) :
    ∀ st : ParserState R, parse_lines stod scale st (a ++ l :: b) =
      parse_lines stod scale st (a ++ b) := by
  induction a with
  | nil =>
    intro st
    simp only [List.nil_append, parse_lines, parse_line_blank stod scale st l hl]
  | cons x xs ih =>
    intro st
    simp only [List.cons_append, parse_lines]
    cases parse_line stod scale st x with
    | error e => rfl
    | ok st1 => exact ih st1

theorem parse_lines_filter_blank (stod : List Char → Except Err D) (scale : D → Int → R)
    (lines : List (List Char)) :
    ∀ st : ParserState R,
      parse_lines stod scale st (lines.filter (fun l => !isBlankLine l)) =
        parse_lines stod scale st lines := by
  induction lines with
  | nil => intro st; rfl
  | cons l ls ih =>
    intro st
    cases hl : isBlankLine l with
    | true =>
      rw [List.filter_cons_of_neg (by simp [hl])]
      simp only [parse_lines, parse_line_blank stod scale st l hl]
      exact ih st
    | false =>
      rw [List.filter_cons_of_pos (by simp [hl])]
      simp only [parse_lines]
      cases parse_line stod scale st l with
      | error e => rfl
      | ok st1 => exact ih st1

theorem isBlankLine_blanks (ws : List Char) (hws : ∀ c ∈ ws, c = ' ' ∨ c = '\t') :
    isBlankLine ws = true := by
  have h1 : eraseComment ws = ws := by
    apply eraseComment_of_no_hash
    intro c hc
    rcases hws c hc with rfl | rfl <;> decide
  have h2 : consumeWhitespace ws = [] := by
    apply forward_all
    intro c hc
    rcases hws c hc with rfl | rfl <;> rfl
  simp [isBlankLine, h1, h2]

theorem eraseComment_append_hash (ws c : List Char) (hws : ∀ x ∈ ws, x ≠ '#') :
    eraseComment (ws ++ '#' :: c) = ws := by
  induction ws with
  | nil => simp [eraseComment]
  | cons x xs ih =>
    have hx : x ≠ '#' := hws x (List.mem_cons_self x xs)
    have := ih (fun y hy => hws y (List.mem_cons_of_mem x hy))
    simp only [List.cons_append, eraseComment, beq_iff_eq, hx, if_false]
    exact congrArg (List.cons x) this

theorem isBlankLine_comment (ws c : List Char) (hws : ∀ x ∈ ws, x = ' ' ∨ x = '\t') :
    isBlankLine (ws ++ '#' :: c) = true := by
  have h1 : eraseComment (ws ++ '#' :: c) = ws := by
    apply eraseComment_append_hash
    intro x hx
    rcases hws x hx with rfl | rfl <;> decide
  have h2 : consumeWhitespace ws = [] := by
    apply forward_all
    intro x hx
    rcases hws x hx with rfl | rfl <;> rfl
  simp [isBlankLine, h1, h2]

/-- C15: a line that is empty, that consists of blanks and tabs only, or that consists
of blanks and tabs followed by a `#` comment leaves the root and `currentTable` as they
are and throws nothing; putting such a line anywhere into the input, or taking it out,
does not change the outcome of `parse`, and neither does taking out all such lines. -/
theorem parse_ignores_blank_lines (stod : List Char → Except Err D) (scale : D → Int → R) :
    (∀ (ws c : List Char), (∀ x ∈ ws, x = ' ' ∨ x = '\t') →
      (∀ st : ParserState R, parse_line stod scale st ws = .ok st ∧
        parse_line stod scale st (ws ++ '#' :: c) = .ok st) ∧
      (∀ a b : List (List Char),
        parse (R := R) stod scale (a ++ ws :: b) = parse stod scale (a ++ b) ∧
        parse (R := R) stod scale (a ++ (ws ++ '#' :: c) :: b) = parse stod scale (a ++ b))) ∧
    (∀ lines : List (List Char),
      parse (R := R) stod scale (lines.filter (fun l => !isBlankLine l)) =
        parse stod scale lines) := by
  constructor
  · intro ws c hws
    have h1 := isBlankLine_blanks ws hws
    have h2 := isBlankLine_comment ws c hws
    refine ⟨fun st => ⟨parse_line_blank stod scale st ws h1,
      parse_line_blank stod scale st _ h2⟩, fun a b => ⟨?_, ?_⟩⟩
    · unfold parse
      rw [parse_lines_drop_blank stod scale a b ws h1]
    · unfold parse
      rw [parse_lines_drop_blank stod scale a b _ h2]
  · intro lines
    unfold parse
    rw [parse_lines_filter_blank]

/-- Instance of C15: a comment line between `[t]` and `id = 10` changes nothing. -/
theorem parse_ignores_blank_lines_witness :
    parse (R := Unit) (D := Unit) (fun _ => .ok ()) (fun _ _ => ())
      (["[t]".toList] ++ ("  ".toList ++ '#' :: " note".toList) :: ["id = 10".toList]) =
    parse (R := Unit) (D := Unit) (fun _ => .ok ()) (fun _ _ => ())
      (["[t]".toList] ++ ["id = 10".toList]) :=
  (((parse_ignores_blank_lines (R := Unit) (D := Unit) (fun _ => .ok ())
    (fun _ _ => ())).1 "  ".toList " note".toList (by decide)).2
    ["[t]".toList] ["id = 10".toList]).2

end BlankLines

section KindByForm

variable {R D : Type}

/-- What `parse` does on an input that consists of the one line `k = w`. -/
theorem parse_single_assignment (stod : List Char → Except Err D) (scale : D → Int → R)
    (k w : List Char) (hk : isKey k = true) (hw : ∀ c ∈ w, c ≠ '#')
    (hws : consumeWhitespace w = w) :
    parse (R := R) stod scale [assignment k w] =
      match parse_value stod scale w with
      | .error err => .error err
      | .ok (v, rest) =>
        match consumeWhitespace rest with
        | [] => .ok [(k, v)]
        | d :: _ => .error (unexpectedCharacter d) := by
  have hline := parse_line_assignment stod scale ⟨[], some []⟩ [] [] k w hk rfl rfl rfl hw hws
  simp only [parse, parse_lines, hline]
  cases parse_value stod scale w with
  | error e => rfl
  | ok r =>
    obtain ⟨v, rest⟩ := r
    simp only []
    cases consumeWhitespace rest with
    | nil => rfl
    | cons c cs => rfl

theorem parse_integer_body_digits (s : Int) (y ds rest : List Char) (hy : y = ds ++ rest)
    (hds : ∀ c ∈ ds, isDigit c = true)
    (hrest : ∀ c, rest.head? = some c → isDigit c = false) :
    (match stoll (between y (forward isDigit y)) with
      | .error err => (Except.error err : Except Err (Value R × List Char))
      | .ok v => .ok (.Integer (toInteger (toInteger v * s)), forward isDigit y)) =
      match stoll ds with
      | .error err => .error err
      | .ok v => .ok (.Integer (toInteger (toInteger v * s)), rest) := by
  have hfw : forward isDigit y = rest := by rw [hy]; exact forward_digits_append ds rest hds hrest
  have hbt : between y rest = ds := by rw [hy]; exact between_append ds rest
  simp only [hfw, hbt]

/-- What `parse_integer` does on a sign and a run of digits: it hands the digits to
`std::stoll`. -/
theorem digits_parse_integer (sign ds rest : List Char)
    (hsign : sign = [] ∨ sign = ['+'] ∨ sign = ['-']) (hne : ds ≠ [])
    (hds : ∀ c ∈ ds, isDigit c = true)
    (hrest : ∀ c, rest.head? = some c → isDigit c = false) :
    parse_integer (R := R) (sign ++ (ds ++ rest)) =
      match stoll ds with
      | .error err => .error err
      | .ok v => .ok (.Integer (toInteger (toInteger v * signValue sign)), rest) := by
  rcases hsign with rfl | rfl | rfl
  · cases ds with
    | nil => exact absurd rfl hne
    | cons d ds' =>
      obtain ⟨hp, hm, _⟩ := isDigit_ne_sign d (hds d (List.mem_cons_self d ds'))
      have hs : (d == '+' || d == '-') = false := by simp [hp, hm]
      have hkey := parse_integer_body_digits (R := R) 1 (d :: (ds' ++ rest)) (d :: ds') rest
        rfl hds hrest
      have hsv : signValue [] = 1 := by decide
      rw [hsv]
      simp only [List.nil_append, List.cons_append, parse_integer, hs, Bool.false_eq_true,
        if_false]
      exact hkey
  · have hkey := parse_integer_body_digits (R := R) 1 (ds ++ rest) ds rest rfl hds hrest
    have hsv : signValue ['+'] = 1 := by decide
    rw [hsv]
    simp only [List.singleton_append, parse_integer, beq_self_eq_true, Bool.true_or, if_true]
    exact hkey
  · have hkey := parse_integer_body_digits (R := R) (-1) (ds ++ rest) ds rest rfl hds hrest
    have hsv : signValue ['-'] = -1 := by decide
    have hmp : ('-' == '+') = false := by decide
    rw [hsv]
    simp only [List.singleton_append, parse_integer, beq_self_eq_true, Bool.or_true, if_true,
      hmp, Bool.false_eq_true, if_false]
    exact hkey

/-- What `parse_value` does on a sign and a run of digits that does not start with
`0`. -/
theorem digits_parse_value (stod : List Char → Except Err D) (scale : D → Int → R)
    (sign ds rest : List Char)
    (hsign : sign = [] ∨ sign = ['+'] ∨ sign = ['-']) (hne : ds ≠ [])
    (hds : ∀ c ∈ ds, isDigit c = true) (hzero : ds.head? ≠ some '0')
    (hrest : ∀ c, rest.head? = some c → isDigit c = false ∧ c ≠ '.') :
    parse_value stod scale (sign ++ (ds ++ rest)) =
      match stoll ds with
      | .error err => .error err
      | .ok v => .ok (.Integer (toInteger (toInteger v * signValue sign)), rest) := by
  obtain ⟨i1, i2, i3⟩ := isInteger_digits ds rest hne hds hzero hrest
  have hint : isInteger (sign ++ (ds ++ rest)) = .ok true := by
    rcases hsign with rfl | rfl | rfl
    · exact i1
    · exact i2
    · exact i3
  have hpi := digits_parse_integer (R := R) sign ds rest hsign hne hds
    (fun c hc => (hrest c hc).1)
  have hnn : sign ++ (ds ++ rest) ≠ [] := by
    cases ds with
    | nil => exact absurd rfl hne
    | cons d ds' => simp
  rw [parse_value_of_isInteger stod scale _ hnn hint, hpi]

theorem sign_digits_plain (sign ds : List Char)
    (hsign : sign = [] ∨ sign = ['+'] ∨ sign = ['-']) (hds : ∀ c ∈ ds, isDigit c = true) :
    ∀ c ∈ sign ++ ds, c = '+' ∨ c = '-' ∨ isDigit c = true := by
  intro c hc
  rcases List.mem_append.mp hc with h | h
  · rcases hsign with rfl | rfl | rfl
    · simp at h
    · simp only [List.mem_singleton] at h; exact Or.inl h
    · simp only [List.mem_singleton] at h; exact Or.inr (Or.inl h)
  · exact Or.inr (Or.inr (hds c h))

/-- The outcome of a line with a scalar literal in terms of the conversion. The line `k = w`
for a literal `w` made of an optional sign, digits, a point and digits ends the way
`std::stod` ends on the text without the sign: with its exception, or with `k` a Real;
so whenever the line is accepted, `valueIs<Real>` holds for `k` and `valueIs<Integer>`
does not. The line `k = w` for a literal `w` made of an optional sign and digits that
do not start with `0` ends the way `std::stoll` ends on the digits: with its exception,
or with `k` an Integer; so whenever the line is accepted, `valueIs<Integer>` holds for `k`
and `valueIs<Real>` does not. -/
theorem kind_follows_form (stod : List Char → Except Err D) (scale : D → Int → R)
    (k sign : List Char) (hk : isKey k = true)
    (hsign : sign = [] ∨ sign = ['+'] ∨ sign = ['-']) :
    (∀ ds1 ds2 : List Char, ds1 ≠ [] → ds2 ≠ [] →
      (∀ c ∈ ds1, isDigit c = true) → (∀ c ∈ ds2, isDigit c = true) →
      parse (R := R) stod scale [assignment k (realLiteral sign ds1 ds2)] =
        (match stod (ds1 ++ '.' :: ds2) with
          | .error err => .error err
          | .ok r => .ok [(k, .Real (scale r (signValue sign)))]) ∧
      ∀ root : Table R,
        parse stod scale [assignment k (realLiteral sign ds1 ds2)] = .ok root →
        valueIs .real_t k root = true ∧ valueIs .integer_t k root = false) ∧
    (∀ ds : List Char, ds ≠ [] → (∀ c ∈ ds, isDigit c = true) → ds.head? ≠ some '0' →
      parse (R := R) stod scale [assignment k (sign ++ ds)] =
        (match stoll ds with
          | .error err => .error err
          | .ok v => .ok [(k, .Integer (toInteger (toInteger v * signValue sign)))]) ∧
      ∀ root : Table R,
        parse stod scale [assignment k (sign ++ ds)] = .ok root →
        valueIs .integer_t k root = true ∧ valueIs .real_t k root = false) := by
  constructor
  · intro ds1 ds2 hne1 _ hds1 hds2
    have hplain : ∀ c ∈ realLiteral sign ds1 ds2,
        c = '+' ∨ c = '-' ∨ isDigit c = true ∨ c = '.' := by
      intro c hc
      simp only [realLiteral, List.mem_append, List.mem_cons] at hc
      rcases hc with h | h | h | h
      · rcases hsign with rfl | rfl | rfl
        · simp at h
        · simp only [List.mem_singleton] at h; exact Or.inl h
        · simp only [List.mem_singleton] at h; exact Or.inr (Or.inl h)
      · exact Or.inr (Or.inr (Or.inl (hds1 c h)))
      · exact Or.inr (Or.inr (Or.inr h))
      · exact Or.inr (Or.inr (Or.inl (hds2 c h)))
    have hnb : ∀ c ∈ realLiteral sign ds1 ds2, c ≠ '#' ∧ c ≠ ' ' ∧ c ≠ '\t' := by
      intro c hc
      rcases hplain c hc with h | h | h | h
      · subst h; decide
      · subst h; decide
      · have := literal_char_plain c (Or.inr (Or.inr h))
        exact ⟨this.1, this.2.1, this.2.2.1⟩
      · subst h; decide
    have hws : consumeWhitespace (realLiteral sign ds1 ds2) = realLiteral sign ds1 ds2 := by
      apply consumeWhitespace_of_head
      intro c hc
      have := hnb c (List.mem_of_mem_head? hc)
      exact ⟨this.2.1, this.2.2⟩
    have hv := realLiteral_parse_value stod scale sign ds1 ds2 [] hsign hds1 hds2
      (Or.inl hne1) (by simp)
    rw [List.append_nil] at hv
    have hp := parse_single_assignment (R := R) stod scale k _ hk
      (fun c hc => (hnb c hc).1) hws
    rw [hv] at hp
    have hout : parse (R := R) stod scale [assignment k (realLiteral sign ds1 ds2)] =
        (match stod (ds1 ++ '.' :: ds2) with
          | .error err => .error err
          | .ok r => .ok [(k, .Real (scale r (signValue sign)))]) := by
      rw [hp]
      cases stod (ds1 ++ '.' :: ds2) with
      | error e => rfl
      | ok r => rfl
    refine ⟨hout, ?_⟩
    intro root hroot
    rw [hout] at hroot
    cases hst : stod (ds1 ++ '.' :: ds2) with
    | error e => simp [hst] at hroot
    | ok r =>
      simp only [hst, Except.ok.injEq] at hroot
      subst hroot
      constructor <;> simp [valueIs, Table.valueIs, Table.get, Value.is]
  · intro ds hne hds hzero
    have hnb : ∀ c ∈ sign ++ ds, c ≠ '#' ∧ c ≠ ' ' ∧ c ≠ '\t' := by
      intro c hc
      have := literal_char_plain c (sign_digits_plain sign ds hsign hds c hc)
      exact ⟨this.1, this.2.1, this.2.2.1⟩
    have hws : consumeWhitespace (sign ++ ds) = sign ++ ds := by
      apply consumeWhitespace_of_head
      intro c hc
      have := hnb c (List.mem_of_mem_head? hc)
      exact ⟨this.2.1, this.2.2⟩
    have hv := digits_parse_value stod scale sign ds [] hsign hne hds hzero (by simp)
    rw [List.append_nil] at hv
    have hp := parse_single_assignment (R := R) stod scale k _ hk
      (fun c hc => (hnb c hc).1) hws
    rw [hv] at hp
    have hout : parse (R := R) stod scale [assignment k (sign ++ ds)] =
        (match stoll ds with
          | .error err => .error err
          | .ok v => .ok [(k, .Integer (toInteger (toInteger v * signValue sign)))]) := by
      rw [hp]
      cases stoll ds with
      | error e => rfl
      | ok r => rfl
    refine ⟨hout, ?_⟩
    intro root hroot
    rw [hout] at hroot
    cases hst : stoll ds with
    | error e => simp [hst] at hroot
    | ok r =>
      simp only [hst, Except.ok.injEq] at hroot
      subst hroot
      constructor <;> simp [valueIs, Table.valueIs, Table.get, Value.is]

/-- An instance: `y = 10.2` makes `y` a Real, and `x = 5` makes `x` an Integer. -/
theorem kind_follows_form_witness :
    (∀ root : Table Unit,
      parse (D := Unit) (fun _ => .ok ()) (fun _ _ => ())
        [assignment "y".toList (realLiteral [] "10".toList "2".toList)] = .ok root →
      valueIs .real_t "y".toList root = true ∧ valueIs .integer_t "y".toList root = false) ∧
    parse (R := Unit) (D := Unit) (fun _ => .ok ()) (fun _ _ => ())
      [assignment "x".toList ([] ++ "5".toList)] =
      (match stoll "5".toList with
        | .error err => .error err
        | .ok v => .ok [("x".toList, .Integer (toInteger (toInteger v * signValue [])))]) :=
  ⟨((kind_follows_form (R := Unit) (D := Unit) (fun _ => .ok ()) (fun _ _ => ())
      "y".toList [] (by decide) (Or.inl rfl)).1 "10".toList "2".toList (by decide)
      (by decide) (by decide) (by decide)).2,
    ((kind_follows_form (R := Unit) (D := Unit) (fun _ => .ok ()) (fun _ _ => ())
      "x".toList [] (by decide) (Or.inl rfl)).2 "5".toList (by decide) (by decide)
      (by decide)).1⟩

end KindByForm

section IntegerWidth

variable {R D : Type}

theorem toInteger_bounds (x : Int) : -2 ^ 31 ≤ toInteger x ∧ toInteger x < 2 ^ 31 := by
  unfold toInteger
  norm_num
  omega

theorem toInteger_eq_iff (x : Int) : toInteger x = x ↔ -2 ^ 31 ≤ x ∧ x < 2 ^ 31 := by
  constructor
  · intro h
    have := toInteger_bounds x
    rw [h] at this
    exact this
  · intro h
    exact toInteger_of_range x h.1 h.2

theorem toInteger_mul_one (v : Int) : toInteger (toInteger v * 1) = toInteger v := by
  unfold toInteger
  norm_num

theorem toInteger_mul_neg_one (v : Int) : toInteger (toInteger v * -1) = toInteger (-v) := by
  unfold toInteger
  norm_num
  omega

/-- The decimal rendering of `n` is a sign and the digits of the absolute value. -/
theorem integerLiteral_sign (plus : Bool) (n : Int) :
    ∃ sign : List Char, (sign = [] ∨ sign = ['+'] ∨ sign = ['-']) ∧
      integerLiteral plus n = sign ++ Nat.toDigits 10 n.natAbs ∧
      toInteger (toInteger (n.natAbs : Int) * signValue sign) = toInteger n := by
  unfold integerLiteral
  split
  · rename_i hneg
    refine ⟨['-'], Or.inr (Or.inr rfl), rfl, ?_⟩
    have hsv : signValue ['-'] = -1 := by decide
    have habs : -(n.natAbs : Int) = n := by omega
    rw [hsv, toInteger_mul_neg_one, habs]
  · rename_i hnn
    have habs : (n.natAbs : Int) = n := by omega
    split
    · refine ⟨['+'], Or.inr (Or.inl rfl), rfl, ?_⟩
      have hsv : signValue ['+'] = 1 := by decide
      rw [hsv, toInteger_mul_one, habs]
    · refine ⟨[], Or.inl rfl, rfl, ?_⟩
      have hsv : signValue [] = 1 := by decide
      rw [hsv, toInteger_mul_one, habs]

/-- What `parse_value` does on the decimal rendering of an integer that `std::stoll` can
convert: the value is narrowed to the 32-bit `integer_t`. -/
theorem integerLiteral_parse_value (stod : List Char → Except Err D) (scale : D → Int → R)
    (plus : Bool) (n : Int) (hn : n ≠ 0) (hlo : -2 ^ 63 < n) (hhi : n < 2 ^ 63)
    (rest : List Char) (hrest : ∀ c, rest.head? = some c → isDigit c = false ∧ c ≠ '.') :
    parse_value stod scale (integerLiteral plus n ++ rest) =
      .ok (.Integer (toInteger n), rest) := by
  obtain ⟨hne, hdig, hhead, _⟩ := toDigits_spec n.natAbs
  have hpos : 0 < n.natAbs := Int.natAbs_pos.mpr hn
  have habs : n.natAbs ≤ 2 ^ 63 - 1 := by
    norm_num at hlo hhi ⊢
    omega
  obtain ⟨sign, hsign, hlit, hval⟩ := integerLiteral_sign plus n
  rw [hlit, List.append_assoc,
    digits_parse_value stod scale sign _ rest hsign hne hdig (hhead hpos) hrest,
    stoll_toDigits n.natAbs habs]
  simp only [hval]

/-- Counterexample to C17 as stated: the lines `k = 2147483648` and `k = -3000000000`,
whose values lie strictly between `-2^63` and `2^63`, are accepted, and `k` is the
Integer `-2147483648` in the first case and `1294967296` in the second. -/
theorem integer_literal_wraps_at_32_bits :
    (-2 ^ 63 < (2147483648 : Int) ∧ (2147483648 : Int) < 2 ^ 63) ∧
    (-2 ^ 63 < (-3000000000 : Int) ∧ (-3000000000 : Int) < 2 ^ 63) ∧
    parse (R := Unit) (D := Unit) (fun _ => .ok ()) (fun _ _ => ())
      ["k = 2147483648".toList] = .ok [("k".toList, .Integer (-2147483648))] ∧
    valueAs (R := Unit) .integer_t "k".toList [("k".toList, .Integer (-2147483648))] =
      .ok (-2147483648) ∧
    parse (R := Unit) (D := Unit) (fun _ => .ok ()) (fun _ _ => ())
      ["k = -3000000000".toList] = .ok [("k".toList, .Integer 1294967296)] ∧
    valueAs (R := Unit) .integer_t "k".toList [("k".toList, .Integer 1294967296)] =
      .ok 1294967296 :=
  ⟨by decide, by decide, rfl, rfl, rfl, rfl⟩

/-- C17, amended: Integer values are stored as signed 32-bit numbers. For a key `k` and
an integer `n` other than zero with `-2^63 < n < 2^63`, the single line
`k = <n in decimal>` is accepted and `k` is the Integer `toInteger n`, the number in
`[-2^31, 2^31)` that differs from `n` by a multiple of `2^32`; it is `n` itself exactly
when `-2^31 ≤ n < 2^31`. -/
theorem integer_stored_in_32_bits (stod : List Char → Except Err D) (scale : D → Int → R)
    (k : List Char) (n : Int) (plus : Bool) (hk : isKey k = true) (hn : n ≠ 0)
    (hlo : -2 ^ 63 < n) (hhi : n < 2 ^ 63) :
    parse (R := R) stod scale [assignment k (integerLiteral plus n)] =
      .ok [(k, .Integer (toInteger n))] ∧
    valueIs (R := R) .integer_t k [(k, .Integer (toInteger n))] = true ∧
    valueAs (R := R) .integer_t k [(k, .Integer (toInteger n))] = .ok (toInteger n) ∧
    -2 ^ 31 ≤ toInteger n ∧ toInteger n < 2 ^ 31 ∧
    (∃ q : Int, toInteger n = n + q * 2 ^ 32) ∧
    (toInteger n = n ↔ -2 ^ 31 ≤ n ∧ n < 2 ^ 31) := by
  have hchars := integerLiteral_chars plus n
  have hhash : ∀ c ∈ integerLiteral plus n, c ≠ '#' :=
    fun c hc => (literal_char_plain c (hchars c hc)).1
  have hws : consumeWhitespace (integerLiteral plus n) = integerLiteral plus n := by
    apply consumeWhitespace_of_head
    intro c hc
    have := literal_char_plain c (hchars c (List.mem_of_mem_head? hc))
    exact ⟨this.2.1, this.2.2.1⟩
  have hv := integerLiteral_parse_value stod scale plus n hn hlo hhi [] (by simp)
  rw [List.append_nil] at hv
  have hp := parse_single_assignment (R := R) stod scale k _ hk hhash hws
  rw [hv] at hp
  refine ⟨hp, ?_, ?_, (toInteger_bounds n).1, (toInteger_bounds n).2, ?_,
    toInteger_eq_iff n⟩
  · simp [valueIs, Table.valueIs, Table.get, Value.is]
  · exact Table.valueAs_of_get .integer_t k _ (.Integer (toInteger n)) (toInteger n)
      (by simp [Table.get]) rfl
  · refine ⟨-((n + 2 ^ 31) / 2 ^ 32), ?_⟩
    unfold toInteger
    norm_num
    omega

/-- Instance of C17, amended: the line `k = 2147483647` gives `k` the value
`2147483647`. -/
theorem integer_stored_in_32_bits_witness :
    parse (R := Unit) (D := Unit) (fun _ => .ok ()) (fun _ _ => ())
      [assignment "k".toList (integerLiteral false 2147483647)] =
      .ok [("k".toList, .Integer (toInteger 2147483647))] ∧
    toInteger 2147483647 = 2147483647 :=
  ⟨(integer_stored_in_32_bits (R := Unit) (D := Unit) (fun _ => .ok ()) (fun _ _ => ())
      "k".toList 2147483647 false (by decide) (by decide) (by decide) (by decide)).1,
    by decide⟩

end IntegerWidth

section VisitorDispatch

variable {R σ : Type}

/-- A value has exactly one kind, and the cast to that kind gives its payload; `accept`
calls the overload of `visit` for that kind with that payload. -/
theorem Value.accept_kind (v : Visitor R σ) (val : Value R) :
    ∃ (T : Kind) (p : Payload R T), val.is T = true ∧ val.cast T = some p ∧
      (∀ T2 : Kind, val.is T2 = true → T2 = T) ∧ val.accept v = v.visit T p := by
  cases val with
  | Integer i =>
    exact ⟨.integer_t, i, by simp [Value.is], rfl,
      fun T2 h => by simpa [Value.is] using h, rfl⟩
  | Real r =>
    exact ⟨.real_t, r, by simp [Value.is], rfl,
      fun T2 h => by simpa [Value.is] using h, rfl⟩
  | String s =>
    exact ⟨.string_t, s, by simp [Value.is], rfl,
      fun T2 h => by simpa [Value.is] using h, rfl⟩
  | array_t arr =>
    exact ⟨.array_t, arr, by simp [Value.is], rfl,
      fun T2 h => by simpa [Value.is] using h, rfl⟩
  | table_t table =>
    exact ⟨.table_t, table, by simp [Value.is], rfl,
      fun T2 h => by simpa [Value.is] using h, rfl⟩

theorem Value.accept_recording (val : Value R) (log : List (Visited R)) :
    val.accept recordingVisitor log = log ++ [Visited.ofValue val] := by
  cases val <;> rfl

/-- C18: visiting a child calls exactly one overload of `visit`. For a table `t` and a key
`k`, `applyVisitorAt(v, k, t)` is the call of the overload for the kind of the value
stored under `k`, with that value's payload, when `t` contains `k`, and the call of
`visit(Null)` otherwise; a visitor that records its calls records exactly one. For an
array `a` and an index `i`, `applyVisitorAt(v, i, a)` is the call of the overload for the
kind of element `i`, with its payload, when `i < length(a)`, and the call of `visit(Null)`
when `i >= length(a)`; again exactly one call is recorded. -/
theorem visit_child_calls_one_case (v : Visitor R σ) (k : List Char) (t : Table R) (i : Nat)
    (a : List (Value R)) (log : List (Visited R)) :
    (∀ val : Value R, Table.get k t = some val →
      (∃ (T : Kind) (p : Payload R T), val.is T = true ∧ val.cast T = some p ∧
        (∀ T2 : Kind, val.is T2 = true → T2 = T) ∧
        applyVisitorAt v k t = v.visit T p) ∧
      applyVisitorAt recordingVisitor k t log = log ++ [Visited.ofValue val]) ∧
    (Table.contains k t = false →
      applyVisitorAt v k t = v.visit_Null ∧
      applyVisitorAt recordingVisitor k t log = log ++ [.Null]) ∧
    (∀ h : i < array_t.length a,
      (∃ (T : Kind) (p : Payload R T), (a.get ⟨i, h⟩).is T = true ∧
        (a.get ⟨i, h⟩).cast T = some p ∧
        (∀ T2 : Kind, (a.get ⟨i, h⟩).is T2 = true → T2 = T) ∧
        applyVisitorAtIndex v i a = v.visit T p) ∧
      applyVisitorAtIndex recordingVisitor i a log =
        log ++ [Visited.ofValue (a.get ⟨i, h⟩)]) ∧
    (array_t.length a ≤ i →
      applyVisitorAtIndex v i a = v.visit_Null ∧
      applyVisitorAtIndex recordingVisitor i a log = log ++ [.Null]) := by
  refine ⟨?_, ?_, ?_, ?_⟩
  · intro val hget
    have hv : ∀ (τ : Type) (w : Visitor R τ), applyVisitorAt w k t = val.accept w := by
      intro τ w
      simp only [applyVisitorAt, Table.acceptAt, hget]
    constructor
    · obtain ⟨T, p, h1, h2, h3, h4⟩ := Value.accept_kind v val
      exact ⟨T, p, h1, h2, h3, by rw [hv, h4]⟩
    · rw [hv, Value.accept_recording]
  · intro hc
    have hget : Table.get k t = none := by
      cases hg : Table.get k t with
      | none => rfl
      | some val => simp [Table.contains, hg] at hc
    have hv : ∀ (τ : Type) (w : Visitor R τ), applyVisitorAt w k t = w.visit_Null := by
      intro τ w
      simp only [applyVisitorAt, Table.acceptAt, hget]
    exact ⟨hv σ v, by rw [hv]; rfl⟩
  · intro h
    have hlt : i < a.length := h
    have hv : ∀ (τ : Type) (w : Visitor R τ),
        applyVisitorAtIndex w i a = (a.get ⟨i, h⟩).accept w := by
      intro τ w
      simp only [applyVisitorAtIndex, array_t.acceptAt, hlt, dif_pos]
    constructor
    · obtain ⟨T, p, h1, h2, h3, h4⟩ := Value.accept_kind v (a.get ⟨i, h⟩)
      exact ⟨T, p, h1, h2, h3, by rw [hv, h4]⟩
    · rw [hv, Value.accept_recording]
  · intro h
    have hge : ¬ i < a.length := by
      simp only [array_t.length] at h
      omega
    have hv : ∀ (τ : Type) (w : Visitor R τ),
        applyVisitorAtIndex w i a = w.visit_Null := by
      intro τ w
      simp only [applyVisitorAtIndex, array_t.acceptAt, hge, dif_neg, not_false_eq_true]
    exact ⟨hv σ v, by rw [hv]; rfl⟩

/-- Instance of C18: in the table with `x = 5`, visiting `x` records the one call
`visit(5)` and visiting `y` records the one call `visit(Null)`; in the array `[7]`,
visiting index 0 records `visit(7)` and visiting index 3 records `visit(Null)`. -/
theorem visit_child_calls_one_case_witness :
    applyVisitorAt (R := Unit) recordingVisitor "x".toList [("x".toList, .Integer 5)] [] =
      [] ++ [Visited.ofValue (.Integer 5)] ∧
    applyVisitorAt (R := Unit) recordingVisitor "y".toList [("x".toList, .Integer 5)] [] =
      [] ++ [.Null] ∧
    applyVisitorAtIndex (R := Unit) recordingVisitor 0 [.Integer 7] [] =
      [] ++ [Visited.ofValue (.Integer 7)] ∧
    applyVisitorAtIndex (R := Unit) recordingVisitor 3 [.Integer 7] [] = [] ++ [.Null] :=
  ⟨((visit_child_calls_one_case (R := Unit) recordingVisitor "x".toList
      [("x".toList, .Integer 5)] 0 [.Integer 7] []).1 (.Integer 5) (by simp [Table.get])).2,
    ((visit_child_calls_one_case (R := Unit) recordingVisitor "y".toList
      [("x".toList, .Integer 5)] 0 [.Integer 7] []).2.1 (by simp [Table.contains, Table.get])).2,
    ((visit_child_calls_one_case (R := Unit) recordingVisitor "y".toList
      [("x".toList, .Integer 5)] 0 [.Integer 7] []).2.2.1 (by decide)).2,
    ((visit_child_calls_one_case (R := Unit) recordingVisitor "y".toList
      [("x".toList, .Integer 5)] 3 [.Integer 7] []).2.2.2 (by decide)).2⟩

end VisitorDispatch

section ArrayAccess

variable {R : Type}

/-- Counterexample to C19 as stated: on the array `[1]`, which is shorter than 6,
`valueAs<string_t>(5, a)` ends in `MismatchType`, not in an out-of-range error. -/
theorem array_valueAs_mismatch_beyond_length :
    array_t.length (R := Unit) [.Integer 1] ≤ 5 ∧
    array_t.valueAs (R := Unit) .string_t 5 [.Integer 1] = .error .mismatchType ∧
    array_t.valueAs (R := Unit) .string_t 5 [.Integer 1] ≠ .error .outOfRange := by
  refine ⟨by decide, rfl, ?_⟩
  intro h
  have h2 : (Except.error Err.mismatchType : Except Err (Payload Unit .string_t)) =
      .error .outOfRange := h
  cases h2

/-- C19, amended: for an array `a`, an index `i` and a kind `T`, `valueAs<T>(i, a)`
returns a value only when `i < length(a)` and element 0 has kind `T`, and the value is
then the payload of element `i`; it does return when moreover element `i` has kind `T`.
It raises `MismatchType` when `a` is not empty and element 0 is not of kind `T`, whatever
`i` and the kind of element `i`. It ends in `std::out_of_range` when `a` is empty, and when
`i >= length(a)` and element 0 has kind `T`. When `i >= length(a)` it never returns a
value. -/
theorem array_valueAs_outcomes (T : Kind) (i : Nat) (a : List (Value R)) :
    (∀ p : Payload R T, array_t.valueAs T i a = .ok p →
      ∃ h : i < array_t.length a,
        (∃ e0 : Value R, a[0]? = some e0 ∧ e0.is T = true) ∧
        (a.get ⟨i, h⟩).cast T = some p) ∧
    (∀ h : i < array_t.length a, (∃ e0 : Value R, a[0]? = some e0 ∧ e0.is T = true) →
      (a.get ⟨i, h⟩).is T = true →
      ∃ p : Payload R T, array_t.valueAs T i a = .ok p ∧ (a.get ⟨i, h⟩).cast T = some p) ∧
    (∀ e0 : Value R, a[0]? = some e0 → e0.is T = false →
      array_t.valueAs T i a = .error .mismatchType) ∧
    (a = [] → array_t.valueAs T i a = .error .outOfRange) ∧
    (array_t.length a ≤ i → ∀ e0 : Value R, a[0]? = some e0 → e0.is T = true →
      array_t.valueAs T i a = .error .outOfRange) ∧
    (array_t.length a ≤ i → ∀ p : Payload R T, array_t.valueAs T i a ≠ .ok p) := by
  have hret : ∀ p : Payload R T, array_t.valueAs T i a = .ok p →
      ∃ h : i < array_t.length a,
        (∃ e0 : Value R, a[0]? = some e0 ∧ e0.is T = true) ∧
        (a.get ⟨i, h⟩).cast T = some p := by
    intro p hp
    unfold array_t.valueAs array_t.arrayIs at hp
    cases h0 : a[0]? with
    | none => simp [h0] at hp
    | some e0 =>
      simp only [h0] at hp
      cases hk : e0.is T with
      | false => simp [hk] at hp
      | true =>
        simp only [hk] at hp
        cases hi : a[i]? with
        | none => simp [hi] at hp
        | some val =>
          simp only [hi] at hp
          obtain ⟨hlt, hval⟩ := List.getElem?_eq_some_iff.mp hi
          cases hc : val.cast T with
          | none => simp [hc] at hp
          | some q =>
            simp only [hc, Except.ok.injEq] at hp
            refine ⟨hlt, ⟨e0, rfl, hk⟩, ?_⟩
            have hg : a.get ⟨i, hlt⟩ = val := hval
            rw [hg, hc, hp]
  refine ⟨hret, ?_, ?_, ?_, ?_, ?_⟩
  · rintro h ⟨e0, h0, hk⟩ hik
    obtain ⟨p, hp⟩ := Value.cast_of_is T _ hik
    refine ⟨p, ?_, hp⟩
    have hi : a[i]? = some (a.get ⟨i, h⟩) := List.getElem?_eq_some_iff.mpr ⟨h, rfl⟩
    simp only [array_t.valueAs, array_t.arrayIs, h0, hk, hi, hp]
  · intro e0 h0 hk
    simp only [array_t.valueAs, array_t.arrayIs, h0, hk]
  · intro ha
    subst ha
    rfl
  · intro hlen e0 h0 hk
    have hi : a[i]? = none := List.getElem?_eq_none_iff.mpr hlen
    simp only [array_t.valueAs, array_t.arrayIs, h0, hk, hi]
  · intro hlen p hp
    obtain ⟨h, _⟩ := hret p hp
    simp only [array_t.length] at hlen h
    omega

/-- Instance of C19, amended: on the array `[1, 2]`, `valueAs<integer_t>(1, a)` returns
2. -/
theorem array_valueAs_outcomes_witness :
    ∃ p : Payload Unit .integer_t,
      array_t.valueAs (R := Unit) .integer_t 1 [.Integer 1, .Integer 2] = .ok p ∧
      (([.Integer 1, .Integer 2] : List (Value Unit)).get ⟨1, by decide⟩).cast .integer_t =
        some p :=
  (array_valueAs_outcomes (R := Unit) .integer_t 1 [.Integer 1, .Integer 2]).2.1
    (by decide) ⟨.Integer 1, rfl, rfl⟩ rfl

end ArrayAccess

section RealDigits

variable {R D : Type}

theorem realLiteral_plain (sign ds1 ds2 : List Char)
    (hsign : sign = [] ∨ sign = ['+'] ∨ sign = ['-'])
    (hds1 : ∀ c ∈ ds1, isDigit c = true) (hds2 : ∀ c ∈ ds2, isDigit c = true) :
    ∀ c ∈ realLiteral sign ds1 ds2, c ≠ '#' ∧ c ≠ ' ' ∧ c ≠ '\t' := by
  intro c hc
  simp only [realLiteral, List.mem_append, List.mem_cons] at hc
  have hlit : ∀ x : Char, (x = '+' ∨ x = '-' ∨ isDigit x = true) →
      x ≠ '#' ∧ x ≠ ' ' ∧ x ≠ '\t' := by
    intro x hx
    have := literal_char_plain x hx
    exact ⟨this.1, this.2.1, this.2.2.1⟩
  rcases hc with h | h | h | h
  · rcases hsign with rfl | rfl | rfl
    · simp at h
    · simp only [List.mem_singleton] at h; exact hlit c (Or.inl h)
    · simp only [List.mem_singleton] at h; exact hlit c (Or.inr (Or.inl h))
  · exact hlit c (Or.inr (Or.inr (hds1 c h)))
  · subst h; decide
  · exact hlit c (Or.inr (Or.inr (hds2 c h)))

/-- What `parse` does on the one line `k = w` for a literal `w` with a point and at least
one digit: it hands the text without the sign to `std::stod`. -/
theorem parse_real_assignment (stod : List Char → Except Err D) (scale : D → Int → R)
    (k sign ds1 ds2 : List Char) (hk : isKey k = true)
    (hsign : sign = [] ∨ sign = ['+'] ∨ sign = ['-'])
    (hds1 : ∀ c ∈ ds1, isDigit c = true) (hds2 : ∀ c ∈ ds2, isDigit c = true)
    (hne : ds1 ≠ [] ∨ ds2 ≠ []) :
    parse (R := R) stod scale [assignment k (realLiteral sign ds1 ds2)] =
      match stod (ds1 ++ '.' :: ds2) with
      | .error err => .error err
      | .ok r => .ok [(k, .Real (scale r (signValue sign)))] := by
  have hnb := realLiteral_plain sign ds1 ds2 hsign hds1 hds2
  have hws : consumeWhitespace (realLiteral sign ds1 ds2) = realLiteral sign ds1 ds2 := by
    apply consumeWhitespace_of_head
    intro c hc
    have := hnb c (List.mem_of_mem_head? hc)
    exact ⟨this.2.1, this.2.2⟩
  have hv := realLiteral_parse_value stod scale sign ds1 ds2 [] hsign hds1 hds2 hne (by simp)
  rw [List.append_nil] at hv
  have hp := parse_single_assignment (R := R) stod scale k _ hk
    (fun c hc => (hnb c hc).1) hws
  rw [hv] at hp
  rw [hp]
  cases stod (ds1 ++ '.' :: ds2) with
  | error e => rfl
  | ok r => rfl

/-- Counterexample to C20 as stated: with a `std::stod` that converts the text, the lines
`x = 5.` and `x = .5` are accepted and make `x` a Real. -/
theorem real_with_one_digit_run_accepted :
    parse (R := Unit) (D := Unit) (fun _ => .ok ()) (fun _ _ => ()) ["x = 5.".toList] =
      .ok [("x".toList, .Real ())] ∧
    parse (R := Unit) (D := Unit) (fun _ => .ok ()) (fun _ _ => ()) ["x = .5".toList] =
      .ok [("x".toList, .Real ())] ∧
    valueIs (R := Unit) .real_t "x".toList [("x".toList, .Real ())] = true :=
  ⟨rfl, rfl, rfl⟩

/-- C20, amended: a value literal with a point is read as a Real as soon as one digit
stands before or after the point. For a key `k`, an optional sign and a non-empty digit
run `d`, the lines `k = d.` and `k = .d` end the way `std::stod` ends on `d.` and on `.d`:
with its exception, or accepted with `k` a Real; in no case with `ParseException` unless
`std::stod` throws it. Only the point without any digit, `k = .`, is rejected with
`ParseException`. -/
theorem real_needs_one_digit (stod : List Char → Except Err D) (scale : D → Int → R)
    (k sign : List Char) (hk : isKey k = true)
    (hsign : sign = [] ∨ sign = ['+'] ∨ sign = ['-']) :
    (∀ d : List Char, d ≠ [] → (∀ c ∈ d, isDigit c = true) →
      parse (R := R) stod scale [assignment k (realLiteral sign d [])] =
        (match stod (d ++ ['.']) with
          | .error err => .error err
          | .ok r => .ok [(k, .Real (scale r (signValue sign)))]) ∧
      parse (R := R) stod scale [assignment k (realLiteral sign [] d)] =
        (match stod ('.' :: d) with
          | .error err => .error err
          | .ok r => .ok [(k, .Real (scale r (signValue sign)))]) ∧
      (stod (d ++ ['.']) ≠ .error .parseException →
        parse (R := R) stod scale [assignment k (realLiteral sign d [])] ≠
          .error .parseException) ∧
      (stod ('.' :: d) ≠ .error .parseException →
        parse (R := R) stod scale [assignment k (realLiteral sign [] d)] ≠
          .error .parseException)) ∧
    parse (R := R) stod scale [assignment k (realLiteral sign [] [])] =
      .error .parseException := by
  constructor
  · intro d hne hd
    have h1 := parse_real_assignment (R := R) stod scale k sign d [] hk hsign hd
      (by simp) (Or.inl hne)
    have h2 := parse_real_assignment (R := R) stod scale k sign [] d hk hsign
      (by simp) hd (Or.inr hne)
    rw [List.nil_append] at h2
    refine ⟨h1, h2, ?_, ?_⟩
    · intro hs
      rw [h1]
      cases hst : stod (d ++ ['.']) with
      | error e =>
        intro hcontra
        simp only [Except.error.injEq] at hcontra
        rw [hst, hcontra] at hs
        exact hs rfl
      | ok r =>
        intro hcontra
        cases hcontra
    · intro hs
      rw [h2]
      cases hst : stod ('.' :: d) with
      | error e =>
        intro hcontra
        simp only [Except.error.injEq] at hcontra
        rw [hst, hcontra] at hs
        exact hs rfl
      | ok r =>
        intro hcontra
        cases hcontra
  · have hnb := realLiteral_plain sign [] [] hsign (by simp) (by simp)
    have hws : consumeWhitespace (realLiteral sign [] []) = realLiteral sign [] [] := by
      apply consumeWhitespace_of_head
      intro c hc
      have := hnb c (List.mem_of_mem_head? hc)
      exact ⟨this.2.1, this.2.2⟩
    have hp := parse_single_assignment (R := R) stod scale k _ hk
      (fun c hc => (hnb c hc).1) hws
    rw [hp]
    rcases hsign with rfl | rfl | rfl <;> rfl

/-- Instance of C20, amended: with a `std::stod` that converts the text, `x = 12.` and
`x = .12` make `x` a Real, and `x = .` is rejected with `ParseException`. -/
theorem real_needs_one_digit_witness :
    (parse (R := Unit) (D := Unit) (fun _ => .ok ()) (fun _ _ => ())
        [assignment "x".toList (realLiteral [] "12".toList [])] =
        .ok [("x".toList, .Real ())] ∧
      parse (R := Unit) (D := Unit) (fun _ => .ok ()) (fun _ _ => ())
        [assignment "x".toList (realLiteral [] [] "12".toList)] =
        .ok [("x".toList, .Real ())]) ∧
    parse (R := Unit) (D := Unit) (fun _ => .ok ()) (fun _ _ => ())
      [assignment "x".toList (realLiteral [] [] [])] = .error .parseException :=
  ⟨⟨((real_needs_one_digit (R := Unit) (D := Unit) (fun _ => .ok ()) (fun _ _ => ())
        "x".toList [] (by decide) (Or.inl rfl)).1 "12".toList (by decide) (by decide)).1,
      ((real_needs_one_digit (R := Unit) (D := Unit) (fun _ => .ok ()) (fun _ _ => ())
        "x".toList [] (by decide) (Or.inl rfl)).1 "12".toList (by decide) (by decide)).2.1⟩,
    (real_needs_one_digit (R := Unit) (D := Unit) (fun _ => .ok ()) (fun _ _ => ())
      "x".toList [] (by decide) (Or.inl rfl)).2⟩

end RealDigits

section AddValue

variable {R : Type}

theorem Table.get_append_single_other (k key : List Char) (val : Value R) (t : Table R)
    (hne : k ≠ key) : Table.get k (t ++ [(key, val)]) = Table.get k t := by
  induction t with
  | nil =>
    simp only [List.nil_append, Table.get]
    rw [if_neg (fun h => hne h.symm)]
  | cons kv rest ih =>
    obtain ⟨k2, v2⟩ := kv
    simp only [List.cons_append, Table.get]
    split
    · rfl
    · exact ih

/-- C27: `table_t::addValue` never overwrites and never fails. If `t` contains `k`, the
table after `addValue(k, v)` is `t` itself: same length, `k` still maps to its previous
value. If `t` does not contain `k`, the table afterwards contains `k`, `k` maps to `v`,
the length has grown by exactly 1, and every other key maps to what it mapped to
before. -/
theorem addValue_never_overwrites (t : Table R) (k : List Char) (v : Value R) :
    (Table.contains k t = true →
      Table.addValue k v t = t ∧
      Table.length (Table.addValue k v t) = Table.length t ∧
      Table.get k (Table.addValue k v t) = Table.get k t) ∧
    (Table.contains k t = false →
      Table.contains k (Table.addValue k v t) = true ∧
      Table.get k (Table.addValue k v t) = some v ∧
      Table.length (Table.addValue k v t) = Table.length t + 1 ∧
      ∀ k2 : List Char, k2 ≠ k →
        Table.get k2 (Table.addValue k v t) = Table.get k2 t ∧
        Table.contains k2 (Table.addValue k v t) = Table.contains k2 t) := by
  constructor
  · intro hc
    have h : Table.addValue k v t = t := by
      simp only [Table.addValue, hc, if_true]
    rw [h]
    exact ⟨rfl, rfl, rfl⟩
  · intro hc
    have h := Table.addValue_of_new k v t hc
    have hnone := (Table.contains_eq_false_iff k t).mp hc
    have hget : Table.get k (t ++ [(k, v)]) = some v := by
      rw [Table.get_append_of_none k t _ hnone]
      simp [Table.get]
    rw [h]
    refine ⟨?_, hget, ?_, ?_⟩
    · simp only [Table.contains, hget, Option.isSome_some]
    · simp [Table.length]
    · intro k2 hk2
      have hg := Table.get_append_single_other k2 k v t hk2
      exact ⟨hg, by simp only [Table.contains, hg]⟩

/-- Instance of C27: adding `x` to the table with `x = 1` changes nothing, and adding `y`
makes the table one longer. -/
theorem addValue_never_overwrites_witness :
    Table.addValue (R := Unit) "x".toList (.Integer 2) [("x".toList, .Integer 1)] =
      [("x".toList, .Integer 1)] ∧
    Table.length (Table.addValue (R := Unit) "y".toList (.Integer 2)
      [("x".toList, .Integer 1)]) = Table.length [("x".toList, (.Integer 1 : Value Unit))] + 1 :=
  ⟨((addValue_never_overwrites (R := Unit) [("x".toList, .Integer 1)] "x".toList
      (.Integer 2)).1 (by simp [Table.contains, Table.get])).1,
    ((addValue_never_overwrites (R := Unit) [("x".toList, .Integer 1)] "y".toList
      (.Integer 2)).2 (by simp [Table.contains, Table.get])).2.2.1⟩

end AddValue

section Classifiers

variable {R D : Type}

/-- When `isInteger` returns true, the text starts with a sign or a digit. -/
theorem isInteger_true_head (c : Char) (rest : List Char)
    (h : isInteger (c :: rest) = .ok true) :
    c = '+' ∨ c = '-' ∨ isDigit c = true := by
  by_cases hs : (c == '+' || c == '-') = true
  · simp only [Bool.or_eq_true, beq_iff_eq] at hs
    rcases hs with hs | hs
    · exact Or.inl hs
    · exact Or.inr (Or.inl hs)
  · right; right
    have hs2 : (c == '+' || c == '-') = false := by simpa using hs
    cases hd : isDigit c with
    | true => rfl
    | false =>
      exfalso
      have hf := forward_cons_of_false isDigit c rest hd
      simp only [isInteger, hs2, Bool.false_eq_true, if_false, hf, between_self] at h
      split at h
      · simp at h
      · split at h
        · simp at h
        · simp at h

/-- When `isReal` returns true, the text starts with a sign, a digit or a point. -/
theorem isReal_true_head (c : Char) (rest : List Char)
    (h : isReal (c :: rest) = .ok true) :
    c = '+' ∨ c = '-' ∨ isDigit c = true ∨ c = '.' := by
  by_cases hs : (c == '+' || c == '-') = true
  · simp only [Bool.or_eq_true, beq_iff_eq] at hs
    rcases hs with hs | hs
    · exact Or.inl hs
    · exact Or.inr (Or.inl hs)
  · right; right
    have hs2 : (c == '+' || c == '-') = false := by simpa using hs
    cases hd : isDigit c with
    | true => exact Or.inl rfl
    | false =>
      right
      have hf := forward_cons_of_false isDigit c rest hd
      simp only [isReal, hs2, Bool.false_eq_true, if_false, hf] at h
      by_contra hne
      have : (c != '.') = true := by simpa using hne
      simp [this] at h

theorem isString_true_head (c : Char) (rest : List Char)
    (h : isString (c :: rest) = .ok true) : c = '"' := by
  by_contra hne
  have : (c != '"') = true := by simpa using hne
  simp [isString, this] at h

theorem isArray_true_head (c : Char) (rest : List Char)
    (h : isArray (c :: rest) = .ok true) : c = '[' := by
  by_contra hne
  have : (c != '[') = true := by simpa using hne
  simp [isArray, this] at h

/-- The classifiers `isInteger` and `isReal` are never both true. -/
theorem isInteger_isReal_exclusive (it : List Char) (h1 : isInteger it = .ok true)
    (h2 : isReal it = .ok true) : False := by
  cases it with
  | nil => simp [isInteger] at h1
  | cons c rest =>
    simp only [isInteger] at h1
    simp only [isReal] at h2
    generalize (if (c == '+' || c == '-') = true then rest else c :: rest) = y at h1 h2
    cases y with
    | nil => simp at h1
    | cons d ds =>
      simp only at h1 h2
      split at h1
      · simp at h1
      · generalize forward isDigit (d :: ds) = z at h1 h2
        cases z with
        | nil => simp at h2
        | cons e es =>
          simp only at h2
          split at h2
          · simp at h2
          · rename_i hdot
            have he : e = '.' := by simpa using hdot
            subst he
            simp at h1

/-- C23: the four classifiers exclude one another. On every text that is not empty, each
of `isInteger`, `isReal`, `isString` and `isArray` returns, and at most one of them
returns true; so whichever classifier is true decides the parser that `parse_value` calls,
whatever the order in which they are tried. -/
theorem classifiers_exclusive (stod : List Char → Except Err D) (scale : D → Int → R)
    (it : List Char) (hne : it ≠ []) :
    (∃ b1 b2 b3 b4 : Bool, isInteger it = .ok b1 ∧ isReal it = .ok b2 ∧
      isString it = .ok b3 ∧ isArray it = .ok b4 ∧
      (b1 = true → b2 = false ∧ b3 = false ∧ b4 = false) ∧
      (b2 = true → b1 = false ∧ b3 = false ∧ b4 = false) ∧
      (b3 = true → b1 = false ∧ b2 = false ∧ b4 = false) ∧
      (b4 = true → b1 = false ∧ b2 = false ∧ b3 = false)) ∧
    (isInteger it = .ok true → parse_value stod scale it = parse_integer it) ∧
    (isReal it = .ok true → parse_value stod scale it = parse_real stod scale it) ∧
    (isString it = .ok true → parse_value stod scale it = parse_string it) ∧
    (isArray it = .ok true →
      parse_value stod scale it = parse_array stod scale (it.length + 1) it) := by
  cases it with
  | nil => exact absurd rfl hne
  | cons c rest =>
    have hex1 : ∃ b, isInteger (c :: rest) = .ok b := by
      simp only [isInteger]
      generalize (if (c == '+' || c == '-') = true then rest else c :: rest) = y
      cases y with
      | nil => exact ⟨_, rfl⟩
      | cons d ds =>
        simp only
        split
        · exact ⟨_, rfl⟩
        · split <;> exact ⟨_, rfl⟩
    have hex2 : ∃ b, isReal (c :: rest) = .ok b := by
      simp only [isReal]
      generalize (if (c == '+' || c == '-') = true then rest else c :: rest) = y
      cases y with
      | nil => exact ⟨_, rfl⟩
      | cons d ds =>
        simp only
        split
        · exact ⟨_, rfl⟩
        · split <;> exact ⟨_, rfl⟩
    have hex3 : ∃ b, isString (c :: rest) = .ok b := by
      simp only [isString]
      split <;> exact ⟨_, rfl⟩
    have hex4 : ∃ b, isArray (c :: rest) = .ok b := by
      simp only [isArray]
      split
      · exact ⟨_, rfl⟩
      · split <;> exact ⟨_, rfl⟩
    obtain ⟨b1, e1⟩ := hex1
    obtain ⟨b2, e2⟩ := hex2
    obtain ⟨b3, e3⟩ := hex3
    obtain ⟨b4, e4⟩ := hex4
    have hplain : ∀ x : Char, (x = '+' ∨ x = '-' ∨ isDigit x = true ∨ x = '.') →
        x ≠ '"' ∧ x ≠ '[' := by
      intro x hx
      rcases hx with h | h | h | h
      · subst h; decide
      · subst h; decide
      · constructor <;> rintro rfl <;> simp [isDigit] at h
      · subst h; decide
    have n12 : ¬ (b1 = true ∧ b2 = true) := by
      rintro ⟨rfl, rfl⟩
      exact isInteger_isReal_exclusive _ e1 e2
    have n13 : ¬ (b1 = true ∧ b3 = true) := by
      rintro ⟨rfl, rfl⟩
      have ha := isInteger_true_head c rest e1
      have hb := isString_true_head c rest e3
      exact (hplain c (by tauto)).1 hb
    have n14 : ¬ (b1 = true ∧ b4 = true) := by
      rintro ⟨rfl, rfl⟩
      have ha := isInteger_true_head c rest e1
      have hb := isArray_true_head c rest e4
      exact (hplain c (by tauto)).2 hb
    have n23 : ¬ (b2 = true ∧ b3 = true) := by
      rintro ⟨rfl, rfl⟩
      have ha := isReal_true_head c rest e2
      have hb := isString_true_head c rest e3
      exact (hplain c ha).1 hb
    have n24 : ¬ (b2 = true ∧ b4 = true) := by
      rintro ⟨rfl, rfl⟩
      have ha := isReal_true_head c rest e2
      have hb := isArray_true_head c rest e4
      exact (hplain c ha).2 hb
    have n34 : ¬ (b3 = true ∧ b4 = true) := by
      rintro ⟨rfl, rfl⟩
      have ha := isString_true_head c rest e3
      have hb := isArray_true_head c rest e4
      rw [ha] at hb
      exact absurd hb (by decide)
    refine ⟨⟨b1, b2, b3, b4, e1, e2, e3, e4, ?_, ?_, ?_, ?_⟩, ?_, ?_, ?_, ?_⟩
    · intro h
      cases b2 <;> cases b3 <;> cases b4 <;> simp_all
    · intro h
      cases b1 <;> cases b3 <;> cases b4 <;> simp_all
    · intro h
      cases b1 <;> cases b2 <;> cases b4 <;> simp_all
    · intro h
      cases b1 <;> cases b2 <;> cases b3 <;> simp_all
    · intro h
      simp only [parse_value, h]
    · intro h
      rw [e2] at h
      have hb2 : b2 = true := by simpa using h
      have hb1 : b1 = false := by
        cases b1
        · rfl
        · exact absurd ⟨rfl, hb2⟩ n12
      subst hb1 hb2
      simp only [parse_value, e1, e2]
    · intro h
      rw [e3] at h
      have hb3 : b3 = true := by simpa using h
      have hb1 : b1 = false := by
        cases b1
        · rfl
        · exact absurd ⟨rfl, hb3⟩ n13
      have hb2 : b2 = false := by
        cases b2
        · rfl
        · exact absurd ⟨rfl, hb3⟩ n23
      subst hb1 hb2 hb3
      simp only [parse_value, e1, e2, e3]
    · intro h
      rw [e4] at h
      have hb4 : b4 = true := by simpa using h
      have hb1 : b1 = false := by
        cases b1
        · rfl
        · exact absurd ⟨rfl, hb4⟩ n14
      have hb2 : b2 = false := by
        cases b2
        · rfl
        · exact absurd ⟨rfl, hb4⟩ n24
      have hb3 : b3 = false := by
        cases b3
        · rfl
        · exact absurd ⟨rfl, hb4⟩ n34
      subst hb1 hb2 hb3 hb4
      simp only [parse_value, e1, e2, e3, e4]

/-- Instance of C23: on the text `1.5` only `isReal` is true. -/
theorem classifiers_exclusive_witness :
    ∃ b1 b2 b3 b4 : Bool, isInteger "1.5".toList = .ok b1 ∧ isReal "1.5".toList = .ok b2 ∧
      isString "1.5".toList = .ok b3 ∧ isArray "1.5".toList = .ok b4 ∧
      (b1 = true → b2 = false ∧ b3 = false ∧ b4 = false) ∧
      (b2 = true → b1 = false ∧ b3 = false ∧ b4 = false) ∧
      (b3 = true → b1 = false ∧ b2 = false ∧ b4 = false) ∧
      (b4 = true → b1 = false ∧ b2 = false ∧ b3 = false) :=
  (classifiers_exclusive (R := Unit) (D := Unit) (fun _ => .ok ()) (fun _ _ => ())
    "1.5".toList (by decide)).1

end Classifiers

section JunkBeforeEquals

variable {R D : Type}

theorem eraseComment_append_of_no_hash (a b : List Char) (h : ∀ c ∈ a, c ≠ '#') :
    eraseComment (a ++ b) = a ++ eraseComment b := by
  induction a with
  | nil => rfl
  | cons x xs ih =>
    have hx : (x == '#') = false := by simpa using h x (List.mem_cons_self x xs)
    have := ih (fun c hc => h c (List.mem_cons_of_mem x hc))
    simp only [List.cons_append, eraseComment, hx, Bool.false_eq_true, if_false]
    exact congrArg (List.cons x) this

/-- When `parse_line` does the same on two lines in every state, `parse_lines` does the
same on two inputs that differ by these lines. -/
theorem parse_lines_congr_line (stod : List Char → Except Err D) (scale : D → Int → R)
    (l1 l2 : List Char)
    (h : ∀ st : ParserState R, parse_line stod scale st l1 = parse_line stod scale st l2)
    (pre post : List (List Char)) :
    ∀ st : ParserState R, parse_lines stod scale st (pre ++ l1 :: post) =
      parse_lines stod scale st (pre ++ l2 :: post) := by
  induction pre with
  | nil =>
    intro st
    simp only [List.nil_append, parse_lines, h st]
  | cons l ls ih =>
    intro st
    simp only [List.cons_append, parse_lines]
    cases parse_line stod scale st l with
    | error e => rfl
    | ok st1 => exact ih st1

/-- What `parse_key` and the two steps after it do on `k`, a blank, a text without `=`
and then `= w2`: the key is `k` and the text is skipped. -/
theorem parse_line_junk (stod : List Char → Except Err D) (scale : D → Int → R)
    (st : ParserState R) (k j w : List Char) (hk : isKey k = true)
    (hj : ∀ c ∈ j, c ≠ '=' ∧ c ≠ '#') :
    parse_line stod scale st (k ++ ' ' :: assignment j w) =
      parse_line stod scale st (assignment k w) := by
  obtain ⟨c, cs, rfl, hc1, hc2, hc3, hc4, hc5⟩ := isKey_cons k hk
  have hall := isKey_all (c :: cs) hk
  have hpre1 : ∀ d ∈ (c :: cs) ++ ' ' :: (j ++ [' ', '=', ' ']), d ≠ '#' := by
    intro d hd
    rcases List.mem_append.mp hd with h | h
    · exact (hall d h).2.2.2
    · simp only [List.mem_append, List.mem_cons, List.mem_singleton, List.not_mem_nil,
        or_false] at h
      rcases h with h | h | h | h | h
      · subst h; decide
      · exact (hj d h).2
      · subst h; decide
      · subst h; decide
      · subst h; decide
  have hpre2 : ∀ d ∈ (c :: cs) ++ [' ', '=', ' '], d ≠ '#' := by
    intro d hd
    rcases List.mem_append.mp hd with h | h
    · exact (hall d h).2.2.2
    · simp only [List.mem_cons, List.mem_singleton, List.not_mem_nil, or_false] at h
      rcases h with h | h | h
      · subst h; decide
      · subst h; decide
      · subst h; decide
  have hl1 : (c :: cs) ++ ' ' :: assignment j w =
      ((c :: cs) ++ ' ' :: (j ++ [' ', '=', ' '])) ++ w := by
    simp [assignment]
  have hl2 : assignment (c :: cs) w = ((c :: cs) ++ [' ', '=', ' ']) ++ w := by
    simp [assignment]
  have he1 := eraseComment_append_of_no_hash _ w hpre1
  have he2 := eraseComment_append_of_no_hash _ w hpre2
  have hkey : ∀ d ∈ c :: cs, (d != ' ' && d != '\t' && d != '=') = true := by
    intro d hd
    have := hall d hd
    simp [this.1, this.2.1, this.2.2.1]
  have hf1 : forward (fun c => c != ' ' && c != '\t' && c != '=')
      ((c :: cs) ++ ' ' :: (j ++ ' ' :: '=' :: ' ' :: eraseComment w)) =
      ' ' :: (j ++ ' ' :: '=' :: ' ' :: eraseComment w) := by
    rw [forward_append_of_all _ _ _ hkey]
    rfl
  have hf2 : forward (fun c => c != ' ' && c != '\t' && c != '=')
      ((c :: cs) ++ ' ' :: '=' :: ' ' :: eraseComment w) =
      ' ' :: '=' :: ' ' :: eraseComment w := by
    rw [forward_append_of_all _ _ _ hkey]
    rfl
  have hb1 : between ((c :: cs) ++ ' ' :: (j ++ ' ' :: '=' :: ' ' :: eraseComment w))
      (' ' :: (j ++ ' ' :: '=' :: ' ' :: eraseComment w)) = c :: cs := between_append _ _
  have hb2 : between ((c :: cs) ++ ' ' :: '=' :: ' ' :: eraseComment w)
      (' ' :: '=' :: ' ' :: eraseComment w) = c :: cs := between_append _ _
  have hg1 : forward (fun c => c != '=') (' ' :: (j ++ ' ' :: '=' :: ' ' :: eraseComment w)) =
      '=' :: ' ' :: eraseComment w := by
    have hj2 : ∀ d ∈ ' ' :: (j ++ [' ']), (d != '=') = true := by
      intro d hd
      simp only [List.mem_cons, List.mem_append, List.mem_singleton, List.not_mem_nil,
        or_false] at hd
      rcases hd with hd | hd | hd
      · subst hd; decide
      · simpa using (hj d hd).1
      · subst hd; decide
    have happ : ' ' :: (j ++ ' ' :: '=' :: ' ' :: eraseComment w) =
        (' ' :: (j ++ [' '])) ++ '=' :: ' ' :: eraseComment w := by simp
    rw [happ, forward_append_of_all _ _ _ hj2]
    rfl
  have hg2 : forward (fun c => c != '=') (' ' :: '=' :: ' ' :: eraseComment w) =
      '=' :: ' ' :: eraseComment w := rfl
  have hb : (c == '[') = false := by simpa using hc5
  have hcw : ∀ x : List Char, consumeWhitespace (c :: x) = c :: x :=
    fun x => consumeWhitespace_cons_of_not_blank c x hc1 hc2
  have hA : parse_key (c :: (cs ++ ' ' :: (j ++ ' ' :: '=' :: ' ' :: eraseComment w))) st =
      parse_key (c :: (cs ++ ' ' :: '=' :: ' ' :: eraseComment w)) st := by
    have hf1' : forward (fun c => c != ' ' && c != '\t' && c != '=')
        (c :: (cs ++ ' ' :: (j ++ ' ' :: '=' :: ' ' :: eraseComment w))) =
        ' ' :: (j ++ ' ' :: '=' :: ' ' :: eraseComment w) := hf1
    have hf2' : forward (fun c => c != ' ' && c != '\t' && c != '=')
        (c :: (cs ++ ' ' :: '=' :: ' ' :: eraseComment w)) =
        ' ' :: '=' :: ' ' :: eraseComment w := hf2
    have hb1' : between (c :: (cs ++ ' ' :: (j ++ ' ' :: '=' :: ' ' :: eraseComment w)))
        (' ' :: (j ++ ' ' :: '=' :: ' ' :: eraseComment w)) = c :: cs := hb1
    have hb2' : between (c :: (cs ++ ' ' :: '=' :: ' ' :: eraseComment w))
        (' ' :: '=' :: ' ' :: eraseComment w) = c :: cs := hb2
    simp only [parse_key, hf1', hf2', hb1', hb2', hg1, hg2]
  have hL1 : eraseComment ((c :: cs) ++ ' ' :: assignment j w) =
      c :: (cs ++ ' ' :: (j ++ ' ' :: '=' :: ' ' :: eraseComment w)) := by
    rw [hl1, he1]; simp
  have hL2 : eraseComment (assignment (c :: cs) w) =
      c :: (cs ++ ' ' :: '=' :: ' ' :: eraseComment w) := by
    rw [hl2, he2]; simp
  simp only [parse_line, hL1, hL2, hcw, hb, Bool.false_eq_true, if_false, parse_key_eq_value,
    hA]

/-- C25: in an assignment line the key is the run of characters up to the first blank, tab
or `=`, and what stands between the key and the first `=` is skipped unchecked. For a
key `k` and a text `j` without `=` and `#`, the line `k j = w` is read in every state the
way the line `k = w` is read, so an input with the one line in place of the other has the
same outcome; and `k j = 5` alone is accepted and gives the root with the one key `k`,
the Integer 5. -/
theorem junk_before_equals_skipped (stod : List Char → Except Err D) (scale : D → Int → R)
    (k j : List Char) (hk : isKey k = true) (hj : ∀ c ∈ j, c ≠ '=' ∧ c ≠ '#') :
    (∀ (st : ParserState R) (w : List Char),
      parse_line stod scale st (k ++ ' ' :: assignment j w) =
        parse_line stod scale st (assignment k w)) ∧
    (∀ (pre post : List (List Char)) (w : List Char),
      parse (R := R) stod scale (pre ++ (k ++ ' ' :: assignment j w) :: post) =
        parse stod scale (pre ++ assignment k w :: post)) ∧
    parse (R := R) stod scale [k ++ ' ' :: assignment j "5".toList] =
      .ok [(k, .Integer 5)] ∧
    parse (R := R) stod scale [assignment k "5".toList] = .ok [(k, .Integer 5)] := by
  have h1 : ∀ (st : ParserState R) (w : List Char),
      parse_line stod scale st (k ++ ' ' :: assignment j w) =
        parse_line stod scale st (assignment k w) :=
    fun st w => parse_line_junk stod scale st k j w hk hj
  have h2 : ∀ (pre post : List (List Char)) (w : List Char),
      parse (R := R) stod scale (pre ++ (k ++ ' ' :: assignment j w) :: post) =
        parse stod scale (pre ++ assignment k w :: post) := by
    intro pre post w
    simp only [parse, parse_lines_congr_line stod scale _ _ (fun st => h1 st w) pre post]
  have h5 : parse (R := R) stod scale [assignment k "5".toList] = .ok [(k, .Integer 5)] := by
    have hv : parse_value stod scale "5".toList = .ok ((.Integer 5 : Value R), []) := rfl
    have hp := parse_single_assignment (R := R) stod scale k "5".toList hk (by decide) rfl
    rw [hv] at hp
    exact hp
  refine ⟨h1, h2, ?_, h5⟩
  have := h2 [] [] "5".toList
  simp only [List.nil_append] at this
  rw [this, h5]

/-- Instance of C25: the line `x y z = 5` stores the key `x` with the Integer 5. -/
theorem junk_before_equals_skipped_witness :
    parse (R := Unit) (D := Unit) (fun _ => .ok ()) (fun _ _ => ())
      ["x".toList ++ ' ' :: assignment "y z".toList "5".toList] =
      .ok [("x".toList, .Integer 5)] :=
  (junk_before_equals_skipped (R := Unit) (D := Unit) (fun _ => .ok ()) (fun _ _ => ())
    "x".toList "y z".toList (by decide) (by decide)).2.2.1

end JunkBeforeEquals

section RedeclaredHeader

variable {R D : Type}

theorem Table.modify_eq_self (key : List Char) (g : Value R → Value R) (v : Value R) :
    ∀ t : Table R, Table.get key t = some v → g v = v → Table.modify key g t = t := by
  intro t
  induction t with
  | nil => intro h; simp [Table.get] at h
  | cons kv rest ih =>
    obtain ⟨k2, v2⟩ := kv
    intro h hg
    simp only [Table.get] at h
    simp only [Table.modify]
    split
    · rename_i hk
      rw [if_pos hk] at h
      simp only [Option.some.injEq] at h
      subst h
      rw [hg]
    · rename_i hk
      rw [if_neg hk] at h
      rw [ih h hg]

/-- A write through a pointer that changes nothing leaves the root as it is. -/
theorem updateAt_eq_self (f : Table R → Table R) (path : List (List Char)) :
    ∀ (root t : Table R), tableAt path root = some t → f t = t →
      updateAt f path root = root := by
  induction path with
  | nil =>
    intro root t h hf
    simp only [tableAt, Option.some.injEq] at h
    subst h
    exact hf
  | cons key rest ih =>
    intro root t h hf
    simp only [tableAt] at h
    cases hg : Table.get key root with
    | none => simp [hg] at h
    | some v =>
      cases v with
      | table_t child =>
        simp only [hg] at h
        simp only [updateAt]
        apply Table.modify_eq_self key _ (.table_t child) root hg
        simp only [ih child t h hf]
      | Integer i => simp [hg] at h
      | Real r => simp [hg] at h
      | String s => simp [hg] at h
      | array_t a => simp [hg] at h

/-- A header line whose last segment is already a key of the table it is to be added to:
the line is accepted, the tree stays as it is, and the table that `parse_table` made is
destroyed on return, so `currentTable` dangles. -/
theorem parse_line_header_existing (stod : List Char → Except Err D) (scale : D → Int → R)
    (st : ParserState R) (pre : List (List Char)) (last : List Char) (t : Table R)
    (hsegs : ∀ s ∈ pre ++ [last], isSegment s = true)
    (hparent : tableAt pre st.rootTable = some t) (hold : Table.contains last t = true) :
    parse_line stod scale st (header (pre ++ [last])) = .ok ⟨st.rootTable, none⟩ := by
  rw [parse_line_header_ok stod scale st pre last t hsegs hparent]
  have hfix : Table.addValue last (.table_t []) t = t := by
    simp only [Table.addValue, hold, if_true]
  rw [updateAt_eq_self _ pre st.rootTable t hparent hfix]
  simp only [hold, if_true]

/-- An assignment line with `currentTable` dangling: `parse_key` calls `contains` through
the pointer. -/
theorem parse_line_assignment_dangling (stod : List Char → Except Err D)
    (scale : D → Int → R) (st : ParserState R) (k w : List Char) (hk : isKey k = true)
    (hcur : st.currentTable = none) :
    parse_line stod scale st (assignment k w) = .error .danglingTable := by
  obtain ⟨c, cs, rfl, hc1, hc2, hc3, hc4, hc5⟩ := isKey_cons k hk
  have hall := isKey_all (c :: cs) hk
  have hpre : ∀ d ∈ (c :: cs) ++ [' ', '=', ' '], d ≠ '#' := by
    intro d hd
    rcases List.mem_append.mp hd with h | h
    · exact (hall d h).2.2.2
    · simp only [List.mem_cons, List.mem_singleton, List.not_mem_nil, or_false] at h
      rcases h with h | h | h
      · subst h; decide
      · subst h; decide
      · subst h; decide
  have hl : assignment (c :: cs) w = ((c :: cs) ++ [' ', '=', ' ']) ++ w := by
    simp [assignment]
  have hL : eraseComment (assignment (c :: cs) w) =
      c :: (cs ++ ' ' :: '=' :: ' ' :: eraseComment w) := by
    rw [hl, eraseComment_append_of_no_hash _ w hpre]; simp
  have hkey : ∀ d ∈ c :: cs, (d != ' ' && d != '\t' && d != '=') = true := by
    intro d hd
    have := hall d hd
    simp [this.1, this.2.1, this.2.2.1]
  have hf : forward (fun c => c != ' ' && c != '\t' && c != '=')
      (c :: (cs ++ ' ' :: '=' :: ' ' :: eraseComment w)) =
      ' ' :: '=' :: ' ' :: eraseComment w := by
    have := forward_append_of_all (fun c => c != ' ' && c != '\t' && c != '=') (c :: cs)
      (' ' :: '=' :: ' ' :: eraseComment w) hkey
    rw [List.cons_append] at this
    rw [this]
    rfl
  have hb : (c == '[') = false := by simpa using hc5
  have hcw : ∀ x : List Char, consumeWhitespace (c :: x) = c :: x :=
    fun x => consumeWhitespace_cons_of_not_blank c x hc1 hc2
  have hcurrent : st.current = .error .danglingTable := by
    simp only [ParserState.current, hcur]
  simp only [parse_line, hL, hcw, hb, Bool.false_eq_true, if_false, parse_key_eq_value,
    parse_key, hf, hcurrent]

/-- C21: a header that is declared a second time is not rejected at the header line, but
the fresh table is not the one the next line writes to. For a header name `p` and a key
`x`, the input `[p]`, `x = 1`, `[p]` is accepted and gives the tree in which `p` holds
`x = 1`; on the input `[p]`, `x = 1`, `[p]`, `x = 2` the last line calls `contains`
through the pointer to the table that was destroyed when `parse_table` returned, and no
tree is returned. -/
theorem redeclared_header_dangles (stod : List Char → Except Err D) (scale : D → Int → R)
    (p x : List Char) (hp : isSegment p = true) (hx : isKey x = true) :
    parse (R := R) stod scale
      [header [p], assignment x "1".toList, header [p]] =
      .ok [(p, .table_t [(x, .Integer 1)])] ∧
    parse (R := R) stod scale
      [header [p], assignment x "1".toList, header [p], assignment x "2".toList] =
      .error .danglingTable := by
  have hsegs : ∀ s ∈ ([] : List (List Char)) ++ [p], isSegment s = true := by
    intro s hs
    simp only [List.nil_append, List.mem_singleton] at hs
    rw [hs]; exact hp
  have h1 : parse_line stod scale (⟨[], some []⟩ : ParserState R) (header [p]) =
      .ok ⟨[(p, .table_t [])], some [p]⟩ := by
    have := parse_line_header_ok stod scale (⟨[], some []⟩ : ParserState R) [] p [] hsegs rfl
    simpa [updateAt, Table.addValue, Table.contains, Table.get] using this
  have hv : parse_value stod scale "1".toList = .ok ((.Integer 1 : Value R), []) := rfl
  have h2 : parse_line stod scale (⟨[(p, .table_t [])], some [p]⟩ : ParserState R)
      (assignment x "1".toList) = .ok ⟨[(p, .table_t [(x, .Integer 1)])], some [p]⟩ := by
    have := parse_line_assignment stod scale (⟨[(p, .table_t [])], some [p]⟩ : ParserState R)
      [p] [] x "1".toList hx rfl (by simp [tableAt, Table.get]) rfl (by decide) rfl
    rw [hv] at this
    rw [this]
    simp [updateAt, Table.modify, Table.addValue, Table.contains, Table.get, consumeWhitespace,
      forward]
  have h3 : parse_line stod scale
      (⟨[(p, .table_t [(x, .Integer 1)])], some [p]⟩ : ParserState R) (header [p]) =
      .ok ⟨[(p, .table_t [(x, .Integer 1)])], none⟩ :=
    parse_line_header_existing stod scale _ [] p _ hsegs rfl
      (by simp [Table.contains, Table.get])
  have h4 : parse_line stod scale
      (⟨[(p, .table_t [(x, .Integer 1)])], none⟩ : ParserState R) (assignment x "2".toList) =
      .error .danglingTable :=
    parse_line_assignment_dangling stod scale _ x _ hx rfl
  constructor
  · simp only [parse, parse_lines, h1, h2, h3]
  · simp only [parse, parse_lines, h1, h2, h3, h4]

/-- Instance of C21: `[a]`, `x = 1`, `[a]` is accepted, and `[a]`, `x = 1`, `[a]`,
`x = 2` returns no tree. -/
theorem redeclared_header_dangles_witness :
    parse (R := Unit) (D := Unit) (fun _ => .ok ()) (fun _ _ => ())
      [header ["a".toList], assignment "x".toList "1".toList, header ["a".toList]] =
      .ok [("a".toList, .table_t [("x".toList, .Integer 1)])] ∧
    parse (R := Unit) (D := Unit) (fun _ => .ok ()) (fun _ _ => ())
      [header ["a".toList], assignment "x".toList "1".toList, header ["a".toList],
        assignment "x".toList "2".toList] = .error .danglingTable :=
  redeclared_header_dangles (fun _ => .ok ()) (fun _ _ => ()) "a".toList "x".toList
    (by decide) (by decide)

end RedeclaredHeader

section RedeclaredHeaderTree

variable {R D : Type}

/-- With `currentTable` dangling, lines that are not header lines are accepted only when
all of them are blank, and they leave the state as it is. -/
theorem parse_lines_dangling_state (stod : List Char → Except Err D) (scale : D → Int → R)
    (rest : List (List Char)) :
    ∀ (st st2 : ParserState R), st.currentTable = none →
      (∀ l ∈ rest, isHeaderLine l = false) →
      parse_lines stod scale st rest = .ok st2 → st2 = st := by
  induction rest with
  | nil =>
    intro st st2 _ _ h
    simp only [parse_lines, Except.ok.injEq] at h
    exact h.symm
  | cons l ls ih =>
    intro st st2 hcur hnh h
    simp only [parse_lines] at h
    cases hl : parse_line stod scale st l with
    | error e => simp [hl] at h
    | ok st1 =>
      simp only [hl] at h
      rcases line_cases l (hnh l (List.mem_cons_self l ls)) with hb | ha
      · have := parse_line_blank stod scale st l hb.1
        rw [this] at hl
        simp only [Except.ok.injEq] at hl
        subst hl
        exact ih st st2 hcur (fun x hx => hnh x (List.mem_cons_of_mem l hx)) h
      · obtain ⟨p, _, _, hp, _⟩ := parse_line_assignment_effect stod scale st st1 l ha hl
        rw [hcur] at hp
        cases hp

/-- C26: a header line whose last segment is already a key of the table it names, holding
a table or any other value, is accepted and leaves the tree as it is, so what the root
reaches at that path is still the first value; the table made for the header is not
attached to the tree and `currentTable` is left pointing to it after it has been
destroyed. The lines up to the next header line are then accepted only when none of them
is an assignment line, and the state stays as it is; an assignment line calls `contains`
through the dangling pointer, and no tree is returned: so it is for `[a]`, `x = 1`,
`[a]`, `y = 2` and for `a = 1`, `[a]`, `y = 2`. -/
theorem redeclared_header_tree_unchanged (stod : List Char → Except Err D)
    (scale : D → Int → R) (st : ParserState R) :
    (∀ (pre : List (List Char)) (last : List Char) (t : Table R),
      (∀ s ∈ pre ++ [last], isSegment s = true) →
      tableAt pre st.rootTable = some t → Table.contains last t = true →
      parse_line stod scale st (header (pre ++ [last])) = .ok ⟨st.rootTable, none⟩) ∧
    (∀ (rest : List (List Char)) (st2 : ParserState R), st.currentTable = none →
      (∀ l ∈ rest, isHeaderLine l = false) →
      parse_lines stod scale st rest = .ok st2 →
      st2 = st ∧ rest.filter isAssignmentLine = []) ∧
    (∀ k w : List Char, isKey k = true → st.currentTable = none →
      parse_line stod scale st (assignment k w) = .error .danglingTable) ∧
    parse (R := R) stod scale
      ["[a]".toList, "x = 1".toList, "[a]".toList, "y = 2".toList] =
      .error .danglingTable ∧
    parse (R := R) stod scale ["a = 1".toList, "[a]".toList, "y = 2".toList] =
      .error .danglingTable ∧
    parse (R := R) stod scale ["[a]".toList, "x = 1".toList, "[a]".toList] =
      .ok [("a".toList, .table_t [("x".toList, .Integer 1)])] := by
  refine ⟨?_, ?_, ?_, rfl, rfl, rfl⟩
  · intro pre last t hsegs hparent hold
    exact parse_line_header_existing stod scale st pre last t hsegs hparent hold
  · intro rest st2 hcur hnh h
    exact ⟨parse_lines_dangling_state stod scale rest st st2 hcur hnh h,
      parse_lines_dangling stod scale rest st st2 hcur hnh h⟩
  · intro k w hk hcur
    exact parse_line_assignment_dangling stod scale st k w hk hcur

/-- Instance of C26: in the state after `[a]`, `x = 1`, the header line `[a]` leaves the
root as it is and the cursor dangling. -/
theorem redeclared_header_tree_unchanged_witness :
    parse_line (R := Unit) (D := Unit) (fun _ => .ok ()) (fun _ _ => ())
      ⟨[("a".toList, .table_t [("x".toList, .Integer 1)])], some ["a".toList]⟩
      (header ([] ++ ["a".toList])) =
      .ok ⟨[("a".toList, .table_t [("x".toList, .Integer 1)])], none⟩ :=
  (redeclared_header_tree_unchanged (R := Unit) (D := Unit) (fun _ => .ok ())
    (fun _ _ => ())
    ⟨[("a".toList, .table_t [("x".toList, .Integer 1)])], some ["a".toList]⟩).1
    [] "a".toList [("a".toList, .table_t [("x".toList, .Integer 1)])] (by decide) rfl rfl

end RedeclaredHeaderTree

section Separators

variable {R D : Type}

theorem separatorsOk_cons (tr : Nat) (ce : Char × Nat × Int × Nat)
    (es : List (Char × Nat × Int × Nat)) (h : separatorsOk tr (ce :: es) = true) :
    ce.1 ≠ ' ' ∧ ce.1 ≠ '\t' ∧ ce.1 ≠ '[' ∧ ce.1 ≠ ']' ∧ ce.1 ≠ '#' ∧
    (0 < tr ∨ (isDigit ce.1 = false ∧ ce.1 ≠ '.')) ∧ separatorsOk ce.2.2.2 es = true := by
  simp only [separatorsOk, Bool.and_eq_true, bne_iff_ne, ne_eq, Bool.or_eq_true,
    decide_eq_true_eq, Bool.not_eq_true'] at h
  obtain ⟨⟨⟨⟨⟨⟨h1, h2⟩, h3⟩, h4⟩, h5⟩, h6⟩, h7⟩ := h
  exact ⟨h1, h2, h3, h4, h5, h6, h7⟩

theorem arrayTailWith_head (tr : Nat) (es : List (Char × Nat × Int × Nat))
    (h : separatorsOk tr es = true) :
    ∃ c rest, arrayTailWith es = c :: rest ∧ c ≠ ' ' ∧ c ≠ '\t' ∧
      (0 < tr ∨ (isDigit c = false ∧ c ≠ '.')) := by
  cases es with
  | nil => exact ⟨']', [], rfl, by decide, by decide, Or.inr ⟨by decide, by decide⟩⟩
  | cons ce es =>
    obtain ⟨h1, h2, _, _, _, h6, _⟩ := separatorsOk_cons tr ce es h
    exact ⟨ce.1, _, rfl, h1, h2, h6⟩

theorem consumeWhitespace_arrayTailWith (tr : Nat) (es : List (Char × Nat × Int × Nat))
    (h : separatorsOk tr es = true) :
    consumeWhitespace (arrayTailWith es) = arrayTailWith es := by
  obtain ⟨c, rest, hc, h1, h2, _⟩ := arrayTailWith_head tr es h
  rw [hc]
  exact consumeWhitespace_cons_of_not_blank c rest h1 h2

theorem after_element_head_with (b : Nat) (es : List (Char × Nat × Int × Nat))
    (h : separatorsOk b es = true) :
    ∀ c, (spaces b ++ arrayTailWith es).head? = some c → isDigit c = false ∧ c ≠ '.' := by
  intro c hc
  obtain ⟨d, rest, hd, _, _, h3⟩ := arrayTailWith_head b es h
  cases b with
  | zero =>
    simp only [spaces, List.replicate_zero, List.nil_append, hd, List.head?_cons,
      Option.some.injEq] at hc
    subst hc
    rcases h3 with h3 | h3
    · omega
    · exact h3
  | succ b =>
    simp only [spaces, List.replicate_succ, List.cons_append, List.head?_cons,
      Option.some.injEq] at hc
    subst hc
    decide

/-- One pass of the loop of `parse_array` over an element written in decimal, whatever
the character `c` in front of it. -/
theorem parse_array_loop_element_with (n : Nat) (c : Char) (hc : c ≠ ']')
    (e : Nat × Int × Nat) (hlo : -2 ^ 31 ≤ e.2.1) (hhi : e.2.1 < 2 ^ 31)
    (es : List (Char × Nat × Int × Nat)) (hok : separatorsOk e.2.2 es = true)
    (acc : List (Value R)) :
    parse_array_loop parse_integer (n + 1) (c :: (arrayElement e ++ arrayTailWith es)) acc =
      parse_array_loop parse_integer n (arrayTailWith es) (acc ++ [.Integer e.2.1]) := by
  have hcb : (c == ']') = false := by simpa using hc
  have h1 : consumeWhitespace (arrayElement e ++ arrayTailWith es) =
      integerLiteral false e.2.1 ++ (spaces e.2.2 ++ arrayTailWith es) := by
    simp only [arrayElement, List.append_assoc]
    rw [consumeWhitespace_spaces, consumeWhitespace_integerLiteral]
  have h2 : parse_integer (R := R)
      (integerLiteral false e.2.1 ++ (spaces e.2.2 ++ arrayTailWith es))
      = .ok (.Integer e.2.1, spaces e.2.2 ++ arrayTailWith es) :=
    integerLiteral_parse_integer false e.2.1 hlo hhi _
      (fun d hd => (after_element_head_with e.2.2 es hok d hd).1)
  have h3 : consumeWhitespace (spaces e.2.2 ++ arrayTailWith es) = arrayTailWith es := by
    rw [consumeWhitespace_spaces, consumeWhitespace_arrayTailWith e.2.2 es hok]
  simp only [parse_array_loop, hcb, Bool.false_eq_true, if_false, h1, h2, h3,
    array_t.insertBack]

theorem parse_array_loop_tail_with (es : List (Char × Nat × Int × Nat)) :
    ∀ (tr n : Nat) (acc : List (Value R)), es.length < n → separatorsOk tr es = true →
      (∀ ce ∈ es, -2 ^ 31 ≤ ce.2.2.1 ∧ ce.2.2.1 < 2 ^ 31) →
      parse_array_loop parse_integer n (arrayTailWith es) acc =
        .ok (.array_t (acc ++ es.map (fun ce => .Integer ce.2.2.1)), []) := by
  induction es with
  | nil =>
    intro tr n acc hn _ _
    cases n with
    | zero => omega
    | succ n => simp [arrayTailWith, parse_array_loop]
  | cons ce es ih =>
    intro tr n acc hn hok hr
    cases n with
    | zero => omega
    | succ n =>
      obtain ⟨_, _, _, h4, _, _, h7⟩ := separatorsOk_cons tr ce es hok
      have he := hr ce (List.mem_cons_self ce es)
      have hes : ∀ x ∈ es, -2 ^ 31 ≤ x.2.2.1 ∧ x.2.2.1 < 2 ^ 31 :=
        fun x hx => hr x (List.mem_cons_of_mem ce hx)
      have hlen : es.length < n := by
        simp only [List.length_cons] at hn
        omega
      simp only [arrayTailWith]
      rw [parse_array_loop_element_with n ce.1 h4 ce.2 he.1 he.2 es h7 acc,
        ih ce.2.2.2 n _ hlen h7 hes]
      simp

theorem arrayTailWith_length (es : List (Char × Nat × Int × Nat)) :
    es.length < (arrayTailWith es).length := by
  induction es with
  | nil => simp [arrayTailWith]
  | cons e es ih =>
    simp only [arrayTailWith, List.length_cons, List.length_append]
    omega

theorem arrayTailWith_chars (es : List (Char × Nat × Int × Nat)) :
    ∀ tr : Nat, separatorsOk tr es = true →
      ∀ c ∈ arrayTailWith es, c ≠ '#' ∧ (c = ']' ∨ (c ≠ '[' ∧ c ≠ ']')) := by
  induction es with
  | nil =>
    intro tr _ c hc
    simp only [arrayTailWith, List.mem_singleton] at hc
    subst hc
    exact ⟨by decide, Or.inl rfl⟩
  | cons ce es ih =>
    intro tr hok c hc
    obtain ⟨_, _, h3, h4, h5, _, h7⟩ := separatorsOk_cons tr ce es hok
    simp only [arrayTailWith, List.mem_cons, List.mem_append] at hc
    rcases hc with h | h | h
    · subst h
      exact ⟨h5, Or.inr ⟨h3, h4⟩⟩
    · have := element_char_plain c (arrayElement_chars ce.2 c h)
      exact ⟨this.1, Or.inr this.2⟩
    · exact ih ce.2.2.2 h7 c h

theorem isArray_scan_arrayTailWith (es : List (Char × Nat × Int × Nat)) :
    ∀ tr : Nat, separatorsOk tr es = true → isArray.scan 1 (arrayTailWith es) = [']'] := by
  induction es with
  | nil => intro _ _; rfl
  | cons ce es ih =>
    intro tr hok
    obtain ⟨_, _, h3, h4, _, _, h7⟩ := separatorsOk_cons tr ce es hok
    simp only [arrayTailWith]
    have hsplit : ce.1 :: (arrayElement ce.2 ++ arrayTailWith es) =
        (ce.1 :: arrayElement ce.2) ++ arrayTailWith es := rfl
    rw [hsplit, isArray_scan_append _ _ 1 (by decide), ih ce.2.2.2 h7]
    intro c hc
    rcases List.mem_cons.mp hc with h | h
    · subst h; exact ⟨h3, h4⟩
    · exact (element_char_plain c (arrayElement_chars ce.2 c h)).2

/-- What `parse_value` does on an array literal of integers in which each later element
stands behind a character of its own: the character is skipped. -/
theorem integerArrayLiteralWith_parse_value (stod : List Char → Except Err D)
    (scale : D → Int → R) (e : Nat × Int × Nat) (es : List (Char × Nat × Int × Nat))
    (h0 : e.2.1 ≠ 0) (he : -2 ^ 31 ≤ e.2.1 ∧ e.2.1 < 2 ^ 31)
    (hes : ∀ x ∈ es, -2 ^ 31 ≤ x.2.2.1 ∧ x.2.2.1 < 2 ^ 31)
    (hok : separatorsOk e.2.2 es = true) :
    parse_value stod scale (integerArrayLiteralWith e es) =
      .ok (.array_t (.Integer e.2.1 :: es.map (fun x => .Integer x.2.2.1)), []) := by
  have h1 : isInteger (integerArrayLiteralWith e es) = .ok false := by
    simp [integerArrayLiteralWith, isInteger, forward, isDigit, between]
  have h2 : isReal (integerArrayLiteralWith e es) = .ok false := by
    simp [integerArrayLiteralWith, isReal, forward, isDigit]
  have h3 : isString (integerArrayLiteralWith e es) = .ok false := by
    simp [integerArrayLiteralWith, isString]
  have hscan : isArray.scan 1 (arrayElement e ++ arrayTailWith es) = [']'] := by
    rw [isArray_scan_append _ _ 1 (by decide)
      (fun c hc => (element_char_plain c (arrayElement_chars e c hc)).2),
      isArray_scan_arrayTailWith es e.2.2 hok]
  have h4 : isArray (integerArrayLiteralWith e es) = .ok true := by
    simp [integerArrayLiteralWith, isArray, hscan]
  have htmp : consumeWhitespace (arrayElement e ++ arrayTailWith es) =
      integerLiteral false e.2.1 ++ (spaces e.2.2 ++ arrayTailWith es) := by
    simp only [arrayElement, List.append_assoc]
    rw [consumeWhitespace_spaces, consumeWhitespace_integerLiteral]
  have h5 : isInteger (integerLiteral false e.2.1 ++ (spaces e.2.2 ++ arrayTailWith es))
      = .ok true :=
    integerLiteral_isInteger false e.2.1 h0 _ (after_element_head_with e.2.2 es hok)
  have hlen : es.length < (integerArrayLiteralWith e es).length := by
    have := arrayTailWith_length es
    simp only [integerArrayLiteralWith, List.length_cons, List.length_append]
    omega
  have hloop : parse_array_loop (R := R) parse_integer
      ((integerArrayLiteralWith e es).length + 1) (integerArrayLiteralWith e es) [] =
      .ok (.array_t (.Integer e.2.1 :: es.map (fun x => .Integer x.2.2.1)), []) := by
    unfold integerArrayLiteralWith at hlen ⊢
    rw [parse_array_loop_element_with _ '[' (by decide) e he.1 he.2 es hok [],
      parse_array_loop_tail_with es e.2.2 _ _ hlen hok hes]
    simp
  have hpa : parse_array stod scale ((integerArrayLiteralWith e es).length + 1)
      (integerArrayLiteralWith e es) =
      .ok (.array_t (.Integer e.2.1 :: es.map (fun x => .Integer x.2.2.1)), []) := by
    rw [← hloop]
    simp only [parse_array, integerArrayLiteralWith, htmp, h5]
  simp only [integerArrayLiteralWith] at h1 h2 h3 h4 hpa ⊢
  simp only [parse_value, h1, h2, h3, h4, hpa]

/-- The inputs on which C22 fails: `a = [1 2 3]` is accepted and gives the array `[1, 3]`,
the character `2` being skipped in the place of a comma; `a = [1; 2]` is accepted and
gives `[1, 2]`; and `a = [1 2]` ends in `std::invalid_argument`, not in
`ParseException`. -/
theorem array_separator_unchecked :
    parse (R := Unit) (D := Unit) (fun _ => .ok ()) (fun _ _ => ()) ["a = [1 2 3]".toList] =
      .ok [("a".toList, .array_t [.Integer 1, .Integer 3])] ∧
    parse (R := Unit) (D := Unit) (fun _ => .ok ()) (fun _ _ => ()) ["a = [1; 2]".toList] =
      .ok [("a".toList, .array_t [.Integer 1, .Integer 2])] ∧
    parse (R := Unit) (D := Unit) (fun _ => .ok ()) (fun _ _ => ()) ["a = [1 2]".toList] =
      .error .invalidArgument :=
  ⟨rfl, rfl, rfl⟩

/-- C22: the loop of `parse_array` skips the one character in front of each element
without looking at it, where the comment in the source says `Skip '[' or ','`. For a key `k`, a first integer other than zero and any
further integers, all fitting `integer_t` and written in decimal with any number of
blanks around them, the line `k = [e1 c2 e2 ... cn en]` is accepted whatever the
characters `c2`, ..., `cn` are, provided none is a blank, a tab, `[`, `]` or `#` and a
digit or point among them does not stand directly behind the digits of the element in
front; the result is the array `[e1, e2, ..., en]`, the same as with a comma in each
place. -/
theorem array_separator_skipped (stod : List Char → Except Err D) (scale : D → Int → R)
    (k : List Char) (e : Nat × Int × Nat) (es : List (Char × Nat × Int × Nat))
    (hk : isKey k = true) (h0 : e.2.1 ≠ 0) (he : -2 ^ 31 ≤ e.2.1 ∧ e.2.1 < 2 ^ 31)
    (hes : ∀ x ∈ es, -2 ^ 31 ≤ x.2.2.1 ∧ x.2.2.1 < 2 ^ 31)
    (hok : separatorsOk e.2.2 es = true) :
    parse (R := R) stod scale [assignment k (integerArrayLiteralWith e es)] =
      .ok [(k, .array_t (.Integer e.2.1 :: es.map (fun x => .Integer x.2.2.1)))] ∧
    parse (R := R) stod scale [assignment k (integerArrayLiteralWith e es)] =
      parse stod scale [assignment k (integerArrayLiteral e (es.map Prod.snd))] := by
  have hchars := arrayTailWith_chars es e.2.2 hok
  have hnohash : ∀ c ∈ integerArrayLiteralWith e es, c ≠ '#' := by
    intro c hc
    simp only [integerArrayLiteralWith, List.mem_cons, List.mem_append] at hc
    rcases hc with h | h | h
    · subst h; decide
    · exact (element_char_plain c (arrayElement_chars e c h)).1
    · exact (hchars c h).1
  have hval := integerArrayLiteralWith_parse_value stod scale e es h0 he hes hok
  have hp := parse_single_assignment (R := R) stod scale k _ hk hnohash rfl
  rw [hval] at hp
  have hnohash2 : ∀ c ∈ integerArrayLiteral e (es.map Prod.snd), c ≠ '#' := by
    intro c hc
    simp only [integerArrayLiteral, List.mem_cons, List.mem_append] at hc
    rcases hc with h | h | h
    · subst h; decide
    · exact (element_char_plain c (arrayElement_chars e c h)).1
    · exact arrayTail_no_hash _ c h
  have hr2 : ∀ x ∈ e :: es.map Prod.snd, -2 ^ 31 ≤ x.2.1 ∧ x.2.1 < 2 ^ 31 := by
    intro x hx
    rcases List.mem_cons.mp hx with h | h
    · subst h; exact he
    · obtain ⟨y, hy, rfl⟩ := List.mem_map.mp h
      exact hes y hy
  have hval2 := integerArrayLiteral_parse_value stod scale e (es.map Prod.snd) h0 hr2
  have hp2 := parse_single_assignment (R := R) stod scale k _ hk hnohash2 rfl
  rw [hval2] at hp2
  have hp3 : parse (R := R) stod scale [assignment k (integerArrayLiteralWith e es)] =
      .ok [(k, .array_t (.Integer e.2.1 :: es.map (fun x => .Integer x.2.2.1)))] := hp
  have hp4 : parse (R := R) stod scale
      [assignment k (integerArrayLiteral e (es.map Prod.snd))] =
      .ok [(k, .array_t ((e :: es.map Prod.snd).map (fun x => .Integer x.2.1)))] := hp2
  refine ⟨hp3, ?_⟩
  rw [hp3, hp4, List.map_cons, List.map_map]
  rfl

/-- Instance of C22: `a = [1; 2]` is accepted and gives the array `[1, 2]`. -/
theorem array_separator_skipped_witness :
    parse (R := Unit) (D := Unit) (fun _ => .ok ()) (fun _ _ => ())
      [assignment "a".toList (integerArrayLiteralWith (0, 1, 0) [(';', 1, 2, 0)])] =
      .ok [("a".toList, .array_t (.Integer 1 ::
        [(';', (1 : Nat), (2 : Int), (0 : Nat))].map (fun x => .Integer x.2.2.1)))] :=
  (array_separator_skipped (R := Unit) (D := Unit) (fun _ => .ok ()) (fun _ _ => ())
    "a".toList (0, 1, 0) [(';', 1, 2, 0)] (by decide) (by decide) (by decide) (by decide)
    (by decide)).1

end Separators

section NonemptyArrays

variable {R D : Type}

theorem storedArraysNonempty_of_not_container (v : Value R) (h1 : v.is .array_t = false)
    (h2 : v.is .table_t = false) : storedArraysNonempty v := by
  intro arr h
  cases h with
  | self => simp [Value.is] at h1
  | mapped _ _ => simp [Value.is] at h2

theorem storedArraysNonempty_array (arr : List (Value R)) (h : arr ≠ []) :
    storedArraysNonempty (.array_t arr) := by
  intro a ha
  cases ha with
  | self => exact h

theorem storedArraysNonempty_table (t : Table R) :
    storedArraysNonempty (.table_t t) ↔ ∀ kv ∈ t, storedArraysNonempty kv.2 := by
  constructor
  · intro h kv hkv a hocc
    exact h a (@Stored.mapped R (.array_t a) kv.2 kv.1 t hkv hocc)
  · intro h a hocc
    cases hocc with
    | mapped hkv hocc => exact h _ hkv a hocc

/-- The loop of `parse_array` only adds elements to the array. -/
theorem parse_array_loop_grows (efun : List Char → Except Err (Value R × List Char)) :
    ∀ (n : Nat) (it : List Char) (acc : List (Value R)) (v : Value R) (it' : List Char),
      parse_array_loop efun n it acc = .ok (v, it') →
      ∃ arr : List (Value R), v = .array_t arr ∧ acc.length ≤ arr.length := by
  intro n
  induction n with
  | zero =>
    intro it acc v it' h
    simp [parse_array_loop] at h
  | succ n ih =>
    intro it acc v it' h
    cases it with
    | nil => simp [parse_array_loop] at h
    | cons c rest =>
      simp only [parse_array_loop] at h
      split at h
      · simp only [Except.ok.injEq, Prod.mk.injEq] at h
        obtain ⟨rfl, _⟩ := h
        exact ⟨acc, rfl, le_refl _⟩
      · split at h
        · simp at h
        · rename_i elem it1 hef
          obtain ⟨arr, harr, hlen⟩ := ih _ _ v it' h
          refine ⟨arr, harr, ?_⟩
          simp only [array_t.insertBack, List.length_append, List.length_singleton] at hlen
          omega

/-- Entered at a character other than `]`, the loop of `parse_array` returns an array
with at least one element. -/
theorem parse_array_loop_first (efun : List Char → Except Err (Value R × List Char))
    (n : Nat) (c : Char) (rest : List Char) (hc : c ≠ ']') (v : Value R) (it' : List Char)
    (h : parse_array_loop efun n (c :: rest) [] = .ok (v, it')) :
    ∃ arr : List (Value R), v = .array_t arr ∧ arr ≠ [] := by
  cases n with
  | zero => simp [parse_array_loop] at h
  | succ n =>
    have hcb : (c == ']') = false := by simpa using hc
    simp only [parse_array_loop, hcb, Bool.false_eq_true, if_false] at h
    split at h
    · simp at h
    · rename_i elem it1 hef
      obtain ⟨arr, harr, hlen⟩ := parse_array_loop_grows efun _ _ _ v it' h
      refine ⟨arr, harr, ?_⟩
      intro hnil
      rw [hnil] at hlen
      simp [array_t.insertBack] at hlen

/-- Called at a `[`, `parse_array` returns an array with at least one element. -/
theorem parse_array_open (stod : List Char → Except Err D) (scale : D → Int → R) (n : Nat)
    (tmp : List Char) (v : Value R) (it' : List Char)
    (h : parse_array stod scale n ('[' :: tmp) = .ok (v, it')) :
    ∃ arr : List (Value R), v = .array_t arr ∧ arr ≠ [] := by
  cases n with
  | zero => simp [parse_array] at h
  | succ n =>
    simp only [parse_array] at h
    split at h
    · simp at h
    · exact parse_array_loop_first _ _ '[' tmp (by decide) v it' h
    · split at h
      · simp at h
      · exact parse_array_loop_first _ _ '[' tmp (by decide) v it' h
      · split at h
        · simp at h
        · exact parse_array_loop_first _ _ '[' tmp (by decide) v it' h
        · split at h
          · simp at h
          · exact parse_array_loop_first _ _ '[' tmp (by decide) v it' h
          · simp at h

/-- An array that `parse_value` returns has at least one element. -/
theorem parse_value_stored (stod : List Char → Except Err D) (scale : D → Int → R)
    (it it' : List Char) (v : Value R) (h : parse_value stod scale it = .ok (v, it')) :
    storedArraysNonempty v := by
  cases it with
  | nil => simp [parse_value] at h
  | cons c rest =>
    simp only [parse_value] at h
    split at h
    · simp at h
    · have := (parse_integer_kind _ _ _ h).1
      cases v <;> simp [Value.is] at this
      exact storedArraysNonempty_of_not_container _ rfl rfl
    · split at h
      · simp at h
      · have := (parse_real_kind stod scale _ _ _ h).1
        cases v <;> simp [Value.is] at this
        exact storedArraysNonempty_of_not_container _ rfl rfl
      · split at h
        · simp at h
        · have := (parse_string_kind _ _ _ h).1
          cases v <;> simp [Value.is] at this
          exact storedArraysNonempty_of_not_container _ rfl rfl
        · split at h
          · simp at h
          · rename_i harr
            have hc := isArray_true_head c rest harr
            subst hc
            obtain ⟨arr, rfl, hne⟩ := parse_array_open stod scale _ rest v it' h
            exact storedArraysNonempty_array arr hne
          · simp at h

theorem addValue_stored (key : List Char) (val : Value R) (t : Table R)
    (ht : ∀ kv ∈ t, storedArraysNonempty kv.2) (hv : storedArraysNonempty val) :
    ∀ kv ∈ Table.addValue key val t, storedArraysNonempty kv.2 := by
  intro kv hkv
  unfold Table.addValue at hkv
  split at hkv
  · exact ht kv hkv
  · rcases List.mem_append.mp hkv with h | h
    · exact ht kv h
    · simp only [List.mem_singleton] at h
      subst h
      exact hv

theorem modify_stored (key : List Char) (f : Value R → Value R)
    (hf : ∀ v, storedArraysNonempty v → storedArraysNonempty (f v)) (t : Table R)
    (ht : ∀ kv ∈ t, storedArraysNonempty kv.2) :
    ∀ kv ∈ Table.modify key f t, storedArraysNonempty kv.2 := by
  induction t with
  | nil => intro kv hkv; simp [Table.modify] at hkv
  | cons e rest ih =>
    obtain ⟨k, v⟩ := e
    have hrest : ∀ kv ∈ rest, storedArraysNonempty kv.2 :=
      fun kv hkv => ht kv (List.mem_cons_of_mem _ hkv)
    have hv : storedArraysNonempty v := ht (k, v) (List.mem_cons_self _ _)
    intro kv hkv
    simp only [Table.modify] at hkv
    split at hkv
    · rcases List.mem_cons.mp hkv with h | h
      · subst h; exact hf v hv
      · exact hrest kv h
    · rcases List.mem_cons.mp hkv with h | h
      · subst h; exact hv
      · exact ih hrest kv h

theorem updateAt_stored (f : Table R → Table R)
    (hf : ∀ t, (∀ kv ∈ t, storedArraysNonempty kv.2) →
      ∀ kv ∈ f t, storedArraysNonempty kv.2)
    (path : List (List Char)) :
    ∀ t : Table R, (∀ kv ∈ t, storedArraysNonempty kv.2) →
      ∀ kv ∈ updateAt f path t, storedArraysNonempty kv.2 := by
  induction path with
  | nil => intro t ht; exact hf t ht
  | cons key path ih =>
    intro t ht
    simp only [updateAt]
    apply modify_stored key _ _ t ht
    intro v hv
    cases v with
    | table_t child =>
      simp only []
      rw [storedArraysNonempty_table] at hv ⊢
      exact ih child hv
    | _ => exact hv

theorem parse_line_stored (stod : List Char → Except Err D) (scale : D → Int → R)
    (st st' : ParserState R) (line : List Char)
    (h : parse_line stod scale st line = .ok st')
    (hst : ∀ kv ∈ st.rootTable, storedArraysNonempty kv.2) :
    ∀ kv ∈ st'.rootTable, storedArraysNonempty kv.2 := by
  rcases parse_line_ok stod scale st st' line h with rfl | ⟨it, it', ht⟩ | ⟨it, it', hk⟩
  · exact hst
  · obtain ⟨key, path, cur, hroot, _⟩ := parse_table_ok it it' st.rootTable st' ht
    rw [hroot]
    apply updateAt_stored _ _ path _ hst
    intro t htt
    apply addValue_stored key _ t htt
    rw [storedArraysNonempty_table]
    intro kv hkv
    simp at hkv
  · obtain ⟨key, val, path, it0, hv, _, rfl⟩ := parse_key_eq_value_ok stod scale it it' st st' hk
    apply updateAt_stored _ _ path _ hst
    intro t htt
    exact addValue_stored key val t htt (parse_value_stored stod scale _ _ _ hv)

theorem parse_lines_stored (stod : List Char → Except Err D) (scale : D → Int → R)
    (lines : List (List Char)) :
    ∀ (st st' : ParserState R), parse_lines stod scale st lines = .ok st' →
      (∀ kv ∈ st.rootTable, storedArraysNonempty kv.2) →
      ∀ kv ∈ st'.rootTable, storedArraysNonempty kv.2 := by
  induction lines with
  | nil =>
    intro st st' h hst
    simp only [parse_lines, Except.ok.injEq] at h
    subst h
    exact hst
  | cons line rest ih =>
    intro st st' h hst
    simp only [parse_lines] at h
    split at h
    · simp at h
    · rename_i st1 hline
      exact ih st1 st' h (parse_line_stored stod scale st st1 line hline hst)

/-- What `parse_value` does on the array literal without elements. -/
theorem emptyArrayLiteral_parse_value (stod : List Char → Except Err D)
    (scale : D → Int → R) (n : Nat) :
    parse_value (R := R) stod scale (emptyArrayLiteral n) = .error .parseException := by
  have h1 : isInteger (emptyArrayLiteral n) = .ok false := by
    simp [emptyArrayLiteral, isInteger, forward, isDigit, between]
  have h2 : isReal (emptyArrayLiteral n) = .ok false := by
    simp [emptyArrayLiteral, isReal, forward, isDigit]
  have h3 : isString (emptyArrayLiteral n) = .ok false := by
    simp [emptyArrayLiteral, isString]
  have hscan : isArray.scan 1 (spaces n ++ [']']) = [']'] := by
    rw [isArray_scan_append _ _ 1 (by decide)]
    · rfl
    · intro c hc
      have : c = ' ' := List.eq_of_mem_replicate hc
      subst this
      decide
  have h4 : isArray (emptyArrayLiteral n) = .ok true := by
    simp [emptyArrayLiteral, isArray, hscan]
  have htmp : consumeWhitespace (spaces n ++ [']']) = [']'] := by
    rw [consumeWhitespace_spaces]
    rfl
  have hpa : parse_array (R := R) stod scale ((emptyArrayLiteral n).length + 1)
      (emptyArrayLiteral n) = .error .parseException := by
    simp only [parse_array, emptyArrayLiteral, htmp]
    rfl
  simp only [emptyArrayLiteral] at h1 h2 h3 h4 hpa ⊢
  simp only [parse_value, h1, h2, h3, h4, hpa]

/-- The input on which C24 fails: the line `x = [[1], ]5[7]]` is accepted and gives
`x` the array `[[1], [], [7]]`, whose element 1 is an array without elements, on which
`arrayIs<integer_t>` ends in `std::out_of_range`. -/
theorem nested_empty_array_accepted :
    parse (R := Unit) (D := Unit) (fun _ => .ok ()) (fun _ _ => ())
      ["x = [[1], ]5[7]]".toList] =
      .ok [("x".toList, .array_t [.array_t [.Integer 1], .array_t [],
        .array_t [.Integer 7]])] ∧
    array_t.arrayIs (R := Unit) .integer_t [] = .error .outOfRange :=
  ⟨rfl, rfl⟩

/-- C24: an array that is an element of another array can be without elements, because
the loop of `parse_array` calls the element parser wherever it stands after skipping one
unchecked character, and `parse_array` entered at a `]` returns at once: the line
`x = [[1], ]5[7]]` is accepted and gives `x` the array `[[1], [], [7]]`, and
`arrayIs<T>` on its element 1 ends in `std::out_of_range`. What holds is this: every
array that the tree of a successful parse holds as the value of a key, in the root or in
a table below it, has at least one element, so `arrayIs<T>` returns on it for every `T`;
and the literal `k = []`, also with blanks between the brackets, is rejected with
`ParseException`. -/
theorem stored_arrays_nonempty (stod : List Char → Except Err D) (scale : D → Int → R) :
    (∀ (lines : List (List Char)) (root : Table R) (arr : List (Value R)),
      parse stod scale lines = .ok root → Stored (.array_t arr) (.table_t root) →
      arr ≠ [] ∧ ∀ T : Kind, ∃ b : Bool, array_t.arrayIs T arr = .ok b) ∧
    (∀ (k : List Char) (n : Nat), isKey k = true →
      parse (R := R) stod scale [assignment k (emptyArrayLiteral n)] =
        .error .parseException) ∧
    parse (R := R) stod scale ["x = [[1], ]5[7]]".toList] =
      .ok [("x".toList, .array_t [.array_t [.Integer 1], .array_t [],
        .array_t [.Integer 7]])] ∧
    (∀ T : Kind, array_t.arrayIs (R := R) T [] = .error .outOfRange) := by
  refine ⟨?_, ?_, rfl, fun _ => rfl⟩
  · intro lines root arr hparse hst
    have hroot : storedArraysNonempty (.table_t root) := by
      rw [storedArraysNonempty_table]
      unfold parse at hparse
      split at hparse
      · simp at hparse
      · rename_i st hst2
        simp only [Except.ok.injEq] at hparse
        subst hparse
        exact parse_lines_stored stod scale lines _ st hst2 (by simp)
    have hne := hroot arr hst
    refine ⟨hne, ?_⟩
    intro T
    cases arr with
    | nil => exact absurd rfl hne
    | cons v vs => exact ⟨v.is T, by simp [array_t.arrayIs]⟩
  · intro k n hk
    have hnohash : ∀ c ∈ emptyArrayLiteral n, c ≠ '#' := by
      intro c hc
      simp only [emptyArrayLiteral, List.mem_cons, List.mem_append, List.mem_singleton,
        List.not_mem_nil, or_false] at hc
      rcases hc with h | h | h
      · subst h; decide
      · have : c = ' ' := List.eq_of_mem_replicate h
        subst this; decide
      · subst h; decide
    have hp := parse_single_assignment (R := R) stod scale k _ hk hnohash rfl
    rw [emptyArrayLiteral_parse_value] at hp
    exact hp

/-- Instance of C24: the array that `arr = [4, 2, 5]` stores has an element 0, and
`arr = [  ]` is rejected. -/
theorem stored_arrays_nonempty_witness :
    ([.Integer 4, .Integer 2, .Integer 5] : List (Value Unit)) ≠ [] ∧
    parse (R := Unit) (D := Unit) (fun _ => .ok ()) (fun _ _ => ())
      [assignment "arr".toList (emptyArrayLiteral 2)] = .error .parseException :=
  ⟨((stored_arrays_nonempty (R := Unit) (D := Unit) (fun _ => .ok ()) (fun _ _ => ())).1
      ["arr = [4, 2, 5]".toList]
      [("arr".toList, .array_t [.Integer 4, .Integer 2, .Integer 5])]
      [.Integer 4, .Integer 2, .Integer 5] rfl
      (Stored.mapped (List.mem_cons_self _ _) (Stored.self _))).1,
    (stored_arrays_nonempty (R := Unit) (D := Unit) (fun _ => .ok ()) (fun _ _ => ())).2.1
      "arr".toList 2 (by decide)⟩

end NonemptyArrays

section KindOfConvertedLiteral

variable {R D : Type}

theorem stoll_decimalValue (ds : List Char) (hne : ds ≠ [])
    (hdig : ∀ c ∈ ds, isDigit c = true) :
    stoll ds =
      if decimalValue ds ≤ 2 ^ 63 - 1 then .ok (decimalValue ds : Int)
      else .error .outOfRange :=
  stoll_digits ds hne hdig

theorem toInteger_mul_signValue (v : Int) (sign : List Char) :
    toInteger (toInteger v * signValue sign) = toInteger (v * signValue sign) := by
  unfold signValue
  split
  · rw [toInteger_mul_neg_one]
    congr 1
    ring
  · rw [toInteger_mul_one]
    congr 1
    ring

/-- What `parse` does on the one line `k = w` for a literal `w` made of a sign and a run
of digits that does not start with `0`: it hands the digits to `std::stoll`. -/
theorem parse_digits_assignment (stod : List Char → Except Err D) (scale : D → Int → R)
    (k sign ds : List Char) (hk : isKey k = true)
    (hsign : sign = [] ∨ sign = ['+'] ∨ sign = ['-']) (hne : ds ≠ [])
    (hds : ∀ c ∈ ds, isDigit c = true) (hzero : ds.head? ≠ some '0') :
    parse (R := R) stod scale [assignment k (sign ++ ds)] =
      match stoll ds with
      | .error err => .error err
      | .ok v => .ok [(k, .Integer (toInteger (toInteger v * signValue sign)))] := by
  have hnb : ∀ c ∈ sign ++ ds, c ≠ '#' ∧ c ≠ ' ' ∧ c ≠ '\t' := by
    intro c hc
    have := literal_char_plain c (sign_digits_plain sign ds hsign hds c hc)
    exact ⟨this.1, this.2.1, this.2.2.1⟩
  have hws : consumeWhitespace (sign ++ ds) = sign ++ ds := by
    apply consumeWhitespace_of_head
    intro c hc
    have := hnb c (List.mem_of_mem_head? hc)
    exact ⟨this.2.1, this.2.2⟩
  have hv := digits_parse_value stod scale sign ds [] hsign hne hds hzero (by simp)
  rw [List.append_nil] at hv
  have hp := parse_single_assignment (R := R) stod scale k _ hk
    (fun c hc => (hnb c hc).1) hws
  rw [hv] at hp
  rw [hp]
  cases stoll ds with
  | error e => rfl
  | ok r => rfl

/-- Counterexample to C16 as stated: the literal of `x = 99999999999999999999` is a run of
digits with a first digit other than zero, and the line is not accepted, so `x` is no
Integer: `std::stoll` ends in `std::out_of_range`. -/
theorem integer_literal_beyond_stoll_not_stored :
    isInteger "99999999999999999999".toList = .ok true ∧
    parse (R := Unit) (D := Unit) (fun _ => .ok ()) (fun _ _ => ())
      ["x = 99999999999999999999".toList] = .error .outOfRange :=
  ⟨rfl, rfl⟩

/-- C16, amended: the kind of a scalar follows from the form of its literal, for the
literals that the conversion accepts. For a literal made of an optional sign, digits, a
point and digits on which `std::stod` returns, the line `k = w` is accepted and `k` is a
Real and not an Integer; when `std::stod` throws, the line ends in that exception. For a
literal made of an optional sign and digits that do not start with `0` and denote a
number up to `2^63 - 1`, the line `k = w` is accepted and `k` is an Integer and not a
Real, with the value the digits and the sign denote, narrowed to `integer_t`; when the
digits denote a larger number the line ends in `std::out_of_range`. -/
theorem kind_follows_form_when_converted (stod : List Char → Except Err D)
    (scale : D → Int → R) (k sign : List Char) (hk : isKey k = true)
    (hsign : sign = [] ∨ sign = ['+'] ∨ sign = ['-']) :
    (∀ (ds1 ds2 : List Char) (r : D), ds1 ≠ [] → ds2 ≠ [] →
      (∀ c ∈ ds1, isDigit c = true) → (∀ c ∈ ds2, isDigit c = true) →
      stod (ds1 ++ '.' :: ds2) = .ok r →
      ∃ root : Table R,
        parse stod scale [assignment k (realLiteral sign ds1 ds2)] = .ok root ∧
        valueIs .real_t k root = true ∧ valueIs .integer_t k root = false ∧
        valueAs .real_t k root = .ok (scale r (signValue sign))) ∧
    (∀ (ds1 ds2 : List Char) (e : Err), ds1 ≠ [] → ds2 ≠ [] →
      (∀ c ∈ ds1, isDigit c = true) → (∀ c ∈ ds2, isDigit c = true) →
      stod (ds1 ++ '.' :: ds2) = .error e →
      parse (R := R) stod scale [assignment k (realLiteral sign ds1 ds2)] = .error e) ∧
    (∀ ds : List Char, ds ≠ [] → (∀ c ∈ ds, isDigit c = true) → ds.head? ≠ some '0' →
      decimalValue ds ≤ 2 ^ 63 - 1 →
      ∃ root : Table R,
        parse stod scale [assignment k (sign ++ ds)] = .ok root ∧
        valueIs .integer_t k root = true ∧ valueIs .real_t k root = false ∧
        valueAs .integer_t k root =
          .ok (toInteger ((decimalValue ds : Int) * signValue sign))) ∧
    (∀ ds : List Char, ds ≠ [] → (∀ c ∈ ds, isDigit c = true) → ds.head? ≠ some '0' →
      2 ^ 63 - 1 < decimalValue ds →
      parse (R := R) stod scale [assignment k (sign ++ ds)] = .error .outOfRange) := by
  refine ⟨?_, ?_, ?_, ?_⟩
  · intro ds1 ds2 r hne1 _ hds1 hds2 hr
    have hp := parse_real_assignment (R := R) stod scale k sign ds1 ds2 hk hsign hds1 hds2
      (Or.inl hne1)
    rw [hr] at hp
    refine ⟨[(k, .Real (scale r (signValue sign)))], hp, ?_, ?_, ?_⟩
    · simp [valueIs, Table.valueIs, Table.get, Value.is]
    · simp [valueIs, Table.valueIs, Table.get, Value.is]
    · exact Table.valueAs_of_get .real_t k _ (.Real (scale r (signValue sign))) _
        (by simp [Table.get]) rfl
  · intro ds1 ds2 e hne1 _ hds1 hds2 he
    have hp := parse_real_assignment (R := R) stod scale k sign ds1 ds2 hk hsign hds1 hds2
      (Or.inl hne1)
    rw [he] at hp
    exact hp
  · intro ds hne hds hzero hle
    have hp := parse_digits_assignment (R := R) stod scale k sign ds hk hsign hne hds hzero
    rw [stoll_decimalValue ds hne hds, if_pos hle] at hp
    simp only [toInteger_mul_signValue] at hp
    refine ⟨[(k, .Integer (toInteger ((decimalValue ds : Int) * signValue sign)))], hp,
      ?_, ?_, ?_⟩
    · simp [valueIs, Table.valueIs, Table.get, Value.is]
    · simp [valueIs, Table.valueIs, Table.get, Value.is]
    · exact Table.valueAs_of_get .integer_t k _
        (.Integer (toInteger ((decimalValue ds : Int) * signValue sign))) _
        (by simp [Table.get]) rfl
  · intro ds hne hds hzero hgt
    have hp := parse_digits_assignment (R := R) stod scale k sign ds hk hsign hne hds hzero
    rw [stoll_decimalValue ds hne hds, if_neg (by omega)] at hp
    exact hp

/-- Instance of C16, amended: with a `std::stod` that converts the text, `y = 10.2` is
accepted and makes `y` a Real and no Integer; `x = 5` is accepted and makes `x` the
Integer 5 and no Real. -/
theorem kind_follows_form_when_converted_witness :
    (∃ root : Table Unit,
      parse (D := Unit) (fun _ => .ok ()) (fun _ _ => ())
        [assignment "y".toList (realLiteral [] "10".toList "2".toList)] = .ok root ∧
      valueIs .real_t "y".toList root = true ∧ valueIs .integer_t "y".toList root = false ∧
      valueAs .real_t "y".toList root = .ok ()) ∧
    (∃ root : Table Unit,
      parse (D := Unit) (fun _ => .ok ()) (fun _ _ => ())
        [assignment "x".toList ([] ++ "5".toList)] = .ok root ∧
      valueIs .integer_t "x".toList root = true ∧ valueIs .real_t "x".toList root = false ∧
      valueAs .integer_t "x".toList root =
        .ok (toInteger ((decimalValue "5".toList : Int) * signValue []))) ∧
    toInteger ((decimalValue "5".toList : Int) * signValue []) = 5 :=
  ⟨(kind_follows_form_when_converted (R := Unit) (D := Unit) (fun _ => .ok ())
      (fun _ _ => ()) "y".toList [] (by decide) (Or.inl rfl)).1 "10".toList "2".toList ()
      (by decide) (by decide) (by decide) (by decide) rfl,
    (kind_follows_form_when_converted (R := Unit) (D := Unit) (fun _ => .ok ())
      (fun _ _ => ()) "x".toList [] (by decide) (Or.inl rfl)).2.2.1 "5".toList
      (by decide) (by decide) (by decide) (by decide),
    by decide⟩

end KindOfConvertedLiteral

section AssignmentAfterAnyHeader

variable {R D : Type}

/-- C9: after a header line `[pre.last]` whose segments `pre` lead to a table, the next
assignment line `k = w` writes to the table the header made only when `last` was not yet
a key of its parent: then the header is accepted, the new table is the one at the path
`pre, last`, and after the line it holds exactly the key `k`, provided the value is read
and nothing is left on the line. When `last` was a key already, the header is accepted as
well, but the table it made has been destroyed on return from `parse_table`, and the
assignment line is read through the pointer to it: no tree is returned, and `k` is in no
table. So it is on `[a]`, `x = 1`, `[a]`, `y = 2`. For lines that are accepted, every
assignment line up to the next header goes to the table of the header and to no other;
`[t]`, `id = 10`, `[t.child]`, `id = 20` gives the tree the claim describes. -/
theorem assignment_after_header (stod : List Char → Except Err D) (scale : D → Int → R) :
    (∀ (st : ParserState R) (pre : List (List Char)) (last : List Char) (t : Table R)
      (k w : List Char),
      (∀ s ∈ pre ++ [last], isSegment s = true) →
      tableAt pre st.rootTable = some t → Table.contains last t = true →
      isKey k = true →
      parse_lines stod scale st [header (pre ++ [last]), assignment k w] =
        .error .danglingTable) ∧
    (∀ (st : ParserState R) (pre : List (List Char)) (last : List Char) (t : Table R)
      (k w : List Char) (v : Value R),
      (∀ s ∈ pre ++ [last], isSegment s = true) →
      tableAt pre st.rootTable = some t → Table.contains last t = false →
      isKey k = true → (∀ c ∈ w, c ≠ '#') → consumeWhitespace w = w →
      parse_value stod scale w = .ok (v, []) →
      ∃ st2 : ParserState R,
        parse_lines stod scale st [header (pre ++ [last]), assignment k w] = .ok st2 ∧
        st2.currentTable = some (pre ++ [last]) ∧
        tableAt (pre ++ [last]) st2.rootTable = some [(k, v)] ∧
        st2.rootTable = updateAt (Table.addValue k v) (pre ++ [last])
          (updateAt (Table.addValue last (.table_t [])) pre st.rootTable)) ∧
    parse (R := R) stod scale
      ["[a]".toList, "x = 1".toList, "[a]".toList, "y = 2".toList] =
      .error .danglingTable ∧
    (∀ (st st2 : ParserState R) (pre : List (List Char)) (last : List Char)
      (assigns : List (List Char)),
      (∀ s ∈ pre ++ [last], isSegment s = true) →
      (∀ l ∈ assigns, isHeaderLine l = false) →
      assigns.filter isAssignmentLine ≠ [] →
      parse_lines stod scale st (header (pre ++ [last]) :: assigns) = .ok st2 →
      (∃ t, tableAt pre st.rootTable = some t ∧ Table.contains last t = false) ∧
      st2.currentTable = some (pre ++ [last]) ∧
      (∃ created : Table R, tableAt (pre ++ [last]) st2.rootTable = some created ∧
        created.map Prod.fst = (assigns.filter isAssignmentLine).map lineKey ∧
        ∀ kv ∈ created, kv.2.is .table_t = false) ∧
      (∀ q, q ≠ pre ++ [last] →
        (tableAt q st2.rootTable).map Table.direct =
          (tableAt q (updateAt (Table.addValue last (.table_t [])) pre st.rootTable)).map
            Table.direct)) ∧
    (∃ (root t child : Table R),
      parse stod scale ["[t]".toList, "id = 10".toList, "[t.child]".toList,
        "id = 20".toList] = .ok root ∧
      Table.length root = 1 ∧ Table.contains "t".toList root = true ∧
      valueAs .table_t "t".toList root = .ok t ∧
      Table.length t = 2 ∧ valueAs .integer_t "id".toList t = .ok 10 ∧
      valueIs .table_t "child".toList t = true ∧
      valueAs .table_t "child".toList t = .ok child ∧
      Table.length child = 1 ∧ valueAs .integer_t "id".toList child = .ok 20) := by
  refine ⟨?_, ?_, rfl, (assignments_go_to_header_table stod scale).1,
    (assignments_go_to_header_table stod scale).2⟩
  · intro st pre last t k w hsegs hparent hold hk
    have h1 := parse_line_header_existing stod scale st pre last t hsegs hparent hold
    have h2 := parse_line_assignment_dangling stod scale
      (⟨st.rootTable, none⟩ : ParserState R) k w hk rfl
    simp only [parse_lines, h1, h2]
  · intro st pre last t k w v hsegs hparent hnew hk hw hws hv
    have h1 := parse_line_header_ok stod scale st pre last t hsegs hparent
    simp only [hnew, Bool.false_eq_true, if_false] at h1
    have hcreated := tableAt_created pre last st.rootTable t hparent hnew
    have h2 := parse_line_assignment stod scale
      (⟨updateAt (Table.addValue last (.table_t [])) pre st.rootTable,
        some (pre ++ [last])⟩ : ParserState R) (pre ++ [last]) [] k w hk rfl hcreated rfl
      hw hws
    rw [hv] at h2
    have h3 : parse_line stod scale
        (⟨updateAt (Table.addValue last (.table_t [])) pre st.rootTable,
          some (pre ++ [last])⟩ : ParserState R) (assignment k w) =
        .ok ⟨updateAt (Table.addValue k v) (pre ++ [last])
          (updateAt (Table.addValue last (.table_t [])) pre st.rootTable),
          some (pre ++ [last])⟩ := h2
    have h4 : parse_lines stod scale st [header (pre ++ [last]), assignment k w] =
        .ok ⟨updateAt (Table.addValue k v) (pre ++ [last])
          (updateAt (Table.addValue last (.table_t [])) pre st.rootTable),
          some (pre ++ [last])⟩ := by
      simp only [parse_lines, h1, h3]
    refine ⟨_, h4, rfl, ?_, rfl⟩
    have := tableAt_updateAt_self (Table.addValue k v) (pre ++ [last])
      (updateAt (Table.addValue last (.table_t [])) pre st.rootTable) [] hcreated
    simp only [this]
    rfl

/-- Instance of C9: in the state after `[a]`, `x = 1`, the lines `[a]`, `y = 2` return no
tree; in the empty state, the lines `[t]`, `id = 10` give the table `t` the one key
`id`. -/
theorem assignment_after_header_witness :
    parse_lines (R := Unit) (D := Unit) (fun _ => .ok ()) (fun _ _ => ())
      ⟨[("a".toList, .table_t [("x".toList, .Integer 1)])], some ["a".toList]⟩
      [header ([] ++ ["a".toList]), assignment "y".toList "2".toList] =
      .error .danglingTable ∧
    (∃ st2 : ParserState Unit,
      parse_lines (D := Unit) (fun _ => .ok ()) (fun _ _ => ()) ⟨[], some []⟩
        [header ([] ++ ["t".toList]), assignment "id".toList "10".toList] = .ok st2 ∧
      st2.currentTable = some ([] ++ ["t".toList]) ∧
      tableAt ([] ++ ["t".toList]) st2.rootTable = some [("id".toList, .Integer 10)] ∧
      st2.rootTable = updateAt (Table.addValue "id".toList (.Integer 10))
        ([] ++ ["t".toList])
        (updateAt (Table.addValue "t".toList (.table_t [])) [] [])) :=
  ⟨(assignment_after_header (R := Unit) (D := Unit) (fun _ => .ok ()) (fun _ _ => ())).1
      ⟨[("a".toList, .table_t [("x".toList, .Integer 1)])], some ["a".toList]⟩
      [] "a".toList [("a".toList, .table_t [("x".toList, .Integer 1)])]
      "y".toList "2".toList (by decide) rfl rfl (by decide),
    (assignment_after_header (R := Unit) (D := Unit) (fun _ => .ok ()) (fun _ _ => ())).2.1
      ⟨[], some []⟩ [] "t".toList [] "id".toList "10".toList (.Integer 10)
      (by decide) rfl rfl (by decide) (by decide) rfl rfl⟩

end AssignmentAfterAnyHeader

end sml
